import Mathlib

/-!
Verification of the B-tree ordered map (`src/libcollections/btree/map.rs`).

The map module (`map.rs`) is in the repository; the node module (`node.rs`) it
builds on is not, so the node primitives (`search`, `insert_as_leaf`,
`insert_as_internal`, `remove_as_leaf`, `is_underfull`, `handle_underflow`,
`hoist_lone_child`, `make_leaf_root`, `make_internal_root`, and the per-node
traversal) are modelled from the specification's §4.1 and §4.4 descriptions.
All `BTreeMap` and `SearchStack` level control flow is translated from
`map.rs` itself.

A node is a list of key-value pairs plus, for internal nodes, a list of
children.  Mutation-by-search-stack in the source becomes structural
recursion here: the propagation that the `SearchStack` performs while popping
frames child-to-parent is exactly the post-processing each recursive call
performs on its child's result.  Descent into the child at a given edge index
is implemented by auxiliary functions that walk the children list (`getAux`,
`insertGoAux`, `removeGoAux`), which keeps every operation structurally
recursive and hence computable by the kernel.
-/

set_option maxHeartbeats 1000000

namespace BTreeSpec

universe u v

variable {K : Type u} {V : Type v}

/-- Result of searching inside one node (spec §4.1 `search`): either the key
was found at kv-index `i`, or the search must continue down edge `i`. -/
inductive SearchResult where
  | found (i : Nat)
  | goDown (i : Nat)
deriving DecidableEq

/-- A B-tree node: a leaf holds key-value pairs; an internal node additionally
holds a list of children (the source stores `keys`, `vals` and `edges` arrays;
we pair keys with values). -/
inductive Node (K : Type u) (V : Type v) where
  | leaf (kvs : List (K × V))
  | internal (kvs : List (K × V)) (children : List (Node K V))

/-- Number of key-value pairs stored in the node itself (the node's `len`). -/
def Node.len : Node K V → Nat
  | .leaf kvs => kvs.length
  | .internal kvs _ => kvs.length

/-- Whether the node is a leaf (source `Node::is_leaf`). -/
def Node.is_leaf : Node K V → Bool
  | .leaf _ => true
  | .internal _ _ => false

/-- Modelled from the spec: node.rs `is_underfull` (not in src) — true iff
`len < B−1`; applies to non-root nodes only (spec §4.1). -/
def Node.is_underfull (b : Nat) (n : Node K V) : Bool :=
  decide (n.len < b - 1)

/-- Modelled from the spec: node.rs `Node::search` (not in src) — scan keys
left to right; return `found i` if `keys[i] == key`, or `goDown i` at the
first `i` where `keys[i] > key` (or `i = len` if all keys are smaller)
(spec §4.1 `search`). -/
def searchKeys [LinearOrder K] (kvs : List (K × V)) (key : K) : SearchResult :=
  match kvs with
  | [] => .goDown 0
  | p :: rest =>
    if key < p.1 then .goDown 0
    else if key = p.1 then .found 0
    else
      match searchKeys rest key with
      | .found i => .found (i + 1)
      | .goDown i => .goDown (i + 1)

mutual

/-- In-order flattening of a subtree: the sequence of key-value pairs it
stores, smallest key first (the specification side's view of the tree). -/
def Node.inorder : Node K V → List (K × V)
  | .leaf kvs => kvs
  | .internal kvs children => inorderZip children kvs

/-- In-order flattening of an internal node's children interleaved with its
separators: `c₀ k₀ c₁ k₁ … k_{L−1} c_L`. -/
def inorderZip : List (Node K V) → List (K × V) → List (K × V)
  | [], _ => []
  | c :: _, [] => Node.inorder c
  | c :: cs, kv :: kvs => Node.inorder c ++ kv :: inorderZip cs kvs

end

/-- `BTreeMap` (map.rs lines 86–91): the root node, the total element count,
the tree depth and the branching parameter. -/
structure BTreeMap (K : Type u) (V : Type v) where
  root : Node K V
  length : Nat
  depth : Nat
  b : Nat

/-- `BTreeMap::with_b` (map.rs lines 164–172): `assert!(b > 1)`, then an empty
map whose root is an empty leaf, with length 0 and depth 1.  The assertion
failure is modelled as `none`. -/
def with_b (b : Nat) : Option (BTreeMap K V) :=
  if 1 < b then
    some { length := 0, depth := 1, root := .leaf [], b := b }
  else
    none

/-- `BTreeMap::new` (map.rs lines 156–159): `BTreeMap::with_b(6)`. -/
def BTreeMap.new : Option (BTreeMap K V) :=
  with_b 6

/-- `BTreeMap::clear` (map.rs lines 187–191): replace the map with
`BTreeMap::with_b(self.b)` (the old tree is drained only to run destructors,
which has no observable effect on the value). -/
def BTreeMap.clear (m : BTreeMap K V) : BTreeMap K V :=
  { length := 0, depth := 1, root := .leaf [], b := m.b }

mutual

/-- `BTreeMap::get` (map.rs lines 217–231): descend from the root with
`Node::search`; on `Found` return the value, on `GoDown` in a leaf return
`None`, on `GoDown` in an internal node follow the edge. -/
def Node.get [LinearOrder K] : Node K V → K → Option V
  | .leaf kvs, key =>
    (match searchKeys kvs key with
     | .found i => (kvs.get? i).map (fun p => p.2)
     | .goDown _ => none)
  | .internal kvs children, key =>
    (match searchKeys kvs key with
     | .found i => (kvs.get? i).map (fun p => p.2)
     | .goDown i => getAux children i key)

/-- Descend into the child at edge index `i` (the `cur_node =
internal_handle.into_edge()` step of `BTreeMap::get`). -/
def getAux [LinearOrder K] : List (Node K V) → Nat → K → Option V
  | [], _, _ => none
  | c :: _, 0, key => Node.get c key
  | _ :: cs, i + 1, key => getAux cs i key

end

/-- `BTreeMap::get` at the map level. -/
def BTreeMap.get [LinearOrder K] (m : BTreeMap K V) (key : K) : Option V :=
  m.root.get key

/-- `BTreeMap::contains_key` (map.rs lines 249–251): `self.get(key).is_some()`. -/
def BTreeMap.contains_key [LinearOrder K] (m : BTreeMap K V) (key : K) : Bool :=
  (m.get key).isSome

/-- `BTreeMap::len` (map.rs line 1319). -/
def BTreeMap.len (m : BTreeMap K V) : Nat := m.length

/-- `BTreeMap::is_empty` (map.rs line 1334). -/
def BTreeMap.is_empty (m : BTreeMap K V) : Bool := m.len == 0

/-- Result of a node-level insertion (node.rs `InsertionResult`, described in
spec §4.1): either the pair fit, or the node split around a promoted median. -/
inductive InsertionResult (K : Type u) (V : Type v) where
  | fit (n : Node K V)
  | split (k : K) (v : V) (l : Node K V) (r : Node K V)

/-- Modelled from the spec: node.rs `insert_as_leaf` (not in src).  If
`len < 2B−1`, shift and write `(k,v)` at edge-index `i`.  Otherwise split into
left (`B−1` pairs) and right (`B−1` pairs) around the median `keys[B−1]`, then
place `(k,v)` into whichever side contains its insertion position
(spec §4.1 `insert_as_leaf`; the `none` median branch is unreachable, as a
full node has `2B−1 ≥ B` pairs). -/
def insert_as_leaf (b : Nat) (kvs : List (K × V)) (i : Nat) (key : K) (val : V) :
    InsertionResult K V :=
  if kvs.length < 2 * b - 1 then
    .fit (.leaf (kvs.take i ++ (key, val) :: kvs.drop i))
  else
    match kvs.get? (b - 1) with
    | none => .fit (.leaf kvs)
    | some med =>
      if i ≤ b - 1 then
        .split med.1 med.2
          (.leaf ((kvs.take (b - 1)).take i ++ (key, val) :: (kvs.take (b - 1)).drop i))
          (.leaf (kvs.drop b))
      else
        .split med.1 med.2
          (.leaf (kvs.take (b - 1)))
          (.leaf ((kvs.drop b).take (i - b) ++ (key, val) :: (kvs.drop b).drop (i - b)))

/-- Modelled from the spec: node.rs `insert_as_internal` (not in src) — the
same shift/split logic as `insert_as_leaf`, additionally inserting the right
child immediately to the right of the edge slot (spec §4.1).  `children` is
the children list after the descended edge's child has been replaced by the
split's left node; `r` is inserted at child-index `i+1`. -/
def insert_as_internal (b : Nat) (kvs : List (K × V)) (children : List (Node K V))
    (i : Nat) (key : K) (val : V) (r : Node K V) : InsertionResult K V :=
  if kvs.length < 2 * b - 1 then
    .fit (.internal (kvs.take i ++ (key, val) :: kvs.drop i)
                    (children.take (i + 1) ++ r :: children.drop (i + 1)))
  else
    match kvs.get? (b - 1) with
    | none => .fit (.internal kvs children)
    | some med =>
      if i ≤ b - 1 then
        .split med.1 med.2
          (.internal ((kvs.take (b - 1)).take i ++ (key, val) :: (kvs.take (b - 1)).drop i)
                     ((children.take b).take (i + 1) ++ r :: (children.take b).drop (i + 1)))
          (.internal (kvs.drop b) (children.drop b))
      else
        .split med.1 med.2
          (.internal (kvs.take (b - 1)) (children.take b))
          (.internal ((kvs.drop b).take (i - b) ++ (key, val) :: (kvs.drop b).drop (i - b))
                     ((children.drop b).take (i - b + 1) ++ r :: (children.drop b).drop (i - b + 1)))

/-- Modelled from the spec: node.rs `make_internal_root` (not in src) — a new
internal root whose single separator is `(k,v)`, whose left child is the
previous root and whose right child is the split's right node (spec §4.2
insert propagation). -/
def make_internal_root (k : K) (v : V) (l r : Node K V) : Node K V :=
  .internal [(k, v)] [l, r]

mutual

/-- `BTreeMap::insert` search descent (map.rs lines 334–389) combined with
`SearchStack::insert` propagation (map.rs lines 761–799).  On `Found`, swap
the values and report the old one; on a leaf edge call `insert_as_leaf` and
propagate any `Split` through `insert_as_internal` toward the root.  The
unreachable fallbacks (`found` index out of range, missing child) return the
node unchanged. -/
def Node.insertGo [LinearOrder K] (b : Nat) :
    Node K V → K → V → Option V × InsertionResult K V
  | .leaf kvs, key, val =>
    (match searchKeys kvs key with
     | .found i =>
       match kvs.get? i with
       | some p => (some p.2, .fit (.leaf (kvs.take i ++ (p.1, val) :: kvs.drop (i + 1))))
       | none => (none, .fit (.leaf kvs))
     | .goDown i => (none, insert_as_leaf b kvs i key val))
  | .internal kvs children, key, val =>
    (match searchKeys kvs key with
     | .found i =>
       match kvs.get? i with
       | some p =>
         (some p.2, .fit (.internal (kvs.take i ++ (p.1, val) :: kvs.drop (i + 1)) children))
       | none => (none, .fit (.internal kvs children))
     | .goDown i =>
       match insertGoAux b children i key val with
       | none => (none, .fit (.internal kvs children))
       | some (old, .fit c') =>
         (old, .fit (.internal kvs (children.take i ++ c' :: children.drop (i + 1))))
       | some (old, .split k v l r) =>
         (old, insert_as_internal b kvs (children.take i ++ l :: children.drop (i + 1)) i k v r))

/-- Recurse into the child at edge index `i` for `insert`; `none` when the
index is out of range (unreachable on well-formed trees). -/
def insertGoAux [LinearOrder K] (b : Nat) :
    List (Node K V) → Nat → K → V → Option (Option V × InsertionResult K V)
  | [], _, _, _ => none
  | c :: _, 0, key, val => some (Node.insertGo b c key val)
  | _ :: cs, i + 1, key, val => insertGoAux b cs i key val

end

/-- `BTreeMap::insert` (map.rs lines 334–389): run the search/insert descent
from the root; on a root split install a `make_internal_root` and increment
depth; the length is incremented iff a new pair was added (the
`self.map.length += 1` of `SearchStack::insert`, which runs exactly when no
existing value was swapped out). -/
def BTreeMap.insert [LinearOrder K] (m : BTreeMap K V) (key : K) (val : V) :
    Option V × BTreeMap K V :=
  match Node.insertGo m.b m.root key val with
  | (old, .fit r) =>
    (old, { m with root := r,
                   length := if old.isSome then m.length else m.length + 1 })
  | (old, .split k v l r) =>
    (old, { m with root := make_internal_root k v l r,
                   length := if old.isSome then m.length else m.length + 1,
                   depth := m.depth + 1 })

/-- Length of the last node of a list (0 when empty); used to test whether a
left sibling can spare a pair. -/
def lastLen (pre : List (Node K V)) : Nat :=
  match pre.getLast? with
  | some n => n.len
  | none => 0

/-- Length of the first node of a list (0 when empty); used to test whether a
right sibling can spare a pair. -/
def headLen (suf : List (Node K V)) : Nat :=
  match suf.head? with
  | some n => n.len
  | none => 0

/-- Modelled from the spec: the steal-from-left case of node.rs
`handle_underflow` (not in src) — remove the last `(k,v)` (and, for internal
nodes, the last child) from the left sibling; the parent's separator moves
into position 0 of the underfull child (the stolen child is prepended); the
stolen `(k,v)` replaces the separator (spec §4.1).  Returns
`(left', stolen, child')`.  Mismatched or empty shapes are unreachable
(siblings sit at equal depth and the left sibling has `> B−1 ≥ 1` pairs). -/
def stealLeftAux (left : Node K V) (sep : K × V) (child : Node K V) :
    Node K V × (K × V) × Node K V :=
  match left, child with
  | .leaf lkvs, .leaf ckvs =>
    (match lkvs.getLast? with
     | some stolen => (.leaf lkvs.dropLast, stolen, .leaf (sep :: ckvs))
     | none => (.leaf lkvs, sep, .leaf ckvs))
  | .internal lkvs lcs, .internal ckvs ccs =>
    (match lkvs.getLast?, lcs.getLast? with
     | some stolen, some stolenChild =>
       (.internal lkvs.dropLast lcs.dropLast, stolen,
        .internal (sep :: ckvs) (stolenChild :: ccs))
     | _, _ => (.internal lkvs lcs, sep, .internal ckvs ccs))
  | l, c => (l, sep, c)

/-- Modelled from the spec: the steal-from-right case of node.rs
`handle_underflow` (not in src) — symmetric to the left steal: the right
sibling's first `(k,v)` (and first child) is removed; the parent's separator
is appended to the underfull child; the stolen pair replaces the separator
(spec §4.1).  Returns `(child', stolen, right')`. -/
def stealRightAux (child : Node K V) (sep : K × V) (right : Node K V) :
    Node K V × (K × V) × Node K V :=
  match child, right with
  | .leaf ckvs, .leaf rkvs =>
    (match rkvs with
     | stolen :: rrest => (.leaf (ckvs ++ [sep]), stolen, .leaf rrest)
     | [] => (.leaf ckvs, sep, .leaf rkvs))
  | .internal ckvs ccs, .internal rkvs rcs =>
    (match rkvs, rcs with
     | stolen :: rrest, stolenChild :: rcrest =>
       (.internal (ckvs ++ [sep]) (ccs ++ [stolenChild]), stolen,
        .internal rrest rcrest)
     | _, _ => (.internal ckvs ccs, sep, .internal rkvs rcs))
  | c, r => (c, sep, r)

/-- Modelled from the spec: the merge case of node.rs `handle_underflow`
(not in src) — concatenate the left node, the parent's separator and the
right node (and their children) (spec §4.1). -/
def mergeNodes (left : Node K V) (sep : K × V) (right : Node K V) : Node K V :=
  match left, right with
  | .leaf lkvs, .leaf rkvs => .leaf (lkvs ++ sep :: rkvs)
  | .internal lkvs lcs, .internal rkvs rcs => .internal (lkvs ++ sep :: rkvs) (lcs ++ rcs)
  | l, _ => l

/-- Modelled from the spec: node.rs `handle_underflow` (not in src) — the
parent's children are given as `pre ++ child :: suf` with the underfull child
at edge index `pre.length`.  Prefer stealing from the left sibling if it has
more than `B−1` pairs, otherwise from the right sibling if it has more than
`B−1` pairs; otherwise merge, with the left sibling when one exists
(spec §4.1 `handle_underflow`).  Fallback branches (missing sibling or
separator) are unreachable on well-formed trees and leave the parent
unchanged. -/
def handle_underflow (b : Nat) (kvs : List (K × V)) (pre : List (Node K V))
    (child : Node K V) (suf : List (Node K V)) : Node K V :=
  if b - 1 < lastLen pre then
    match pre.getLast?, kvs.get? (pre.length - 1) with
    | some left, some sep =>
      let t := stealLeftAux left sep child
      .internal (kvs.take (pre.length - 1) ++ t.2.1 :: kvs.drop pre.length)
                (pre.dropLast ++ t.1 :: t.2.2 :: suf)
    | _, _ => .internal kvs (pre ++ child :: suf)
  else if b - 1 < headLen suf then
    match suf.head?, kvs.get? pre.length with
    | some right, some sep =>
      let t := stealRightAux child sep right
      .internal (kvs.take pre.length ++ t.2.1 :: kvs.drop (pre.length + 1))
                (pre ++ t.1 :: t.2.2 :: suf.tail)
    | _, _ => .internal kvs (pre ++ child :: suf)
  else if 0 < pre.length then
    match pre.getLast?, kvs.get? (pre.length - 1) with
    | some left, some sep =>
      .internal (kvs.take (pre.length - 1) ++ kvs.drop pre.length)
                (pre.dropLast ++ mergeNodes left sep child :: suf)
    | _, _ => .internal kvs (pre ++ child :: suf)
  else
    match suf.head?, kvs.get? 0 with
    | some right, some sep =>
      .internal (kvs.drop 1) (mergeNodes child sep right :: suf.tail)
    | _, _ => .internal kvs (pre ++ child :: suf)

/-- Modelled from the spec: node.rs `hoist_lone_child` (not in src) — when the
root is an internal node with `len = 0`, replace it in place with its single
remaining child (spec §4.1); any other node is left unchanged. -/
def Node.hoist_lone_child : Node K V → Node K V
  | .internal _ (c :: _) => c
  | n => n

mutual

/-- The in-order-successor extraction performed by `SearchStack::into_leaf`
followed by the leaf removal of `SearchStack::remove_leaf` (map.rs lines
699–750 and 639–679), restricted to the right subtree it descends: remove and
return the smallest pair of the subtree (always descending edge 0 down to a
leaf), handling any underflow of the descended child on the way back up.
`none` only on an empty leaf (unreachable on well-formed trees). -/
def Node.popMin [LinearOrder K] (b : Nat) : Node K V → Option ((K × V) × Node K V)
  | .leaf [] => none
  | .leaf (kv :: rest) => some (kv, .leaf rest)
  | .internal kvs children =>
    match children with
    | [] => none
    | c :: cs =>
      match Node.popMin b c with
      | none => none
      | some r =>
        if r.2.is_underfull b then
          some (r.1, handle_underflow b kvs [] r.2 cs)
        else
          some (r.1, .internal kvs (r.2 :: cs))

/-- `BTreeMap::remove` search descent (map.rs lines 443–468) combined with
`SearchStack::remove`/`into_leaf`/`remove_leaf` (map.rs lines 636–751): on
`Found` in a leaf, remove the pair; on `Found` in an internal node, swap the
pair with the smallest pair of the right subtree (which then replaces the
separator) and remove it from that leaf; walking back up, a frame whose child
underflowed calls `handle_underflow` on the parent.  Returns `none` when the
key is absent (no mutation). -/
def Node.removeGo [LinearOrder K] (b : Nat) : Node K V → K → Option (V × Node K V)
  | .leaf kvs, key =>
    (match searchKeys kvs key with
     | .found i =>
       match kvs.get? i with
       | some p => some (p.2, .leaf (kvs.take i ++ kvs.drop (i + 1)))
       | none => none
     | .goDown _ => none)
  | .internal kvs children, key =>
    (match searchKeys kvs key with
     | .found i =>
       match kvs.get? i, popMinAux b children (i + 1) with
       | some p, some r =>
         if r.2.is_underfull b then
           some (p.2, handle_underflow b (kvs.take i ++ r.1 :: kvs.drop (i + 1))
                        (children.take (i + 1)) r.2 (children.drop (i + 2)))
         else
           some (p.2, .internal (kvs.take i ++ r.1 :: kvs.drop (i + 1))
                        (children.take (i + 1) ++ r.2 :: children.drop (i + 2)))
       | _, _ => none
     | .goDown i =>
       match removeGoAux b children i key with
       | none => none
       | some r =>
         if r.2.is_underfull b then
           some (r.1, handle_underflow b kvs (children.take i) r.2 (children.drop (i + 1)))
         else
           some (r.1, .internal kvs (children.take i ++ r.2 :: children.drop (i + 1))))

/-- `Node.popMin` on the child at index `i` (the descent into the right
subtree of the found pair). -/
def popMinAux [LinearOrder K] (b : Nat) :
    List (Node K V) → Nat → Option ((K × V) × Node K V)
  | [], _ => none
  | c :: _, 0 => Node.popMin b c
  | _ :: cs, i + 1 => popMinAux b cs i

/-- Recurse into the child at edge index `i` for `remove`. -/
def removeGoAux [LinearOrder K] (b : Nat) :
    List (Node K V) → Nat → K → Option (V × Node K V)
  | [], _, _ => none
  | c :: _, 0, key => Node.removeGo b c key
  | _ :: cs, i + 1, key => removeGoAux b cs i key

end

/-- `BTreeMap::remove` (map.rs lines 443–468) with the root fix-up of
`SearchStack::remove_leaf` (map.rs lines 651–664): if the key was found,
decrement the length; if the remaining root is an internal node of length 0,
hoist its lone child and decrement depth. -/
def BTreeMap.remove [LinearOrder K] (m : BTreeMap K V) (key : K) :
    Option V × BTreeMap K V :=
  match Node.removeGo m.b m.root key with
  | none => (none, m)
  | some r =>
    if r.2.len == 0 && !r.2.is_leaf then
      (some r.1, { m with root := r.2.hoist_lone_child,
                          length := m.length - 1, depth := m.depth - 1 })
    else
      (some r.1, { m with root := r.2, length := m.length - 1 })

mutual

/-- Structural walker for the capacity and child-count invariants
(spec §8 items 1–3): the node's own length lies in `[lo, 2B−1]`, an internal
node of length `L` has exactly `L+1` children, and every strict descendant
has length in `[B−1, 2B−1]`.  Non-root nodes use `lo = B−1`; the root relaxes
its own lower bound. -/
def Node.balancedLo (b lo : Nat) : Node K V → Bool
  | .leaf kvs => decide (lo ≤ kvs.length) && decide (kvs.length ≤ 2 * b - 1)
  | .internal kvs children =>
    decide (lo ≤ kvs.length) && decide (kvs.length ≤ 2 * b - 1) &&
    decide (children.length = kvs.length + 1) && balancedList b children

/-- All nodes of the list satisfy the non-root capacity contract. -/
def balancedList (b : Nat) : List (Node K V) → Bool
  | [] => true
  | c :: cs => Node.balancedLo b (b - 1) c && balancedList b cs

end

/-- Root capacity contract (spec §8 item 3): a leaf root holds 0 to `2B−1`
pairs; an internal root holds at least one separator (a length-0 internal
root is immediately hoisted). -/
def Node.rootBalanced (b : Nat) : Node K V → Bool
  | .leaf kvs => Node.balancedLo b 0 (.leaf kvs)
  | .internal kvs children => Node.balancedLo b 1 (.internal kvs children)

mutual

/-- All leaves of the subtree sit at depth `d`, counted in nodes (`d = 1`
means the node itself is a leaf) — spec §8 item 4. -/
def Node.goodDepth : Node K V → Nat → Bool
  | .leaf _, d => d == 1
  | .internal _ children, d => decide (2 ≤ d) && goodDepthList children (d - 1)

/-- All nodes of the list have uniform leaf depth `d`. -/
def goodDepthList : List (Node K V) → Nat → Bool
  | [], _ => true
  | c :: cs, d => Node.goodDepth c d && goodDepthList cs d

end

/-- Keys of an association list are strictly increasing (spec §8 item 5 for a
single node's list, and for the whole in-order flattening the combination of
items 5 and 6). -/
def KSorted [LinearOrder K] (l : List (K × V)) : Prop :=
  List.Pairwise (fun p q : K × V => p.1 < q.1) l

instance [LinearOrder K] (l : List (K × V)) : Decidable (KSorted l) :=
  inferInstanceAs (Decidable (List.Pairwise _ l))

mutual

/-- Keys within each node of the subtree are strictly increasing
(spec §8 item 5). -/
def Node.eachNodeSorted [LinearOrder K] : Node K V → Bool
  | .leaf kvs => decide (KSorted kvs)
  | .internal kvs children => decide (KSorted kvs) && eachNodeSortedList children

/-- `Node.eachNodeSorted` on every node of the list. -/
def eachNodeSortedList [LinearOrder K] : List (Node K V) → Bool
  | [] => true
  | c :: cs => Node.eachNodeSorted c && eachNodeSortedList cs

end

/-- The well-formedness invariant of a `BTreeMap` (spec §3 BTreeMap
invariants and §8 items 1–7): a legal branching factor, the capacity and
child-count contract with the root exception, uniform leaf depth equal to the
`depth` field, the `length` field equal to the number of reachable pairs, and
a strictly increasing in-order key sequence (which subsumes both the
within-node and the inter-node ordering invariants). -/
def BTreeMap.WF [LinearOrder K] (m : BTreeMap K V) : Prop :=
  2 ≤ m.b ∧
  m.root.rootBalanced m.b = true ∧
  m.root.goodDepth m.depth = true ∧
  m.length = m.root.inorder.length ∧
  KSorted m.root.inorder

instance BTreeMap.WF.instDecidable [LinearOrder K] (m : BTreeMap K V) :
    Decidable m.WF :=
  decidable_of_iff
    (2 ≤ m.b ∧ m.root.rootBalanced m.b = true ∧ m.root.goodDepth m.depth = true ∧
      m.length = m.root.inorder.length ∧ KSorted m.root.inorder) Iff.rfl

/-- Reference model: lookup in an association list (first match). -/
def alookup (key : K) [DecidableEq K] : List (K × V) → Option V
  | [] => none
  | p :: rest => if key = p.1 then some p.2 else alookup key rest

/-- Reference model: insertion into a sorted association list — insert before
the first larger key, or replace the value at an equal key. -/
def listIns [LinearOrder K] (key : K) (val : V) : List (K × V) → List (K × V)
  | [] => [(key, val)]
  | p :: rest =>
    if key < p.1 then (key, val) :: p :: rest
    else if key = p.1 then (p.1, val) :: rest
    else p :: listIns key val rest

/-- Reference model: remove the first pair with the given key. -/
def eraseKeyL (key : K) [DecidableEq K] : List (K × V) → List (K × V)
  | [] => []
  | p :: rest => if key = p.1 then rest else p :: eraseKeyL key rest

/-- One item of a per-node sub-traversal (node.rs `TraversalItem`, spec §4.4):
either a key-value pair or an edge to a child node. -/
inductive TraversalItem (K : Type u) (V : Type v) where
  | elem (k : K) (v : V)
  | edge (n : Node K V)

/-- Modelled from the spec: the alternating item sequence of an internal
node's sub-traversal — `Edge, Elem, Edge, Elem, …, Edge` (spec §4.4). -/
def travInterleave : List (Node K V) → List (K × V) → List (TraversalItem K V)
  | [], _ => []
  | c :: _, [] => [.edge c]
  | c :: cs, kv :: kvs => .edge c :: .elem kv.1 kv.2 :: travInterleave cs kvs

/-- Modelled from the spec: node.rs `Node::iter`'s item sequence (not in
src) — a leaf yields `Elem, Elem, …`; an internal node yields the alternating
`Edge, Elem, …, Edge` sequence (spec §4.4).  A sub-traversal is consumed from
either end, so it is modelled as the list of its remaining items. -/
def Node.traversalItems : Node K V → List (TraversalItem K V)
  | .leaf kvs => kvs.map (fun p => .elem p.1 p.2)
  | .internal kvs children => travInterleave children kvs

mutual

/-- Structural size of a node (computable substitute for `sizeOf`). -/
def Node.sz : Node K V → Nat
  | .leaf kvs => 1 + kvs.length
  | .internal kvs children => 1 + kvs.length + szList children

/-- Sum of the structural sizes of a list of nodes. -/
def szList : List (Node K V) → Nat
  | [] => 0
  | c :: cs => Node.sz c + szList cs

end

/-- Termination weight of one traversal item (an edge weighs the size of the
node it still hides). -/
def itemW : TraversalItem K V → Nat
  | .elem _ _ => 1
  | .edge n => n.sz

/-- Termination weight of a sub-traversal. -/
def itemsW (l : List (TraversalItem K V)) : Nat := (l.map itemW).sum

/-- Termination weight of a deque of sub-traversals. -/
def stackW (ls : List (List (TraversalItem K V))) : Nat := (ls.map itemsW).sum

/-- `AbsIter` (map.rs lines 94–99): the LCA sub-traversal, the two deques of
sub-traversals descending toward the smallest (`left`) and largest (`right`)
unvisited elements, and the remaining element count.  The deques are lists
with the head at the deque's front. -/
structure AbsIter (K : Type u) (V : Type v) where
  lca : List (TraversalItem K V)
  left : List (List (TraversalItem K V))
  right : List (List (TraversalItem K V))
  size : Nat

/-- Termination measure for the iterator loops: every loop iteration of
`next`/`next_back` strictly decreases it. -/
def AbsIter.measure (it : AbsIter K V) : Nat :=
  2 * (itemsW it.lca + stackW it.left + stackW it.right) +
    it.left.length + it.right.length

/-- `AbsIter::next` (map.rs lines 950–997): try to advance the back of
`left`; a popped `Edge` pushes the child's sub-traversal onto `left`'s back;
an exhausted back is popped; with `left` empty advance `lca`, and when `lca`
is exhausted promote the front of `right` to be the new `lca`.  Yields the
next pair together with the successor state. -/
def AbsIter.next (it : AbsIter K V) : Option ((K × V) × AbsIter K V) :=
  match h : it.left.getLast? with
  | some iter =>
    match iter with
    | [] => AbsIter.next ⟨it.lca, it.left.dropLast, it.right, it.size⟩
    | .edge n :: rest =>
      AbsIter.next ⟨it.lca, it.left.dropLast ++ [rest, n.traversalItems], it.right, it.size⟩
    | .elem k v :: rest =>
      some ((k, v), ⟨it.lca, it.left.dropLast ++ [rest], it.right, it.size - 1⟩)
  | none =>
    match h2 : it.lca with
    | .edge n :: rest =>
      AbsIter.next ⟨rest, it.left ++ [n.traversalItems], it.right, it.size⟩
    | .elem k v :: rest => some ((k, v), ⟨rest, it.left, it.right, it.size - 1⟩)
    | [] =>
      match h3 : it.right with
      | [] => none
      | r :: rs => AbsIter.next ⟨r, it.left, rs, it.size⟩
  termination_by it.measure
  decreasing_by
  all_goals
    have hkey : ∀ n : Node K V, itemsW (Node.traversalItems n) < Node.sz n := by
      intro n
      cases n with
      | leaf kvs =>
        have h1 : itemsW (kvs.map (fun p => TraversalItem.elem p.1 p.2)) = kvs.length := by
          induction kvs with
          | nil => simp [itemsW]
          | cons p rest ih =>
            simp only [itemsW, itemW, List.map_cons, List.sum_cons,
              List.length_cons] at ih ⊢
            omega
        simp only [Node.traversalItems, Node.sz, h1]
        all_goals omega
      | internal kvs children =>
        have h3 : ∀ (cs : List (Node K V)) (ks : List (K × V)),
            itemsW (travInterleave cs ks) ≤ szList cs + ks.length := by
          intro cs
          induction cs with
          | nil => intro ks; simp [travInterleave, itemsW, szList]
          | cons c cs ih =>
            intro ks
            cases ks with
            | nil =>
              simp [travInterleave, itemsW, itemW, szList]
              all_goals omega
            | cons kv ks' =>
              have := ih ks'
              simp only [travInterleave, itemsW, itemW, szList, List.map_cons,
                List.sum_cons, List.length_cons] at this ⊢
              omega
        have h4 := h3 children kvs
        simp only [Node.traversalItems, Node.sz]
        all_goals omega
  all_goals
    simp only [AbsIter.measure]
    try rw [h2]
    try rw [h3]
    first
    | (have hdec := List.dropLast_append_getLast? _ (Option.mem_def.mpr h)
       conv_rhs => rw [← hdec]
       simp only [stackW, itemsW, List.map_append, List.sum_append, List.length_append,
         List.map_cons, List.sum_cons, List.map_nil, List.sum_nil, itemW,
         List.length_cons, List.length_nil]
       first
       | (have h5 := hkey n
          simp only [itemsW] at h5
          omega)
       | omega)
    | (simp only [stackW, itemsW, List.map_append, List.sum_append, List.length_append,
         List.map_cons, List.sum_cons, List.map_nil, List.sum_nil, itemW,
         List.length_cons, List.length_nil]
       first
       | (have h5 := hkey n
          simp only [itemsW] at h5
          omega)
       | omega)

/-- `AbsIter::next_back` (map.rs lines 1008–1040): the exact mirror of
`next`, advancing the back of `right` (each sub-traversal consumed from its
back), then the back of `lca`, then promoting the front of `left`. -/
def AbsIter.next_back (it : AbsIter K V) : Option ((K × V) × AbsIter K V) :=
  match h : it.right.getLast? with
  | some iter =>
    match h4 : iter.getLast? with
    | some (.edge n) =>
      AbsIter.next_back
        ⟨it.lca, it.left, it.right.dropLast ++ [iter.dropLast, n.traversalItems], it.size⟩
    | some (.elem k v) =>
      some ((k, v), ⟨it.lca, it.left, it.right.dropLast ++ [iter.dropLast], it.size - 1⟩)
    | none => AbsIter.next_back ⟨it.lca, it.left, it.right.dropLast, it.size⟩
  | none =>
    match h2 : it.lca.getLast? with
    | some (.edge n) =>
      AbsIter.next_back ⟨it.lca.dropLast, it.left, it.right ++ [n.traversalItems], it.size⟩
    | some (.elem k v) => some ((k, v), ⟨it.lca.dropLast, it.left, it.right, it.size - 1⟩)
    | none =>
      match h3 : it.left with
      | [] => none
      | l :: ls => AbsIter.next_back ⟨l, ls, it.right, it.size⟩
  termination_by it.measure
  decreasing_by
  all_goals
    have hkey : ∀ n : Node K V, itemsW (Node.traversalItems n) < Node.sz n := by
      intro n
      cases n with
      | leaf kvs =>
        have h1 : itemsW (kvs.map (fun p => TraversalItem.elem p.1 p.2)) = kvs.length := by
          induction kvs with
          | nil => simp [itemsW]
          | cons p rest ih =>
            simp only [itemsW, itemW, List.map_cons, List.sum_cons,
              List.length_cons] at ih ⊢
            omega
        simp only [Node.traversalItems, Node.sz, h1]
        all_goals omega
      | internal kvs children =>
        have h3 : ∀ (cs : List (Node K V)) (ks : List (K × V)),
            itemsW (travInterleave cs ks) ≤ szList cs + ks.length := by
          intro cs
          induction cs with
          | nil => intro ks; simp [travInterleave, itemsW, szList]
          | cons c cs ih =>
            intro ks
            cases ks with
            | nil =>
              simp [travInterleave, itemsW, itemW, szList]
              all_goals omega
            | cons kv ks' =>
              have := ih ks'
              simp only [travInterleave, itemsW, itemW, szList, List.map_cons,
                List.sum_cons, List.length_cons] at this ⊢
              omega
        have h4 := h3 children kvs
        simp only [Node.traversalItems, Node.sz]
        all_goals omega
  all_goals
    simp only [AbsIter.measure]
    try rw [h3]
    try (have hdec := List.dropLast_append_getLast? _ (Option.mem_def.mpr h)
         have e1 := congrArg stackW hdec
         have e3 := congrArg List.length hdec
         simp only [stackW, itemsW, itemW, List.map_append, List.sum_append,
           List.length_append, List.map_cons, List.sum_cons, List.map_nil,
           List.sum_nil, List.length_cons, List.length_nil] at e1 e3)
    try (have hdec4 := List.dropLast_append_getLast? _ (Option.mem_def.mpr h4)
         have e2 := congrArg itemsW hdec4
         simp only [itemsW, itemW, List.map_append, List.sum_append,
           List.map_cons, List.sum_cons, List.map_nil, List.sum_nil] at e2)
    try (have hdec2 := List.dropLast_append_getLast? _ (Option.mem_def.mpr h2)
         have e5 := congrArg itemsW hdec2
         simp only [itemsW, itemW, List.map_append, List.sum_append,
           List.map_cons, List.sum_cons, List.map_nil, List.sum_nil] at e5)
    try (have h5 := hkey n)
    simp only [stackW, itemsW, itemW, List.map_append, List.sum_append,
      List.length_append, List.map_cons, List.sum_cons, List.map_nil, List.sum_nil,
      List.length_cons, List.length_nil] at *
    omega

/-- The list of pairs produced by repeatedly calling `AbsIter::next` until it
is exhausted (a full forward iteration).  The branch structure is exactly
that of `AbsIter.next`, with each yield consed onto the continuation. -/
def AbsIter.drainF (it : AbsIter K V) : List (K × V) :=
  match h : it.left.getLast? with
  | some iter =>
    match iter with
    | [] => AbsIter.drainF ⟨it.lca, it.left.dropLast, it.right, it.size⟩
    | .edge n :: rest =>
      AbsIter.drainF ⟨it.lca, it.left.dropLast ++ [rest, n.traversalItems], it.right, it.size⟩
    | .elem k v :: rest =>
      (k, v) :: AbsIter.drainF ⟨it.lca, it.left.dropLast ++ [rest], it.right, it.size - 1⟩
  | none =>
    match h2 : it.lca with
    | .edge n :: rest =>
      AbsIter.drainF ⟨rest, it.left ++ [n.traversalItems], it.right, it.size⟩
    | .elem k v :: rest =>
      (k, v) :: AbsIter.drainF ⟨rest, it.left, it.right, it.size - 1⟩
    | [] =>
      match h3 : it.right with
      | [] => []
      | r :: rs => AbsIter.drainF ⟨r, it.left, rs, it.size⟩
  termination_by it.measure
  decreasing_by
  all_goals
    have hkey : ∀ n : Node K V, itemsW (Node.traversalItems n) < Node.sz n := by
      intro n
      cases n with
      | leaf kvs =>
        have h1 : itemsW (kvs.map (fun p => TraversalItem.elem p.1 p.2)) = kvs.length := by
          induction kvs with
          | nil => simp [itemsW]
          | cons p rest ih =>
            simp only [itemsW, itemW, List.map_cons, List.sum_cons,
              List.length_cons] at ih ⊢
            omega
        simp only [Node.traversalItems, Node.sz, h1]
        all_goals omega
      | internal kvs children =>
        have h3 : ∀ (cs : List (Node K V)) (ks : List (K × V)),
            itemsW (travInterleave cs ks) ≤ szList cs + ks.length := by
          intro cs
          induction cs with
          | nil => intro ks; simp [travInterleave, itemsW, szList]
          | cons c cs ih =>
            intro ks
            cases ks with
            | nil =>
              simp [travInterleave, itemsW, itemW, szList]
              all_goals omega
            | cons kv ks' =>
              have := ih ks'
              simp only [travInterleave, itemsW, itemW, szList, List.map_cons,
                List.sum_cons, List.length_cons] at this ⊢
              omega
        have h4 := h3 children kvs
        simp only [Node.traversalItems, Node.sz]
        all_goals omega
  all_goals
    simp only [AbsIter.measure]
    try rw [h2]
    try rw [h3]
    try (have hdec := List.dropLast_append_getLast? _ (Option.mem_def.mpr h)
         have e1 := congrArg stackW hdec
         have e3 := congrArg List.length hdec
         simp only [stackW, itemsW, itemW, List.map_append, List.sum_append,
           List.length_append, List.map_cons, List.sum_cons, List.map_nil,
           List.sum_nil, List.length_cons, List.length_nil] at e1 e3)
    try (have h5 := hkey n)
    simp only [stackW, itemsW, itemW, List.map_append, List.sum_append,
      List.length_append, List.map_cons, List.sum_cons, List.map_nil, List.sum_nil,
      List.length_cons, List.length_nil] at *
    omega

/-- The list of pairs produced by repeatedly calling `AbsIter::next_back`
until it is exhausted (a full reverse iteration). -/
def AbsIter.drainB (it : AbsIter K V) : List (K × V) :=
  match h : it.right.getLast? with
  | some iter =>
    match h4 : iter.getLast? with
    | some (.edge n) =>
      AbsIter.drainB
        ⟨it.lca, it.left, it.right.dropLast ++ [iter.dropLast, n.traversalItems], it.size⟩
    | some (.elem k v) =>
      (k, v) :: AbsIter.drainB ⟨it.lca, it.left, it.right.dropLast ++ [iter.dropLast], it.size - 1⟩
    | none => AbsIter.drainB ⟨it.lca, it.left, it.right.dropLast, it.size⟩
  | none =>
    match h2 : it.lca.getLast? with
    | some (.edge n) =>
      AbsIter.drainB ⟨it.lca.dropLast, it.left, it.right ++ [n.traversalItems], it.size⟩
    | some (.elem k v) =>
      (k, v) :: AbsIter.drainB ⟨it.lca.dropLast, it.left, it.right, it.size - 1⟩
    | none =>
      match h3 : it.left with
      | [] => []
      | l :: ls => AbsIter.drainB ⟨l, ls, it.right, it.size⟩
  termination_by it.measure
  decreasing_by
  all_goals
    have hkey : ∀ n : Node K V, itemsW (Node.traversalItems n) < Node.sz n := by
      intro n
      cases n with
      | leaf kvs =>
        have h1 : itemsW (kvs.map (fun p => TraversalItem.elem p.1 p.2)) = kvs.length := by
          induction kvs with
          | nil => simp [itemsW]
          | cons p rest ih =>
            simp only [itemsW, itemW, List.map_cons, List.sum_cons,
              List.length_cons] at ih ⊢
            omega
        simp only [Node.traversalItems, Node.sz, h1]
        all_goals omega
      | internal kvs children =>
        have h3 : ∀ (cs : List (Node K V)) (ks : List (K × V)),
            itemsW (travInterleave cs ks) ≤ szList cs + ks.length := by
          intro cs
          induction cs with
          | nil => intro ks; simp [travInterleave, itemsW, szList]
          | cons c cs ih =>
            intro ks
            cases ks with
            | nil =>
              simp [travInterleave, itemsW, itemW, szList]
              all_goals omega
            | cons kv ks' =>
              have := ih ks'
              simp only [travInterleave, itemsW, itemW, szList, List.map_cons,
                List.sum_cons, List.length_cons] at this ⊢
              omega
        have h4 := h3 children kvs
        simp only [Node.traversalItems, Node.sz]
        all_goals omega
  all_goals
    simp only [AbsIter.measure]
    try rw [h3]
    try (have hdec := List.dropLast_append_getLast? _ (Option.mem_def.mpr h)
         have e1 := congrArg stackW hdec
         have e3 := congrArg List.length hdec
         simp only [stackW, itemsW, itemW, List.map_append, List.sum_append,
           List.length_append, List.map_cons, List.sum_cons, List.map_nil,
           List.sum_nil, List.length_cons, List.length_nil] at e1 e3)
    try (have hdec4 := List.dropLast_append_getLast? _ (Option.mem_def.mpr h4)
         have e2 := congrArg itemsW hdec4
         simp only [itemsW, itemW, List.map_append, List.sum_append,
           List.map_cons, List.sum_cons, List.map_nil, List.sum_nil] at e2)
    try (have hdec2 := List.dropLast_append_getLast? _ (Option.mem_def.mpr h2)
         have e5 := congrArg itemsW hdec2
         simp only [itemsW, itemW, List.map_append, List.sum_append,
           List.map_cons, List.sum_cons, List.map_nil, List.sum_nil] at e5)
    try (have h5 := hkey n)
    simp only [stackW, itemsW, itemW, List.map_append, List.sum_append,
      List.length_append, List.map_cons, List.sum_cons, List.map_nil, List.sum_nil,
      List.length_cons, List.length_nil] at *
    omega

/-- `BTreeMap::iter` (map.rs lines 1189–1199): the abstract iterator whose
`lca` is the root's sub-traversal, with empty `left` and `right` deques and
`size` equal to the map's length. -/
def BTreeMap.iter (m : BTreeMap K V) : AbsIter K V :=
  ⟨m.root.traversalItems, [], [], m.length⟩

/-- The pairs a list of traversal items still hides, in forward order (edges
expand to the in-order flattening of their subtree). -/
def itemsFlatten : List (TraversalItem K V) → List (K × V)
  | [] => []
  | .elem k v :: rest => (k, v) :: itemsFlatten rest
  | .edge n :: rest => n.inorder ++ itemsFlatten rest

/-- Flattening of the `right` deque in iteration order (front sub-traversal
first). -/
def stackFlat (ls : List (List (TraversalItem K V))) : List (K × V) :=
  (ls.map itemsFlatten).flatten

/-- Flattening of the `left` deque in iteration order (back sub-traversal
first). -/
def stackFlatRev (ls : List (List (TraversalItem K V))) : List (K × V) :=
  ((ls.map itemsFlatten).reverse).flatten

/-- Denotation of an iterator state: the pairs a full forward drain yields,
in order. -/
def AbsIter.denote (it : AbsIter K V) : List (K × V) :=
  stackFlatRev it.left ++ itemsFlatten it.lca ++ stackFlat it.right

/-- A concrete sample map: four insertions at the minimum legal branching
factor `b = 2`, which forces a root split (root becomes internal, depth 2). -/
def sampleMap : BTreeMap Nat Nat :=
  (((({ root := .leaf [], length := 0, depth := 1, b := 2 } :
    BTreeMap Nat Nat).insert 1 10).2.insert 2 20).2.insert 3 30).2.insert 4 40
    |>.2

/-- The sample map after removing key 1: its root is the internal node
`[(3,30)] / [leaf [(2,20)], leaf [(4,40)]]`, so removing key 2 merges the
leaves and empties the internal root. -/
def sampleMap2 : BTreeMap Nat Nat := (sampleMap.remove 1).2

/-! ### Induction principle and basic equations -/

/-- Induction over the nested `Node` type with a membership-quantified
hypothesis for the children of an internal node. -/
theorem Node.myInduction {motive : Node K V → Prop}
    (hleaf : ∀ kvs, motive (.leaf kvs))
    (hint : ∀ kvs children, (∀ c ∈ children, motive c) → motive (.internal kvs children)) :
    ∀ n, motive n
  | .leaf kvs => hleaf kvs
  | .internal kvs children =>
    hint kvs children (fun c hc => Node.myInduction hleaf hint c)
  termination_by n => sizeOf n
  decreasing_by
    have := List.sizeOf_lt_of_mem hc
    simp only [Node.internal.sizeOf_spec]
    omega

@[simp] theorem inorder_leaf (kvs : List (K × V)) :
    (Node.leaf kvs).inorder = kvs := rfl

@[simp] theorem inorder_internal (kvs : List (K × V)) (cs : List (Node K V)) :
    (Node.internal kvs cs).inorder = inorderZip cs kvs := rfl

@[simp] theorem inorderZip_nil (kvs : List (K × V)) :
    inorderZip ([] : List (Node K V)) kvs = [] := rfl

@[simp] theorem inorderZip_cons_nil (c : Node K V) (cs : List (Node K V)) :
    inorderZip (c :: cs) [] = c.inorder := rfl

@[simp] theorem inorderZip_cons_cons (c : Node K V) (cs : List (Node K V))
    (kv : K × V) (kvs : List (K × V)) :
    inorderZip (c :: cs) (kv :: kvs) = c.inorder ++ kv :: inorderZip cs kvs := rfl

@[simp] theorem len_leaf (kvs : List (K × V)) : (Node.leaf kvs).len = kvs.length := rfl

@[simp] theorem len_internal (kvs : List (K × V)) (cs : List (Node K V)) :
    (Node.internal kvs cs).len = kvs.length := rfl

@[simp] theorem is_leaf_leaf (kvs : List (K × V)) : (Node.leaf kvs).is_leaf = true := rfl

@[simp] theorem is_leaf_internal (kvs : List (K × V)) (cs : List (Node K V)) :
    (Node.internal kvs cs).is_leaf = false := rfl

/-! ### Generic list helpers -/

theorem get?_decomp {α : Type _} :
    ∀ (l : List α) (i : Nat) (x : α), l.get? i = some x →
      l = l.take i ++ x :: l.drop (i + 1)
  | [], i, x, h => by simp at h
  | a :: l, 0, x, h => by
    rw [List.get?_cons_zero] at h
    injection h with h
    subst h
    simp
  | a :: l, i + 1, x, h => by
    rw [List.get?_cons_succ] at h
    have := get?_decomp l i x h
    simpa using this

theorem get?_lt_length {α : Type _} {l : List α} {i : Nat} {x : α}
    (h : l.get? i = some x) : i < l.length :=
  List.get?_eq_some.mp h |>.1

/-! ### Association list model: `alookup`, `listIns`, `eraseKeyL` -/

theorem alookup_eq_none [LinearOrder K] {key : K} :
    ∀ {l : List (K × V)}, alookup key l = none ↔ ∀ p ∈ l, key ≠ p.1
  | [] => by simp [alookup]
  | p :: rest => by
    by_cases h : key = p.1
    · simp [alookup, h]
    · simp [alookup, h, alookup_eq_none]

theorem alookup_append_not [LinearOrder K] {key : K} {A B : List (K × V)}
    (h : ∀ p ∈ A, key ≠ p.1) : alookup key (A ++ B) = alookup key B := by
  induction A with
  | nil => simp
  | cons p A ih =>
    have hp := h p (by simp)
    simp only [List.cons_append, alookup, if_neg hp]
    exact ih (fun q hq => h q (by simp [hq]))

theorem alookup_cons_eq [LinearOrder K] {key : K} {p : K × V} {B : List (K × V)}
    (h : key = p.1) : alookup key (p :: B) = some p.2 := by
  simp [alookup, h]

theorem listIns_append [LinearOrder K] {key : K} {val : V} {A B : List (K × V)}
    (h : ∀ p ∈ A, p.1 < key) : listIns key val (A ++ B) = A ++ listIns key val B := by
  induction A with
  | nil => simp
  | cons p A ih =>
    have hp := h p (by simp)
    have h1 : ¬ key < p.1 := not_lt.mpr (le_of_lt hp)
    have h2 : ¬ key = p.1 := fun e => absurd hp (by simp [e])
    simp only [List.cons_append, listIns, if_neg h1, if_neg h2, List.append_eq]
    rw [ih (fun q hq => h q (by simp [hq]))]

theorem listIns_of_gt [LinearOrder K] {key : K} {val : V} {B : List (K × V)}
    (h : ∀ p ∈ B, key < p.1) : listIns key val B = (key, val) :: B := by
  cases B with
  | nil => rfl
  | cons p B => simp [listIns, h p (by simp)]

theorem listIns_cons_eq [LinearOrder K] {key : K} {val : V} {p : K × V}
    {B : List (K × V)} (h : key = p.1) : listIns key val (p :: B) = (p.1, val) :: B := by
  simp [listIns, h]

theorem alookup_listIns [LinearOrder K] {key : K} {val : V} :
    ∀ (l : List (K × V)), alookup key (listIns key val l) = some val
  | [] => by simp [listIns, alookup]
  | p :: rest => by
    by_cases h1 : key < p.1
    · simp [listIns, h1, alookup]
    · by_cases h2 : key = p.1
      · simp [listIns, h1, h2, alookup]
      · simp only [listIns, if_neg h1, if_neg h2, alookup]
        exact alookup_listIns rest

theorem keys_listIns_subset [LinearOrder K] {key : K} {val : V} :
    ∀ (l : List (K × V)) (q : K × V), q ∈ listIns key val l →
      q.1 = key ∨ q ∈ l
  | [], q, h => by
    rw [listIns, List.mem_singleton] at h
    left
    rw [h]
  | p :: rest, q, h => by
    by_cases h1 : key < p.1
    · rw [listIns, if_pos h1] at h
      rcases List.mem_cons.mp h with h | h
      · left; rw [h]
      · right; exact h
    · by_cases h2 : key = p.1
      · rw [listIns, if_neg h1, if_pos h2] at h
        rcases List.mem_cons.mp h with h | h
        · left; rw [h]; exact h2.symm
        · right; exact List.mem_cons_of_mem p h
      · rw [listIns, if_neg h1, if_neg h2] at h
        rcases List.mem_cons.mp h with h | h
        · right; rw [h]; exact List.mem_cons_self p rest
        · rcases keys_listIns_subset rest q h with h' | h'
          · exact Or.inl h'
          · exact Or.inr (List.mem_cons_of_mem p h')

theorem KSorted_listIns [LinearOrder K] {key : K} {val : V} :
    ∀ {l : List (K × V)}, KSorted l → KSorted (listIns key val l)
  | [], _ => by simp [listIns, KSorted]
  | p :: rest, hs => by
    rw [KSorted, List.pairwise_cons] at hs
    obtain ⟨hp, hrest⟩ := hs
    by_cases h1 : key < p.1
    · rw [listIns, if_pos h1]
      rw [KSorted, List.pairwise_cons]
      refine ⟨?_, ?_⟩
      · intro q hq
        rcases List.mem_cons.mp hq with hq | hq
        · simp [hq, h1]
        · exact lt_trans h1 (hp q hq)
      · rw [List.pairwise_cons]
        exact ⟨hp, hrest⟩
    · by_cases h2 : key = p.1
      · rw [listIns, if_neg h1, if_pos h2]
        rw [KSorted, List.pairwise_cons]
        exact ⟨hp, hrest⟩
      · rw [listIns, if_neg h1, if_neg h2]
        rw [KSorted, List.pairwise_cons]
        refine ⟨?_, KSorted_listIns hrest⟩
        intro q hq
        rcases keys_listIns_subset rest q hq with h' | h'
        · rw [h']
          rcases lt_trichotomy key p.1 with h | h | h
          · exact absurd h h1
          · exact absurd h h2
          · exact h
        · exact hp q h'

theorem length_listIns_none [LinearOrder K] {key : K} {val : V} :
    ∀ {l : List (K × V)}, alookup key l = none →
      (listIns key val l).length = l.length + 1
  | [], _ => by simp [listIns]
  | p :: rest, h => by
    rw [alookup_eq_none] at h
    have hp := h p (by simp)
    by_cases h1 : key < p.1
    · simp [listIns, h1]
    · rw [listIns, if_neg h1, if_neg hp]
      simp only [List.length_cons]
      rw [length_listIns_none (alookup_eq_none.mpr (fun q hq => h q (by simp [hq])))]

theorem length_listIns_some [LinearOrder K] {key : K} {val : V} {v : V} :
    ∀ {l : List (K × V)}, KSorted l → alookup key l = some v →
      (listIns key val l).length = l.length
  | [], _, h => by simp [alookup] at h
  | p :: rest, hs, h => by
    rw [KSorted, List.pairwise_cons] at hs
    obtain ⟨hp, hrest⟩ := hs
    by_cases h2 : key = p.1
    · have h1 : ¬ key < p.1 := by simp [h2]
      simp [listIns, h1, h2]
    · rw [alookup, if_neg h2] at h
      by_cases h1 : key < p.1
      · exfalso
        have : ∀ q ∈ rest, key ≠ q.1 := by
          intro q hq
          exact ne_of_lt (lt_trans h1 (hp q hq))
        rw [alookup_eq_none.mpr this] at h
        exact Option.noConfusion h
      · rw [listIns, if_neg h1, if_neg h2]
        simp only [List.length_cons]
        rw [length_listIns_some hrest h]

theorem eraseKeyL_append [LinearOrder K] {key : K} {A B : List (K × V)}
    (h : ∀ p ∈ A, key ≠ p.1) : eraseKeyL key (A ++ B) = A ++ eraseKeyL key B := by
  induction A with
  | nil => simp
  | cons p A ih =>
    have hp := h p (by simp)
    simp only [List.cons_append, eraseKeyL, if_neg hp, List.append_eq]
    rw [ih (fun q hq => h q (by simp [hq]))]

theorem eraseKeyL_cons_eq [LinearOrder K] {key : K} {p : K × V} {B : List (K × V)}
    (h : key = p.1) : eraseKeyL key (p :: B) = B := by
  simp [eraseKeyL, h]

theorem eraseKeyL_of_none [LinearOrder K] {key : K} :
    ∀ {l : List (K × V)}, alookup key l = none → eraseKeyL key l = l
  | [], _ => rfl
  | p :: rest, h => by
    rw [alookup_eq_none] at h
    have hp := h p (by simp)
    rw [eraseKeyL, if_neg hp,
      eraseKeyL_of_none (alookup_eq_none.mpr (fun q hq => h q (by simp [hq])))]

theorem eraseKeyL_sublist [LinearOrder K] (key : K) :
    ∀ (l : List (K × V)), List.Sublist (eraseKeyL key l) l
  | [] => List.Sublist.refl []
  | p :: rest => by
    by_cases h : key = p.1
    · rw [eraseKeyL, if_pos h]
      exact List.sublist_cons_self p rest
    · rw [eraseKeyL, if_neg h]
      exact List.Sublist.cons₂ p (eraseKeyL_sublist key rest)

theorem KSorted.eraseKeyL [LinearOrder K] {key : K} {l : List (K × V)}
    (hs : KSorted l) : KSorted (BTreeSpec.eraseKeyL key l) :=
  List.Pairwise.sublist (eraseKeyL_sublist key l) hs

theorem length_eraseKeyL [LinearOrder K] {key : K} {v : V} :
    ∀ {l : List (K × V)}, alookup key l = some v →
      (eraseKeyL key l).length + 1 = l.length
  | [], h => by simp [alookup] at h
  | p :: rest, h => by
    by_cases h2 : key = p.1
    · simp [eraseKeyL, h2]
    · rw [alookup, if_neg h2] at h
      rw [eraseKeyL, if_neg h2]
      simp only [List.length_cons]
      rw [← length_eraseKeyL h]

theorem alookup_eraseKeyL [LinearOrder K] {key : K} :
    ∀ {l : List (K × V)}, KSorted l → alookup key (eraseKeyL key l) = none
  | [], _ => rfl
  | p :: rest, hs => by
    rw [KSorted, List.pairwise_cons] at hs
    obtain ⟨hp, hrest⟩ := hs
    by_cases h2 : key = p.1
    · rw [eraseKeyL_cons_eq h2, alookup_eq_none]
      intro q hq
      rw [h2]
      exact ne_of_lt (hp q hq)
    · rw [eraseKeyL, if_neg h2, alookup, if_neg h2]
      exact alookup_eraseKeyL hrest

theorem eraseKeyL_listIns [LinearOrder K] {key : K} {val : V} :
    ∀ {l : List (K × V)}, alookup key l = none →
      eraseKeyL key (listIns key val l) = l
  | [], _ => by simp [listIns, eraseKeyL]
  | p :: rest, h => by
    rw [alookup_eq_none] at h
    have hp := h p (by simp)
    by_cases h1 : key < p.1
    · rw [listIns, if_pos h1, eraseKeyL, if_pos rfl]
    · rw [listIns, if_neg h1, if_neg hp, eraseKeyL, if_neg hp,
        eraseKeyL_listIns (alookup_eq_none.mpr (fun q hq => h q (by simp [hq])))]

/-! ### Structure of `inorderZip` -/

theorem inorderZip_split :
    ∀ (i : Nat) (cs : List (Node K V)) (kvs : List (K × V)), i ≤ kvs.length →
      inorderZip cs kvs =
        inorderZip (cs.take i) (kvs.take i) ++ inorderZip (cs.drop i) (kvs.drop i)
  | 0, cs, kvs, _ => by simp
  | i + 1, cs, kvs, h => by
    cases kvs with
    | nil => simp at h
    | cons kv kvs' =>
      cases cs with
      | nil => simp
      | cons c cs' =>
        simp only [List.take_succ_cons, List.drop_succ_cons, inorderZip_cons_cons]
        rw [inorderZip_split i cs' kvs' (by simpa using h)]
        simp

theorem inorderZip_concat :
    ∀ (cs : List (Node K V)) (kvs : List (K × V)) (cl : Node K V) (kl : K × V),
      cs.length = kvs.length + 1 →
      inorderZip (cs ++ [cl]) (kvs ++ [kl]) = inorderZip cs kvs ++ kl :: cl.inorder
  | [], kvs, cl, kl, h => by simp at h
  | c :: cs', kvs, cl, kl, h => by
    cases kvs with
    | nil =>
      have : cs' = [] := by
        simpa using List.length_eq_zero.mp (by simpa using h)
      subst this
      simp
    | cons kv kvs' =>
      simp only [List.cons_append, inorderZip_cons_cons]
      rw [inorderZip_concat cs' kvs' cl kl (by simpa using h)]
      simp

theorem kvs_sublist_inorderZip :
    ∀ (cs : List (Node K V)) (kvs : List (K × V)), kvs.length < cs.length →
      List.Sublist kvs (inorderZip cs kvs)
  | cs, [], _ => List.nil_sublist _
  | c :: cs', kv :: kvs', h => by
    simp only [inorderZip_cons_cons]
    have := kvs_sublist_inorderZip cs' kvs' (by simpa using h)
    exact (List.Sublist.cons₂ kv this).trans (List.sublist_append_right c.inorder _)
  | [], kv :: kvs', h => by simp at h

theorem child_sublist_inorderZip :
    ∀ (i : Nat) (cs : List (Node K V)) (kvs : List (K × V)) (c : Node K V),
      cs.get? i = some c → i ≤ kvs.length →
      List.Sublist c.inorder (inorderZip cs kvs)
  | 0, [], kvs, c, h, _ => by simp at h
  | 0, c0 :: cs', kvs, c, h, _ => by
    rw [List.get?_cons_zero] at h
    injection h with h
    subst h
    cases kvs with
    | nil => simp
    | cons kv kvs' =>
      simp only [inorderZip_cons_cons]
      exact List.sublist_append_left _ _
  | i + 1, [], kvs, c, h, _ => by simp at h
  | i + 1, c0 :: cs', kvs, c, h, hle => by
    rw [List.get?_cons_succ] at h
    cases kvs with
    | nil => simp at hle
    | cons kv kvs' =>
      simp only [inorderZip_cons_cons]
      have := child_sublist_inorderZip i cs' kvs' c h (by simpa using hle)
      exact this.trans
        ((List.sublist_cons_self kv _).trans (List.sublist_append_right c0.inorder _))

/-! ### Extraction lemmas for the invariants -/

@[simp] theorem balancedList_nil (b : Nat) :
    balancedList b ([] : List (Node K V)) = true := rfl

@[simp] theorem balancedList_cons (b : Nat) (c : Node K V) (cs : List (Node K V)) :
    balancedList b (c :: cs) = (c.balancedLo b (b - 1) && balancedList b cs) := rfl

@[simp] theorem balancedLo_leaf (b lo : Nat) (kvs : List (K × V)) :
    (Node.leaf kvs).balancedLo b lo =
      (decide (lo ≤ kvs.length) && decide (kvs.length ≤ 2 * b - 1)) := rfl

@[simp] theorem balancedLo_internal (b lo : Nat) (kvs : List (K × V))
    (cs : List (Node K V)) :
    (Node.internal kvs cs).balancedLo b lo =
      (decide (lo ≤ kvs.length) && decide (kvs.length ≤ 2 * b - 1) &&
       decide (cs.length = kvs.length + 1) && balancedList b cs) := rfl

theorem balancedList_append {b : Nat} {A B : List (Node K V)} :
    balancedList b (A ++ B) = (balancedList b A && balancedList b B) := by
  induction A with
  | nil => simp
  | cons c A ih => simp [ih, Bool.and_assoc]

theorem balancedList_mem {b : Nat} {cs : List (Node K V)} {c : Node K V}
    (hb : balancedList b cs = true) (hc : c ∈ cs) : c.balancedLo b (b - 1) = true := by
  induction cs with
  | nil => simp at hc
  | cons c0 cs ih =>
    simp only [balancedList_cons, Bool.and_eq_true] at hb
    rcases List.mem_cons.mp hc with h | h
    · rw [h]; exact hb.1
    · exact ih hb.2 h

theorem balancedList_get? {b : Nat} {cs : List (Node K V)} {i : Nat} {c : Node K V}
    (h : cs.get? i = some c) (hb : balancedList b cs = true) :
    c.balancedLo b (b - 1) = true :=
  balancedList_mem hb (List.get?_mem h)

theorem balancedLo_mono {b : Nat} {n : Node K V} :
    ∀ {lo lo' : Nat}, lo' ≤ lo → n.balancedLo b lo = true → n.balancedLo b lo' = true := by
  intro lo lo' hle h
  cases n with
  | leaf kvs =>
    simp only [balancedLo_leaf, Bool.and_eq_true, decide_eq_true_eq] at h ⊢
    omega
  | internal kvs cs =>
    simp only [balancedLo_internal, Bool.and_eq_true, decide_eq_true_eq] at h ⊢
    refine ⟨⟨⟨?_, h.1.1.2⟩, h.1.2⟩, h.2⟩
    omega

theorem balancedLo_len_le {b lo : Nat} {n : Node K V}
    (h : n.balancedLo b lo = true) : lo ≤ n.len ∧ n.len ≤ 2 * b - 1 := by
  cases n with
  | leaf kvs => simpa using (by simpa [Bool.and_eq_true] using h : _ ∧ _)
  | internal kvs cs =>
    simp only [balancedLo_internal, Bool.and_eq_true, decide_eq_true_eq] at h
    exact ⟨h.1.1.1, h.1.1.2⟩

@[simp] theorem goodDepthList_nil (d : Nat) :
    goodDepthList ([] : List (Node K V)) d = true := rfl

@[simp] theorem goodDepthList_cons (c : Node K V) (cs : List (Node K V)) (d : Nat) :
    goodDepthList (c :: cs) d = (c.goodDepth d && goodDepthList cs d) := rfl

@[simp] theorem goodDepth_leaf (kvs : List (K × V)) (d : Nat) :
    (Node.leaf kvs).goodDepth d = (d == 1) := rfl

@[simp] theorem goodDepth_internal (kvs : List (K × V)) (cs : List (Node K V)) (d : Nat) :
    (Node.internal kvs cs).goodDepth d =
      (decide (2 ≤ d) && goodDepthList cs (d - 1)) := rfl

theorem goodDepthList_append {A B : List (Node K V)} {d : Nat} :
    goodDepthList (A ++ B) d = (goodDepthList A d && goodDepthList B d) := by
  induction A with
  | nil => simp
  | cons c A ih => simp [ih, Bool.and_assoc]

theorem goodDepthList_mem {cs : List (Node K V)} {c : Node K V} {d : Nat}
    (hd : goodDepthList cs d = true) (hc : c ∈ cs) : c.goodDepth d = true := by
  induction cs with
  | nil => simp at hc
  | cons c0 cs ih =>
    simp only [goodDepthList_cons, Bool.and_eq_true] at hd
    rcases List.mem_cons.mp hc with h | h
    · rw [h]; exact hd.1
    · exact ih hd.2 h

theorem goodDepth_is_leaf {n : Node K V} {d : Nat} (h : n.goodDepth d = true) :
    n.is_leaf = true ↔ d = 1 := by
  cases n with
  | leaf kvs => simp at h ⊢; omega
  | internal kvs cs =>
    simp only [goodDepth_internal, Bool.and_eq_true, decide_eq_true_eq] at h
    simp only [is_leaf_internal]
    constructor
    · intro hh; exact absurd hh (by simp)
    · intro hh; omega

/-! ### `searchKeys` -/

theorem searchKeys_found_spec [LinearOrder K] :
    ∀ {kvs : List (K × V)} {key : K} {i : Nat}, searchKeys kvs key = .found i →
      (∀ p ∈ kvs.take i, p.1 < key) ∧ ∃ v, kvs.get? i = some (key, v)
  | [], key, i, h => by simp [searchKeys] at h
  | p :: rest, key, i, h => by
    rw [searchKeys] at h
    by_cases h1 : key < p.1
    · rw [if_pos h1] at h
      exact absurd h (by simp)
    · rw [if_neg h1] at h
      by_cases h2 : key = p.1
      · rw [if_pos h2] at h
        injection h with h
        subst h
        refine ⟨by simp, p.2, ?_⟩
        rw [List.get?_cons_zero]
        rw [h2]
      · rw [if_neg h2] at h
        rcases hres : searchKeys rest key with j | j
        · rw [hres] at h
          injection h with h
          subst h
          obtain ⟨hlt, v, hv⟩ := searchKeys_found_spec hres
          refine ⟨?_, v, by simpa using hv⟩
          intro q hq
          rw [List.take_succ_cons] at hq
          rcases List.mem_cons.mp hq with hh | hh
          · rw [hh]
            rcases lt_trichotomy p.1 key with ht | ht | ht
            · exact ht
            · exact absurd ht.symm h2
            · exact absurd ht h1
          · exact hlt q hh
        · rw [hres] at h
          exact absurd h (by simp)

theorem searchKeys_goDown_spec [LinearOrder K] :
    ∀ {kvs : List (K × V)} {key : K} {i : Nat}, searchKeys kvs key = .goDown i →
      i ≤ kvs.length ∧ (∀ p ∈ kvs.take i, p.1 < key) ∧
      (∀ p, kvs.get? i = some p → key < p.1)
  | [], key, i, h => by
    rw [searchKeys] at h
    injection h with h
    subst h
    exact ⟨by simp, by simp, by simp⟩
  | p :: rest, key, i, h => by
    rw [searchKeys] at h
    by_cases h1 : key < p.1
    · rw [if_pos h1] at h
      injection h with h
      subst h
      refine ⟨by simp, by simp, ?_⟩
      intro q hq
      rw [List.get?_cons_zero] at hq
      injection hq with hq
      subst hq
      exact h1
    · rw [if_neg h1] at h
      by_cases h2 : key = p.1
      · rw [if_pos h2] at h
        exact absurd h (by simp)
      · rw [if_neg h2] at h
        rcases hres : searchKeys rest key with j | j
        · rw [hres] at h
          exact absurd h (by simp)
        · rw [hres] at h
          injection h with h
          subst h
          obtain ⟨hle, hlt, hgt⟩ := searchKeys_goDown_spec hres
          refine ⟨by simpa using hle, ?_, ?_⟩
          · intro q hq
            rw [List.take_succ_cons] at hq
            rcases List.mem_cons.mp hq with hh | hh
            · rw [hh]
              rcases lt_trichotomy p.1 key with ht | ht | ht
              · exact ht
              · exact absurd ht.symm h2
              · exact absurd ht h1
            · exact hlt q hh
          · intro q hq
            rw [List.get?_cons_succ] at hq
            exact hgt q hq

theorem searchKeys_goDown_gt [LinearOrder K] {kvs : List (K × V)} {key : K} {i : Nat}
    (hs : KSorted kvs) (h : searchKeys kvs key = .goDown i) :
    ∀ p ∈ kvs.drop i, key < p.1 := by
  obtain ⟨hle, hlt, hgt⟩ := searchKeys_goDown_spec h
  intro p hp
  cases hd : kvs.drop i with
  | nil => rw [hd] at hp; simp at hp
  | cons q rest' =>
    have hq : kvs.get? i = some q := by
      have : (kvs.drop i).get? 0 = some q := by rw [hd]; rfl
      rwa [List.get?_drop, Nat.add_zero] at this
    have hkq := hgt q hq
    rw [hd] at hp
    rcases List.mem_cons.mp hp with hh | hh
    · rw [hh]; exact hkq
    · have hsd : KSorted (kvs.drop i) := List.Pairwise.sublist (List.drop_sublist i kvs) hs
      rw [hd, KSorted, List.pairwise_cons] at hsd
      exact lt_trans hkq (hsd.1 p hh)

/-! ### Decomposition of the in-order flattening around a child -/

theorem drop_eq_cons {α : Type _} :
    ∀ {l : List α} {i : Nat} {x : α}, l.get? i = some x →
      l.drop i = x :: l.drop (i + 1)
  | [], i, x, h => by simp at h
  | a :: l, 0, x, h => by
    rw [List.get?_cons_zero] at h
    injection h with h
    subst h
    simp
  | a :: l, i + 1, x, h => by
    rw [List.get?_cons_succ] at h
    simpa using drop_eq_cons h

theorem inorderZip_eq_concat :
    ∀ (cs : List (Node K V)) (kvs : List (K × V)) (cl : Node K V) (kl : K × V),
      cs.length = kvs.length →
      inorderZip (cs ++ [cl]) (kvs ++ [kl]) = inorderZip cs kvs ++ cl.inorder ++ [kl]
  | [], kvs, cl, kl, h => by
    have : kvs = [] := List.length_eq_zero.mp (by simpa using h.symm)
    subst this
    simp
  | c :: cs', kvs, cl, kl, h => by
    cases kvs with
    | nil => simp at h
    | cons kv kvs' =>
      simp only [List.cons_append, inorderZip_cons_cons]
      rw [inorderZip_eq_concat cs' kvs' cl kl (by simpa using h)]
      simp

theorem inorderZip_around_last {cs : List (Node K V)} {kvs : List (K × V)}
    {i : Nat} {c : Node K V} (hc : cs.get? i = some c) (hi : i = kvs.length) :
    inorderZip cs kvs = inorderZip (cs.take i) (kvs.take i) ++ c.inorder := by
  rw [inorderZip_split i cs kvs (le_of_eq hi)]
  congr 1
  rw [drop_eq_cons hc]
  have : kvs.drop i = [] := by
    rw [hi]
    simp
  rw [this, inorderZip_cons_nil]

theorem inorderZip_around {cs : List (Node K V)} {kvs : List (K × V)}
    {i : Nat} {c : Node K V} {sep : K × V}
    (hc : cs.get? i = some c) (hsep : kvs.get? i = some sep) :
    inorderZip cs kvs =
      inorderZip (cs.take i) (kvs.take i) ++ c.inorder ++
        sep :: inorderZip (cs.drop (i + 1)) (kvs.drop (i + 1)) := by
  rw [inorderZip_split i cs kvs (le_of_lt (get?_lt_length hsep))]
  rw [drop_eq_cons hc, drop_eq_cons hsep, inorderZip_cons_cons]
  simp

theorem sorted_last_bound [LinearOrder K] {A : List (K × V)} {x : K × V} {key : K}
    (hs : KSorted (A ++ [x])) (hx : x.1 < key) : ∀ p ∈ A ++ [x], p.1 < key := by
  rw [KSorted, List.pairwise_append] at hs
  intro p hp
  rcases List.mem_append.mp hp with h | h
  · exact lt_trans (hs.2.2 p h x (by simp)) hx
  · rw [List.mem_singleton.mp h]
    exact hx

theorem sorted_head_bound [LinearOrder K] {S : List (K × V)} {x : K × V} {key : K}
    (hs : KSorted (x :: S)) (hx : key < x.1) : ∀ p ∈ x :: S, key < p.1 := by
  rw [KSorted, List.pairwise_cons] at hs
  intro p hp
  rcases List.mem_cons.mp hp with h | h
  · rw [h]; exact hx
  · exact lt_trans hx (hs.1 p h)

/-- All keys in the flattening of the first `i` children and separators are
below `key`, provided the separators among them are. -/
theorem prefix_keys_lt [LinearOrder K] {cs : List (Node K V)} {kvs : List (K × V)}
    {i : Nat} {key : K}
    (hsort : KSorted (inorderZip cs kvs))
    (hlen : kvs.length < cs.length)
    (hi : i ≤ kvs.length)
    (hlt : ∀ p ∈ kvs.take i, p.1 < key) :
    ∀ p ∈ inorderZip (cs.take i) (kvs.take i), p.1 < key := by
  cases i with
  | zero => simp
  | succ j =>
    obtain ⟨cj, hcj⟩ : ∃ cj, cs.get? j = some cj := by
      rcases h' : cs.get? j with _ | cj
      · exact absurd (List.get?_eq_none.mp h') (by omega)
      · exact ⟨cj, rfl⟩
    obtain ⟨kvj, hkvj⟩ : ∃ kvj, kvs.get? j = some kvj := by
      rcases h' : kvs.get? j with _ | kvj
      · exact absurd (List.get?_eq_none.mp h') (by omega)
      · exact ⟨kvj, rfl⟩
    have htc : cs.take (j + 1) = cs.take j ++ [cj] := by
      rw [List.take_succ, ← List.get?_eq_getElem?, hcj]
      rfl
    have htk : kvs.take (j + 1) = kvs.take j ++ [kvj] := by
      rw [List.take_succ, ← List.get?_eq_getElem?, hkvj]
      rfl
    have hzipA : inorderZip (cs.take (j + 1)) (kvs.take (j + 1)) =
        inorderZip (cs.take j) (kvs.take j) ++ cj.inorder ++ [kvj] := by
      rw [htc, htk]
      exact inorderZip_eq_concat _ _ _ _ (by
        rw [List.length_take, List.length_take]
        omega)
    have hsortA : KSorted (inorderZip (cs.take (j + 1)) (kvs.take (j + 1))) := by
      have := inorderZip_split (j + 1) cs kvs hi
      rw [this, KSorted, List.pairwise_append] at hsort
      exact hsort.1
    have hkvj_lt : kvj.1 < key := by
      apply hlt
      rw [htk]
      simp
    rw [hzipA] at hsortA ⊢
    exact sorted_last_bound hsortA hkvj_lt

theorem alookup_append_right_not [LinearOrder K] {key : K} {A B : List (K × V)}
    (h : ∀ p ∈ B, key ≠ p.1) : alookup key (A ++ B) = alookup key A := by
  induction A with
  | nil =>
    simp only [List.nil_append, alookup]
    exact alookup_eq_none.mpr h
  | cons p A ih =>
    by_cases hp : key = p.1
    · rw [List.cons_append, alookup, if_pos hp, alookup, if_pos hp]
    · rw [List.cons_append, alookup, if_neg hp, alookup, if_neg hp, ih]

theorem alookup_decomp [LinearOrder K] {l P S : List (K × V)} {key : K} {v : V}
    (hs : KSorted l) (hd : l = P ++ (key, v) :: S) : alookup key l = some v := by
  subst hd
  rw [KSorted, List.pairwise_append] at hs
  have : ∀ p ∈ P, key ≠ p.1 := fun p hp =>
    (ne_of_lt (hs.2.2 p hp (key, v) (by simp))).symm
  rw [alookup_append_not this]
  exact alookup_cons_eq rfl

/-! ### Correctness of `get` -/

theorem getAux_eq [LinearOrder K] :
    ∀ (cs : List (Node K V)) (i : Nat) (key : K),
      getAux cs i key =
        (match cs.get? i with
         | some c => Node.get c key
         | none => none)
  | [], 0, _ => rfl
  | [], _ + 1, _ => rfl
  | _ :: _, 0, _ => rfl
  | _ :: cs, i + 1, key => getAux_eq cs i key

theorem get_eq_alookup [LinearOrder K] {b : Nat} :
    ∀ (n : Node K V), n.balancedLo b 0 = true → KSorted n.inorder →
      ∀ key, n.get key = alookup key n.inorder := by
  intro n
  induction n using Node.myInduction with
  | hleaf kvs =>
    intro _ hs key
    show (match searchKeys kvs key with
          | .found i => (kvs.get? i).map (fun p => p.2)
          | .goDown _ => none) = alookup key kvs
    rcases hsk : searchKeys kvs key with i | i
    · obtain ⟨hlt, v, hv⟩ := searchKeys_found_spec hsk
      show Option.map (fun p => p.2) (kvs.get? i) = alookup key kvs
      rw [hv]
      exact (alookup_decomp hs (get?_decomp kvs i (key, v) hv)).symm
    · have hgt := searchKeys_goDown_gt hs hsk
      obtain ⟨hle, hlt, _⟩ := searchKeys_goDown_spec hsk
      show (none : Option V) = alookup key kvs
      symm
      rw [alookup_eq_none]
      intro p hp
      have hsplit : p ∈ kvs.take i ++ kvs.drop i := by
        rw [List.take_append_drop]
        exact hp
      rcases List.mem_append.mp hsplit with h | h
      · exact (ne_of_lt (hlt p h)).symm
      · exact ne_of_lt (hgt p h)
  | hint kvs children ih =>
    intro hbal hs key
    rw [inorder_internal] at hs
    simp only [balancedLo_internal, Bool.and_eq_true, decide_eq_true_eq] at hbal
    obtain ⟨⟨⟨_, hub⟩, hcount⟩, hblist⟩ := hbal
    show (match searchKeys kvs key with
          | .found i => (kvs.get? i).map (fun p => p.2)
          | .goDown i => getAux children i key) = alookup key (inorderZip children kvs)
    have hkvs_sorted : KSorted kvs :=
      List.Pairwise.sublist (kvs_sublist_inorderZip children kvs (by omega)) hs
    rcases hsk : searchKeys kvs key with i | i
    · obtain ⟨hlt, v, hv⟩ := searchKeys_found_spec hsk
      show Option.map (fun p => p.2) (kvs.get? i) = alookup key (inorderZip children kvs)
      rw [hv]
      obtain ⟨c, hc⟩ : ∃ c, children.get? i = some c := by
        rcases h' : children.get? i with _ | c
        · have := get?_lt_length hv
          exact absurd (List.get?_eq_none.mp h') (by omega)
        · exact ⟨c, rfl⟩
      exact (alookup_decomp hs (inorderZip_around hc hv)).symm
    · obtain ⟨hle, hlt, hgt⟩ := searchKeys_goDown_spec hsk
      obtain ⟨c, hc⟩ : ∃ c, children.get? i = some c := by
        rcases h' : children.get? i with _ | c
        · exact absurd (List.get?_eq_none.mp h') (by omega)
        · exact ⟨c, rfl⟩
      show getAux children i key = alookup key (inorderZip children kvs)
      rw [getAux_eq, hc]
      show Node.get c key = alookup key (inorderZip children kvs)
      have hcsorted : KSorted c.inorder :=
        List.Pairwise.sublist (child_sublist_inorderZip i children kvs c hc hle) hs
      have hcbal : c.balancedLo b 0 = true :=
        balancedLo_mono (Nat.zero_le _) (balancedList_get? hc hblist)
      rw [ih c (List.get?_mem hc) hcbal hcsorted key]
      have hprefix : ∀ p ∈ inorderZip (children.take i) (kvs.take i), key ≠ p.1 :=
        fun p hp => (ne_of_lt (prefix_keys_lt hs (by omega) hle hlt p hp)).symm
      rcases Nat.lt_or_ge i kvs.length with hi | hi
      · obtain ⟨sep, hsep⟩ : ∃ sep, kvs.get? i = some sep := by
          rcases h' : kvs.get? i with _ | sep
          · exact absurd (List.get?_eq_none.mp h') (by omega)
          · exact ⟨sep, rfl⟩
        rw [inorderZip_around hc hsep]
        have hsuffix_sorted :
            KSorted (sep :: inorderZip (children.drop (i + 1)) (kvs.drop (i + 1))) := by
          rw [inorderZip_around hc hsep, List.append_assoc, KSorted,
            List.pairwise_append] at hs
          have := hs.2.1
          rw [List.pairwise_append] at this
          exact this.2.1
        have hsuffix :
            ∀ p ∈ sep :: inorderZip (children.drop (i + 1)) (kvs.drop (i + 1)),
              key ≠ p.1 := by
          intro p hp
          exact ne_of_lt (sorted_head_bound hsuffix_sorted (hgt sep hsep) p hp)
        rw [List.append_assoc, alookup_append_not hprefix,
          alookup_append_right_not hsuffix]
      · have hieq : i = kvs.length := by omega
        rw [inorderZip_around_last hc hieq, alookup_append_not hprefix]

/-! ### Helpers for the insert and remove proofs -/

theorem listIns_append_right [LinearOrder K] {key : K} {val : V} {S : List (K × V)}
    (hS : ∀ p ∈ S, key < p.1) :
    ∀ (A : List (K × V)), listIns key val (A ++ S) = listIns key val A ++ S
  | [] => by
    rw [List.nil_append, listIns_of_gt hS]
    rfl
  | p :: A => by
    by_cases h1 : key < p.1
    · rw [List.cons_append, listIns, if_pos h1, listIns, if_pos h1]
      rfl
    · by_cases h2 : key = p.1
      · rw [List.cons_append, listIns, if_neg h1, if_pos h2, listIns, if_neg h1, if_pos h2]
        rfl
      · rw [List.cons_append, listIns, if_neg h1, if_neg h2, listIns, if_neg h1, if_neg h2,
          listIns_append_right hS A]
        rfl

theorem sorted_before_key [LinearOrder K] {X Y : List (K × V)} {key : K} {v : V}
    (hs : KSorted (X ++ (key, v) :: Y)) : ∀ p ∈ X, p.1 < key := by
  rw [KSorted, List.pairwise_append] at hs
  exact fun p hp => hs.2.2 p hp (key, v) (by simp)

theorem sorted_after_key [LinearOrder K] {X Y : List (K × V)} {key : K} {v : V}
    (hs : KSorted (X ++ (key, v) :: Y)) : ∀ p ∈ Y, key < p.1 := by
  rw [KSorted, List.pairwise_append] at hs
  have := hs.2.1
  rw [List.pairwise_cons] at this
  exact this.1

theorem get?_append_cons {α : Type _} :
    ∀ (A : List α) (x : α) (B : List α), (A ++ x :: B).get? A.length = some x
  | [], x, B => rfl
  | a :: A, x, B => get?_append_cons A x B

theorem take_append_cons {α : Type _} {A : List α} {i : Nat} (h : A.length = i)
    (x : α) (B : List α) : (A ++ x :: B).take i = A := by
  subst h
  exact List.take_left A _

theorem drop_append_cons {α : Type _} {A : List α} {i : Nat} (h : A.length = i)
    (x : α) (B : List α) : (A ++ x :: B).drop (i + 1) = B := by
  subst h
  have : A ++ x :: B = (A ++ [x]) ++ B := by simp
  rw [this]
  have hl : (A ++ [x]).length = A.length + 1 := by simp
  rw [← hl]
  exact List.drop_left _ _

theorem length_take_of_le {α : Type _} {l : List α} {i : Nat} (h : i ≤ l.length) :
    (l.take i).length = i := by
  rw [List.length_take]
  omega

/-- Replacing the child at index `i` rewrites the flattening inside a fixed
prefix and suffix. -/
theorem inorderZip_replace {cs : List (Node K V)} {kvs : List (K × V)} {i : Nat}
    {c : Node K V} (hc : cs.get? i = some c) (hle : i ≤ kvs.length) (c' : Node K V) :
    (i = kvs.length ∧
      inorderZip cs kvs = inorderZip (cs.take i) (kvs.take i) ++ c.inorder ∧
      inorderZip (cs.take i ++ c' :: cs.drop (i + 1)) kvs =
        inorderZip (cs.take i) (kvs.take i) ++ c'.inorder) ∨
    (∃ sep, kvs.get? i = some sep ∧
      inorderZip cs kvs = inorderZip (cs.take i) (kvs.take i) ++ c.inorder ++
        sep :: inorderZip (cs.drop (i + 1)) (kvs.drop (i + 1)) ∧
      inorderZip (cs.take i ++ c' :: cs.drop (i + 1)) kvs =
        inorderZip (cs.take i) (kvs.take i) ++ c'.inorder ++
          sep :: inorderZip (cs.drop (i + 1)) (kvs.drop (i + 1))) := by
  have hilt : i < cs.length := get?_lt_length hc
  have hlen : (cs.take i).length = i := length_take_of_le (le_of_lt hilt)
  have hc' : (cs.take i ++ c' :: cs.drop (i + 1)).get? i = some c' := by
    have := get?_append_cons (cs.take i) c' (cs.drop (i + 1))
    rwa [hlen] at this
  have htake : (cs.take i ++ c' :: cs.drop (i + 1)).take i = cs.take i :=
    take_append_cons hlen c' _
  have hdrop : (cs.take i ++ c' :: cs.drop (i + 1)).drop (i + 1) = cs.drop (i + 1) :=
    drop_append_cons hlen c' _
  rcases Nat.lt_or_ge i kvs.length with hi | hi
  · right
    obtain ⟨sep, hsep⟩ : ∃ sep, kvs.get? i = some sep := by
      rcases h' : kvs.get? i with _ | sep
      · exact absurd (List.get?_eq_none.mp h') (by omega)
      · exact ⟨sep, rfl⟩
    refine ⟨sep, hsep, inorderZip_around hc hsep, ?_⟩
    have := inorderZip_around hc' hsep
    rwa [htake, hdrop] at this
  · left
    have hieq : i = kvs.length := by omega
    refine ⟨hieq, inorderZip_around_last hc hieq, ?_⟩
    have := inorderZip_around_last hc' hieq
    rwa [htake] at this

/-- A two-part children list with a separator between the parts flattens to
the two flattenings around the separator. -/
theorem inorderZip_append_split :
    ∀ (lD : List (Node K V)) (lkvs : List (K × V)) (rD : List (Node K V))
      (med : K × V) (rkvs : List (K × V)), lD.length = lkvs.length + 1 →
      inorderZip (lD ++ rD) (lkvs ++ med :: rkvs) =
        inorderZip lD lkvs ++ med :: inorderZip rD rkvs
  | [], lkvs, rD, med, rkvs, h => by simp at h
  | c :: lD', lkvs, rD, med, rkvs, h => by
    cases lkvs with
    | nil =>
      have : lD' = [] := List.length_eq_zero.mp (by simpa using h)
      subst this
      simp
    | cons kv lkvs' =>
      simp only [List.cons_append, inorderZip_cons_cons]
      rw [inorderZip_append_split lD' lkvs' rD med rkvs (by simpa using h)]
      simp

/-! ### Specifications of the node-level insertion primitives -/

theorem listIns_searchIdx [LinearOrder K] {kvs : List (K × V)} {key : K} (val : V)
    {i : Nat} (hs : KSorted kvs) (hsk : searchKeys kvs key = .goDown i) :
    listIns key val kvs = kvs.take i ++ (key, val) :: kvs.drop i := by
  have hlt := (searchKeys_goDown_spec hsk).2.1
  have hgt := searchKeys_goDown_gt hs hsk
  conv_lhs => rw [← List.take_append_drop i kvs]
  rw [listIns_append hlt, listIns_of_gt hgt]

theorem insert_as_leaf_spec [LinearOrder K] {b : Nat} (hb : 2 ≤ b)
    {kvs : List (K × V)} (key : K) (val : V) {i : Nat}
    (hub : kvs.length ≤ 2 * b - 1) (hi : i ≤ kvs.length) :
    (kvs.length < 2 * b - 1 ∧
      insert_as_leaf b kvs i key val =
        .fit (.leaf (kvs.take i ++ (key, val) :: kvs.drop i))) ∨
    (kvs.length = 2 * b - 1 ∧ ∃ med lk rk,
      insert_as_leaf b kvs i key val = .split med.1 med.2 (.leaf lk) (.leaf rk) ∧
      lk ++ med :: rk = kvs.take i ++ (key, val) :: kvs.drop i ∧
      b - 1 ≤ lk.length ∧ lk.length ≤ b ∧ b - 1 ≤ rk.length ∧ rk.length ≤ b) := by
  by_cases hfull : kvs.length < 2 * b - 1
  · left
    exact ⟨hfull, by rw [insert_as_leaf, if_pos hfull]⟩
  · right
    have hlen : kvs.length = 2 * b - 1 := by omega
    obtain ⟨med, hmed⟩ : ∃ med, kvs.get? (b - 1) = some med := by
      rcases h' : kvs.get? (b - 1) with _ | med
      · exact absurd (List.get?_eq_none.mp h') (by omega)
      · exact ⟨med, rfl⟩
    have hdropb : kvs.drop (b - 1) = med :: kvs.drop b := by
      have := drop_eq_cons hmed
      have hb1 : b - 1 + 1 = b := by omega
      rwa [hb1] at this
    refine ⟨hlen, ?_⟩
    by_cases hile : i ≤ b - 1
    · have heq1 : insert_as_leaf b kvs i key val =
          .split med.1 med.2
            (.leaf ((kvs.take (b - 1)).take i ++ (key, val) :: (kvs.take (b - 1)).drop i))
            (.leaf (kvs.drop b)) := by
        rw [insert_as_leaf, if_neg hfull]
        split
        · next heq => rw [hmed] at heq; exact absurd heq (by simp)
        · next med' heq =>
          rw [hmed] at heq
          injection heq with heq
          subst heq
          rw [if_pos hile]
      refine ⟨med, _, _, heq1, ?_, ?_, ?_, ?_, ?_⟩
      · have h1 : (kvs.take (b - 1)).take i = kvs.take i := by
          rw [List.take_take]
          congr 1
          omega
        have h2 : (kvs.take (b - 1)).drop i = (kvs.drop i).take (b - 1 - i) :=
          List.drop_take (b - 1) i kvs
        rw [h1, h2]
        simp only [List.cons_append, List.append_assoc]
        congr 2
        have h3 : (kvs.drop i).drop (b - 1 - i) = kvs.drop (b - 1) := by
          rw [List.drop_drop]
          congr 1
          omega
        conv_rhs => rw [← List.take_append_drop (b - 1 - i) (kvs.drop i)]
        rw [h3, hdropb]
      · simp only [List.length_append, List.length_cons, List.length_take, List.length_drop]
        omega
      · simp only [List.length_append, List.length_cons, List.length_take, List.length_drop]
        omega
      · simp only [List.length_drop]
        omega
      · simp only [List.length_drop]
        omega
    · have hib : b ≤ i := by omega
      have heq1 : insert_as_leaf b kvs i key val =
          .split med.1 med.2
            (.leaf (kvs.take (b - 1)))
            (.leaf ((kvs.drop b).take (i - b) ++ (key, val) :: (kvs.drop b).drop (i - b))) := by
        rw [insert_as_leaf, if_neg hfull]
        split
        · next heq => rw [hmed] at heq; exact absurd heq (by simp)
        · next med' heq =>
          rw [hmed] at heq
          injection heq with heq
          subst heq
          rw [if_neg hile]
      refine ⟨med, _, _, heq1, ?_, ?_, ?_, ?_, ?_⟩
      · have h4 : med :: (kvs.drop b).take (i - b) = (kvs.drop (b - 1)).take (i - b + 1) := by
          rw [hdropb]
          rfl
        have h5 : (kvs.drop b).drop (i - b) = kvs.drop i := by
          rw [List.drop_drop]
          congr 1
          omega
        have h6 : kvs.take (b - 1) ++ (kvs.drop (b - 1)).take (i - b + 1) = kvs.take i := by
          rw [← List.take_add]
          congr 1
          omega
        rw [h5, ← List.cons_append, ← List.append_assoc, h4, h6]
      · simp only [List.length_take]
        omega
      · simp only [List.length_take]
        omega
      · simp only [List.length_append, List.length_cons, List.length_take, List.length_drop]
        omega
      · simp only [List.length_append, List.length_cons, List.length_take, List.length_drop]
        omega

theorem insert_as_internal_spec [LinearOrder K] {b : Nat} (hb : 2 ≤ b)
    {kvs : List (K × V)} {D : List (Node K V)} (key : K) (val : V) {i : Nat}
    (r : Node K V)
    (hub : kvs.length ≤ 2 * b - 1) (hcount : D.length = kvs.length + 1)
    (hi : i ≤ kvs.length) :
    (kvs.length < 2 * b - 1 ∧
      insert_as_internal b kvs D i key val r =
        .fit (.internal (kvs.take i ++ (key, val) :: kvs.drop i)
                        (D.take (i + 1) ++ r :: D.drop (i + 1)))) ∨
    (kvs.length = 2 * b - 1 ∧ ∃ med lkvs lD rkvs rD,
      insert_as_internal b kvs D i key val r =
        .split med.1 med.2 (.internal lkvs lD) (.internal rkvs rD) ∧
      lkvs ++ med :: rkvs = kvs.take i ++ (key, val) :: kvs.drop i ∧
      lD ++ rD = D.take (i + 1) ++ r :: D.drop (i + 1) ∧
      lD.length = lkvs.length + 1 ∧ rD.length = rkvs.length + 1 ∧
      b - 1 ≤ lkvs.length ∧ lkvs.length ≤ b ∧ b - 1 ≤ rkvs.length ∧ rkvs.length ≤ b) := by
  by_cases hfull : kvs.length < 2 * b - 1
  · left
    exact ⟨hfull, by rw [insert_as_internal, if_pos hfull]⟩
  · right
    have hlen : kvs.length = 2 * b - 1 := by omega
    obtain ⟨med, hmed⟩ : ∃ med, kvs.get? (b - 1) = some med := by
      rcases h' : kvs.get? (b - 1) with _ | med
      · exact absurd (List.get?_eq_none.mp h') (by omega)
      · exact ⟨med, rfl⟩
    have hdropb : kvs.drop (b - 1) = med :: kvs.drop b := by
      have := drop_eq_cons hmed
      have hb1 : b - 1 + 1 = b := by omega
      rwa [hb1] at this
    refine ⟨hlen, ?_⟩
    by_cases hile : i ≤ b - 1
    · have heq1 : insert_as_internal b kvs D i key val r =
          .split med.1 med.2
            (.internal ((kvs.take (b - 1)).take i ++ (key, val) :: (kvs.take (b - 1)).drop i)
                       ((D.take b).take (i + 1) ++ r :: (D.take b).drop (i + 1)))
            (.internal (kvs.drop b) (D.drop b)) := by
        rw [insert_as_internal, if_neg hfull]
        split
        · next heq => rw [hmed] at heq; exact absurd heq (by simp)
        · next med' heq =>
          rw [hmed] at heq
          injection heq with heq
          subst heq
          rw [if_pos hile]
      refine ⟨med, _, _, _, _, heq1, ?_, ?_, ?_, ?_, ?_, ?_, ?_, ?_⟩
      · have h1 : (kvs.take (b - 1)).take i = kvs.take i := by
          rw [List.take_take]
          congr 1
          omega
        have h2 : (kvs.take (b - 1)).drop i = (kvs.drop i).take (b - 1 - i) :=
          List.drop_take (b - 1) i kvs
        rw [h1, h2]
        simp only [List.cons_append, List.append_assoc]
        congr 2
        have h3 : (kvs.drop i).drop (b - 1 - i) = kvs.drop (b - 1) := by
          rw [List.drop_drop]
          congr 1
          omega
        conv_rhs => rw [← List.take_append_drop (b - 1 - i) (kvs.drop i)]
        rw [h3, hdropb]
      · have h1 : (D.take b).take (i + 1) = D.take (i + 1) := by
          rw [List.take_take]
          congr 1
          omega
        have h2 : (D.take b).drop (i + 1) = (D.drop (i + 1)).take (b - (i + 1)) :=
          List.drop_take b (i + 1) D
        rw [h1, h2]
        simp only [List.cons_append, List.append_assoc]
        congr 2
        have h3 : (D.drop (i + 1)).drop (b - (i + 1)) = D.drop b := by
          rw [List.drop_drop]
          congr 1
          omega
        conv_rhs => rw [← List.take_append_drop (b - (i + 1)) (D.drop (i + 1))]
        rw [h3]
      · simp only [List.length_append, List.length_cons, List.length_take, List.length_drop]
        omega
      · simp only [List.length_drop]
        omega
      · simp only [List.length_append, List.length_cons, List.length_take, List.length_drop]
        omega
      · simp only [List.length_append, List.length_cons, List.length_take, List.length_drop]
        omega
      · simp only [List.length_drop]
        omega
      · simp only [List.length_drop]
        omega
    · have hib : b ≤ i := by omega
      have heq1 : insert_as_internal b kvs D i key val r =
          .split med.1 med.2
            (.internal (kvs.take (b - 1)) (D.take b))
            (.internal ((kvs.drop b).take (i - b) ++ (key, val) :: (kvs.drop b).drop (i - b))
                       ((D.drop b).take (i - b + 1) ++ r :: (D.drop b).drop (i - b + 1))) := by
        rw [insert_as_internal, if_neg hfull]
        split
        · next heq => rw [hmed] at heq; exact absurd heq (by simp)
        · next med' heq =>
          rw [hmed] at heq
          injection heq with heq
          subst heq
          rw [if_neg hile]
      refine ⟨med, _, _, _, _, heq1, ?_, ?_, ?_, ?_, ?_, ?_, ?_, ?_⟩
      · have h4 : med :: (kvs.drop b).take (i - b) = (kvs.drop (b - 1)).take (i - b + 1) := by
          rw [hdropb]
          rfl
        have h5 : (kvs.drop b).drop (i - b) = kvs.drop i := by
          rw [List.drop_drop]
          congr 1
          omega
        have h6 : kvs.take (b - 1) ++ (kvs.drop (b - 1)).take (i - b + 1) = kvs.take i := by
          rw [← List.take_add]
          congr 1
          omega
        rw [h5, ← List.cons_append, ← List.append_assoc, h4, h6]
      · have h5 : (D.drop b).drop (i - b + 1) = D.drop (i + 1) := by
          rw [List.drop_drop]
          congr 1
          omega
        rw [h5]
        have h6 : D.take b ++ (D.drop b).take (i - b + 1) = D.take (i + 1) := by
          rw [← List.take_add]
          congr 1
          omega
        rw [← List.append_assoc, h6]
      · simp only [List.length_take]
        omega
      · simp only [List.length_append, List.length_cons, List.length_take, List.length_drop]
        omega
      · simp only [List.length_take]
        omega
      · simp only [List.length_take]
        omega
      · simp only [List.length_append, List.length_cons, List.length_take, List.length_drop]
        omega
      · simp only [List.length_append, List.length_cons, List.length_take, List.length_drop]
        omega

theorem take_append_eq {α : Type _} {A : List α} {i : Nat} (h : A.length = i)
    (X : List α) : (A ++ X).take i = A := by
  subst h
  exact List.take_left A X

theorem drop_append_eq {α : Type _} {A : List α} {i : Nat} (h : A.length = i)
    (X : List α) : (A ++ X).drop i = X := by
  subst h
  exact List.drop_left A X

theorem insertGoAux_eq [LinearOrder K] (b : Nat) :
    ∀ (cs : List (Node K V)) (i : Nat) (key : K) (val : V),
      insertGoAux b cs i key val = (cs.get? i).map (fun c => Node.insertGo b c key val)
  | [], 0, _, _ => rfl
  | [], _ + 1, _, _ => rfl
  | _ :: _, 0, _, _ => rfl
  | _ :: cs, i + 1, key, val => insertGoAux_eq b cs i key val

theorem balancedList_parts {b : Nat} {cs : List (Node K V)} {i : Nat} {c : Node K V}
    (hc : cs.get? i = some c) (h : balancedList b cs = true) :
    balancedList b (cs.take i) = true ∧ c.balancedLo b (b - 1) = true ∧
      balancedList b (cs.drop (i + 1)) = true := by
  have hsplit : cs = cs.take i ++ c :: cs.drop (i + 1) := get?_decomp cs i c hc
  rw [hsplit, balancedList_append, balancedList_cons] at h
  simp only [Bool.and_eq_true] at h
  exact ⟨h.1, h.2.1, h.2.2⟩

theorem goodDepthList_parts {cs : List (Node K V)} {i : Nat} {c : Node K V} {d : Nat}
    (hc : cs.get? i = some c) (h : goodDepthList cs d = true) :
    goodDepthList (cs.take i) d = true ∧ c.goodDepth d = true ∧
      goodDepthList (cs.drop (i + 1)) d = true := by
  have hsplit : cs = cs.take i ++ c :: cs.drop (i + 1) := get?_decomp cs i c hc
  rw [hsplit, goodDepthList_append, goodDepthList_cons] at h
  simp only [Bool.and_eq_true] at h
  exact ⟨h.1, h.2.1, h.2.2⟩

/-- Context decomposition at a child: the flattening splits as a prefix `P`,
the child's flattening, and a suffix `T`; replacing the child (with one node,
or with a split pair plus promoted separator) rewrites only the middle. -/
theorem inorderZip_ctx {cs : List (Node K V)} {kvs : List (K × V)} {i : Nat}
    {c : Node K V} (hc : cs.get? i = some c) (hle : i ≤ kvs.length) :
    ∃ T, inorderZip cs kvs = inorderZip (cs.take i) (kvs.take i) ++ c.inorder ++ T ∧
      (∀ c', inorderZip (cs.take i ++ c' :: cs.drop (i + 1)) kvs =
        inorderZip (cs.take i) (kvs.take i) ++ c'.inorder ++ T) ∧
      (∀ (l r : Node K V) (k : K) (v : V),
        inorderZip (cs.take i ++ l :: r :: cs.drop (i + 1))
            (kvs.take i ++ (k, v) :: kvs.drop i) =
          inorderZip (cs.take i) (kvs.take i) ++ (l.inorder ++ (k, v) :: r.inorder) ++ T) ∧
      (T = [] ∧ i = kvs.length ∨
        ∃ sep tail, kvs.get? i = some sep ∧ T = sep :: tail) := by
  have hilt : i < cs.length := get?_lt_length hc
  have hlent : (cs.take i).length = i := length_take_of_le (le_of_lt hilt)
  have hlenk : (kvs.take i).length = i := length_take_of_le hle
  rcases Nat.lt_or_ge i kvs.length with hi | hi
  · obtain ⟨sep, hsep⟩ : ∃ sep, kvs.get? i = some sep := by
      rcases h' : kvs.get? i with _ | sep
      · exact absurd (List.get?_eq_none.mp h') (by omega)
      · exact ⟨sep, rfl⟩
    refine ⟨sep :: inorderZip (cs.drop (i + 1)) (kvs.drop (i + 1)), ?_, ?_, ?_,
      Or.inr ⟨sep, _, hsep, rfl⟩⟩
    · exact inorderZip_around hc hsep
    · intro c'
      have hc' : (cs.take i ++ c' :: cs.drop (i + 1)).get? i = some c' := by
        have := get?_append_cons (cs.take i) c' (cs.drop (i + 1))
        rwa [hlent] at this
      have := inorderZip_around hc' hsep
      rwa [take_append_cons hlent, drop_append_cons hlent] at this
    · intro l r k v
      have hlenD : i ≤ (kvs.take i ++ (k, v) :: kvs.drop i).length := by
        simp only [List.length_append, List.length_cons]
        omega
      rw [inorderZip_split i _ _ hlenD,
        take_append_cons hlent, take_append_cons hlenk,
        drop_append_eq hlent, drop_append_eq hlenk,
        inorderZip_cons_cons, drop_eq_cons hsep, inorderZip_cons_cons]
      simp [List.append_assoc]
  · have hieq : i = kvs.length := by omega
    refine ⟨[], ?_, ?_, ?_, Or.inl ⟨rfl, hieq⟩⟩
    · rw [List.append_nil]
      exact inorderZip_around_last hc hieq
    · intro c'
      rw [List.append_nil]
      have hc' : (cs.take i ++ c' :: cs.drop (i + 1)).get? i = some c' := by
        have := get?_append_cons (cs.take i) c' (cs.drop (i + 1))
        rwa [hlent] at this
      have := inorderZip_around_last hc' hieq
      rwa [take_append_cons hlent] at this
    · intro l r k v
      have hdropk : kvs.drop i = [] := by
        rw [hieq, List.drop_length]
      have hlenD : i ≤ (kvs.take i ++ (k, v) :: kvs.drop i).length := by
        simp only [List.length_append, List.length_cons]
        omega
      rw [inorderZip_split i _ _ hlenD,
        take_append_cons hlent, take_append_cons hlenk,
        drop_append_eq hlent, drop_append_eq hlenk,
        hdropk, inorderZip_cons_cons, inorderZip_cons_nil]
      simp

theorem length_surgery {α : Type _} {l : List α} {i : Nat} (h : i < l.length)
    (y : α) : (l.take i ++ y :: l.drop (i + 1)).length = l.length := by
  simp only [List.length_append, List.length_cons, List.length_take, List.length_drop]
  omega

theorem take_append_cons_succ {α : Type _} {A : List α} {i : Nat} (h : A.length = i)
    (x : α) (B : List α) : (A ++ x :: B).take (i + 1) = A ++ [x] := by
  subst h
  rw [show A ++ x :: B = (A ++ [x]) ++ B by simp]
  have hl : (A ++ [x]).length = A.length + 1 := by simp
  rw [← hl]
  exact List.take_left _ _

/-- Refinement and preservation for the insert descent (`BTreeMap::insert`
search plus `SearchStack::insert` propagation): the returned old value is the
association-list lookup in the subtree's flattening, and the resulting node
(or split pair with its promoted median) flattens to the sorted-list
insertion, preserving the capacity, child-count and uniform-depth
invariants. -/
theorem insertGo_spec [LinearOrder K] {b : Nat} (hb : 2 ≤ b) :
    ∀ (n : Node K V) (lo : Nat), lo ≤ b - 1 → n.balancedLo b lo = true →
      KSorted n.inorder → ∀ (d : Nat), n.goodDepth d = true → ∀ (key : K) (val : V),
      (Node.insertGo b n key val).1 = alookup key n.inorder ∧
      ((∃ n', (Node.insertGo b n key val).2 = .fit n' ∧
          n'.inorder = listIns key val n.inorder ∧
          n'.balancedLo b lo = true ∧ n'.goodDepth d = true ∧
          n'.is_leaf = n.is_leaf ∧ n.len ≤ n'.len) ∨
       (∃ k v l r, (Node.insertGo b n key val).2 = .split k v l r ∧
          l.inorder ++ (k, v) :: r.inorder = listIns key val n.inorder ∧
          l.balancedLo b (b - 1) = true ∧ r.balancedLo b (b - 1) = true ∧
          l.goodDepth d = true ∧ r.goodDepth d = true)) := by
  intro n
  induction n using Node.myInduction with
  | hleaf kvs =>
    intro lo hlo hbal hsort d hd key val
    simp only [balancedLo_leaf, Bool.and_eq_true, decide_eq_true_eq] at hbal
    obtain ⟨hlo2, hub⟩ := hbal
    rw [inorder_leaf] at hsort
    rcases hsk : searchKeys kvs key with i | i
    · obtain ⟨hlt, v, hv⟩ := searchKeys_found_spec hsk
      have hgo : Node.insertGo b (.leaf kvs) key val =
          (some v, .fit (.leaf (kvs.take i ++ (key, val) :: kvs.drop (i + 1)))) := by
        simp only [Node.insertGo, hsk, hv]
      rw [hgo]
      have hdec := get?_decomp kvs i (key, v) hv
      have halo : alookup key kvs = some v := alookup_decomp hsort hdec
      have hlen := length_surgery (get?_lt_length hv) (key, val)
      refine ⟨halo.symm, Or.inl ⟨_, rfl, ?_, ?_, ?_, rfl, ?_⟩⟩
      · simp only [inorder_leaf]
        have hlt' : ∀ p ∈ kvs.take i, p.1 < key := sorted_before_key (hdec ▸ hsort)
        conv_rhs => rw [hdec]
        rw [listIns_append hlt']
        have hrepl : listIns key val ((key, v) :: kvs.drop (i + 1)) =
            (key, val) :: kvs.drop (i + 1) := by
          rw [listIns, if_neg (lt_irrefl key), if_pos rfl]
        rw [hrepl]
      · simp only [balancedLo_leaf, Bool.and_eq_true, decide_eq_true_eq, hlen]
        exact ⟨hlo2, hub⟩
      · simpa using hd
      · simp only [len_leaf, hlen]
        exact le_refl _
    · obtain ⟨hle, hlt, hgtp⟩ := searchKeys_goDown_spec hsk
      have hgt := searchKeys_goDown_gt hsort hsk
      have hgo : Node.insertGo b (.leaf kvs) key val =
          (none, insert_as_leaf b kvs i key val) := by
        simp only [Node.insertGo, hsk]
      rw [hgo]
      have halo : alookup key kvs = none := by
        rw [alookup_eq_none]
        intro p hp
        have hsplit : p ∈ kvs.take i ++ kvs.drop i := by
          rw [List.take_append_drop]
          exact hp
        rcases List.mem_append.mp hsplit with h | h
        · exact (ne_of_lt (hlt p h)).symm
        · exact ne_of_lt (hgt p h)
      have hlid := listIns_searchIdx val hsort hsk
      rcases insert_as_leaf_spec hb key val hub hle with
        ⟨hfit, heq⟩ | ⟨hfull, med, lk, rk, heq, hsum, hkl1, hkl2, hkr1, hkr2⟩
      · refine ⟨halo.symm, Or.inl ⟨Node.leaf (kvs.take i ++ (key, val) :: kvs.drop i),
          by rw [heq], ?_, ?_, ?_, rfl, ?_⟩⟩
        · rw [inorder_leaf, inorder_leaf, hlid]
        · simp only [balancedLo_leaf, Bool.and_eq_true, decide_eq_true_eq,
            List.length_append, List.length_cons, List.length_take, List.length_drop]
          omega
        · simpa using hd
        · simp only [len_leaf, List.length_append, List.length_cons,
            List.length_take, List.length_drop]
          omega
      · refine ⟨halo.symm, Or.inr ⟨med.1, med.2, _, _, by rw [heq]; try rfl, ?_, ?_, ?_, ?_, ?_⟩⟩
        · rw [inorder_leaf, inorder_leaf, inorder_leaf, hlid, ← hsum]
        · simp only [balancedLo_leaf, Bool.and_eq_true, decide_eq_true_eq]
          omega
        · simp only [balancedLo_leaf, Bool.and_eq_true, decide_eq_true_eq]
          omega
        · simpa using hd
        · simpa using hd
  | hint kvs children ih =>
    intro lo hlo hbal hsort d hd key val
    simp only [balancedLo_internal, Bool.and_eq_true, decide_eq_true_eq] at hbal
    obtain ⟨⟨⟨hlo2, hub⟩, hcount⟩, hblist⟩ := hbal
    rw [inorder_internal] at hsort
    simp only [goodDepth_internal, Bool.and_eq_true, decide_eq_true_eq] at hd
    obtain ⟨hd2, hdlist⟩ := hd
    rcases hsk : searchKeys kvs key with i | i
    · -- key found at separator i: swap the value in place
      obtain ⟨hlt, v, hv⟩ := searchKeys_found_spec hsk
      have hgo : Node.insertGo b (.internal kvs children) key val =
          (some v,
            .fit (.internal (kvs.take i ++ (key, val) :: kvs.drop (i + 1)) children)) := by
        simp only [Node.insertGo, hsk, hv]
      rw [hgo]
      obtain ⟨c, hc⟩ : ∃ c, children.get? i = some c := by
        rcases h' : children.get? i with _ | c
        · have := get?_lt_length hv
          exact absurd (List.get?_eq_none.mp h') (by omega)
        · exact ⟨c, rfl⟩
      have hilt := get?_lt_length hv
      have hlent : (kvs.take i).length = i := length_take_of_le (le_of_lt hilt)
      have hzip := inorderZip_around hc hv
      have hv' : (kvs.take i ++ (key, val) :: kvs.drop (i + 1)).get? i = some (key, val) := by
        have := get?_append_cons (kvs.take i) (key, val) (kvs.drop (i + 1))
        rwa [hlent] at this
      have hzip' := inorderZip_around hc hv'
      rw [take_append_cons hlent, drop_append_cons hlent] at hzip'
      have halo : alookup key (inorderZip children kvs) = some v :=
        alookup_decomp hsort (by rw [hzip, List.append_assoc])
      have hlen := length_surgery hilt (key, val)
      refine ⟨halo.symm, Or.inl ⟨_, rfl, ?_, ?_, ?_, rfl, ?_⟩⟩
      · rw [inorder_internal, inorder_internal, hzip', hzip]
        have hPlt : ∀ p ∈ inorderZip (children.take i) (kvs.take i) ++ c.inorder,
            p.1 < key := sorted_before_key (hzip ▸ hsort)
        rw [listIns_append hPlt]
        have hrepl : listIns key val
            ((key, v) :: inorderZip (children.drop (i + 1)) (kvs.drop (i + 1))) =
            (key, val) :: inorderZip (children.drop (i + 1)) (kvs.drop (i + 1)) := by
          rw [listIns, if_neg (lt_irrefl key), if_pos rfl]
        rw [hrepl]
      · simp only [balancedLo_internal, Bool.and_eq_true, decide_eq_true_eq, hlen]
        exact ⟨⟨⟨hlo2, hub⟩, hcount⟩, hblist⟩
      · simp only [goodDepth_internal, Bool.and_eq_true, decide_eq_true_eq]
        exact ⟨hd2, hdlist⟩
      · simp only [len_internal, hlen]
        exact le_refl _
    · -- descend into child i
      obtain ⟨hle, hlt, hgtp⟩ := searchKeys_goDown_spec hsk
      obtain ⟨c, hc⟩ : ∃ c, children.get? i = some c := by
        rcases h' : children.get? i with _ | c
        · exact absurd (List.get?_eq_none.mp h') (by omega)
        · exact ⟨c, rfl⟩
      have hilt : i < children.length := get?_lt_length hc
      have hlent : (children.take i).length = i := length_take_of_le (le_of_lt hilt)
      have haux : insertGoAux b children i key val =
          some (Node.insertGo b c key val) := by
        rw [insertGoAux_eq, hc]
        rfl
      have hcbal := balancedList_get? hc hblist
      have hcsort : KSorted c.inorder :=
        List.Pairwise.sublist (child_sublist_inorderZip i children kvs c hc hle) hsort
      have hcdepth := goodDepthList_mem hdlist (List.get?_mem hc)
      obtain ⟨T, hzip, hrep1, hrep2, hTcase⟩ := inorderZip_ctx hc hle
      have hPlt : ∀ p ∈ inorderZip (children.take i) (kvs.take i), p.1 < key :=
        prefix_keys_lt hsort (by omega) hle hlt
      have hTgt : ∀ p ∈ T, key < p.1 := by
        rcases hTcase with ⟨hT0, _⟩ | ⟨sep, tail, hsep, hTeq⟩
        · rw [hT0]
          simp
        · have hTs : KSorted T := by
            have := hsort
            rw [hzip, KSorted, List.pairwise_append] at this
            exact this.2.1
          rw [hTeq] at hTs ⊢
          exact sorted_head_bound hTs (hgtp sep hsep)
      have hins : listIns key val (inorderZip children kvs) =
          inorderZip (children.take i) (kvs.take i) ++
            listIns key val c.inorder ++ T := by
        rw [hzip, List.append_assoc, listIns_append hPlt,
          listIns_append_right hTgt, List.append_assoc]
      have halo : alookup key (inorderZip children kvs) = alookup key c.inorder := by
        rw [hzip, List.append_assoc,
          alookup_append_not (fun p hp => (ne_of_lt (hPlt p hp)).symm),
          alookup_append_right_not (fun p hp => ne_of_lt (hTgt p hp))]
      obtain ⟨ih1, ih2⟩ :=
        ih c (List.get?_mem hc) (b - 1) (le_refl _) hcbal hcsort (d - 1) hcdepth key val
      rcases hres : Node.insertGo b c key val with ⟨old, res⟩
      rw [hres] at ih1 ih2
      rcases ih2 with ⟨c', hfit, hcI, hcbal', hcd', _, _⟩ |
        ⟨k, v, l, r, hsplit, hlr, hbl, hbr, hdl, hdr⟩
      · -- the child absorbed the pair
        have hfit' : res = .fit c' := hfit
        have hgo : Node.insertGo b (.internal kvs children) key val =
            (old, .fit (.internal kvs
              (children.take i ++ c' :: children.drop (i + 1)))) := by
          simp only [Node.insertGo, hsk, haux, hres, hfit']
        rw [hgo]
        obtain ⟨hbtake, hbc, hbdrop⟩ := balancedList_parts hc hblist
        obtain ⟨hdtake, hdc, hddrop⟩ := goodDepthList_parts hc hdlist
        refine ⟨by rw [inorder_internal, halo]; exact ih1,
          Or.inl ⟨_, rfl, ?_, ?_, ?_, rfl, ?_⟩⟩
        · rw [inorder_internal, inorder_internal, hrep1 c', hcI, hins]
        · simp only [balancedLo_internal, Bool.and_eq_true, decide_eq_true_eq,
            length_surgery hilt c', balancedList_append, balancedList_cons]
          exact ⟨⟨⟨hlo2, hub⟩, hcount⟩, hbtake, hcbal', hbdrop⟩
        · simp only [goodDepth_internal, Bool.and_eq_true, decide_eq_true_eq,
            goodDepthList_append, goodDepthList_cons]
          exact ⟨hd2, hdtake, hcd', hddrop⟩
        · simp only [len_internal]
          exact le_refl _
      · -- the child split: propagate through insert_as_internal
        have hsplit' : res = .split k v l r := hsplit
        have hDcount :
            (children.take i ++ l :: children.drop (i + 1)).length = kvs.length + 1 := by
          rw [length_surgery hilt l]
          exact hcount
        obtain ⟨hbtake, hbc, hbdrop⟩ := balancedList_parts hc hblist
        obtain ⟨hdtake, hdc, hddrop⟩ := goodDepthList_parts hc hdlist
        have hD' : (children.take i ++ l :: children.drop (i + 1)).take (i + 1) ++
            r :: (children.take i ++ l :: children.drop (i + 1)).drop (i + 1) =
            children.take i ++ l :: r :: children.drop (i + 1) := by
          rw [take_append_cons_succ hlent, drop_append_cons hlent]
          simp
        rcases insert_as_internal_spec hb k v r hub hDcount hle with
          ⟨hfull, heq⟩ |
          ⟨hfull, med, lkvs, lD, rkvs, rD, heq, hks, hDs, hc1, hc2, hb1, hb2, hb3, hb4⟩
        · -- the parent absorbed the promoted median
          have hgo : Node.insertGo b (.internal kvs children) key val =
              (old, .fit (.internal (kvs.take i ++ (k, v) :: kvs.drop i)
                ((children.take i ++ l :: children.drop (i + 1)).take (i + 1) ++
                  r :: (children.take i ++ l :: children.drop (i + 1)).drop (i + 1)))) := by
            simp only [Node.insertGo, hsk, haux, hres, hsplit', heq]
          rw [hgo]
          refine ⟨by rw [inorder_internal, halo]; exact ih1,
            Or.inl ⟨_, rfl, ?_, ?_, ?_, rfl, ?_⟩⟩
          · rw [inorder_internal, inorder_internal, hD', hrep2 l r k v, hlr, hins]
          · simp only [balancedLo_internal, Bool.and_eq_true, decide_eq_true_eq, hD',
              balancedList_append, balancedList_cons]
            refine ⟨⟨⟨?_, ?_⟩, ?_⟩, hbtake, hbl, hbr, hbdrop⟩
            · simp only [List.length_append, List.length_cons, List.length_take,
                List.length_drop]
              omega
            · simp only [List.length_append, List.length_cons, List.length_take,
                List.length_drop]
              omega
            · simp only [List.length_append, List.length_cons, List.length_take,
                List.length_drop]
              omega
          · simp only [goodDepth_internal, Bool.and_eq_true, decide_eq_true_eq, hD',
              goodDepthList_append, goodDepthList_cons]
            exact ⟨hd2, hdtake, hdl, hdr, hddrop⟩
          · simp only [len_internal, List.length_append, List.length_cons,
              List.length_take, List.length_drop]
            omega
        · -- the parent split as well
          have hgo : Node.insertGo b (.internal kvs children) key val =
              (old, .split med.1 med.2 (.internal lkvs lD) (.internal rkvs rD)) := by
            simp only [Node.insertGo, hsk, haux, hres, hsplit', heq]
          rw [hgo]
          have hDs' : lD ++ rD = children.take i ++ l :: r :: children.drop (i + 1) := by
            rw [hDs, hD']
          have hDbal : balancedList b (lD ++ rD) = true := by
            rw [hDs', balancedList_append, balancedList_cons, balancedList_cons]
            simp only [Bool.and_eq_true]
            exact ⟨hbtake, hbl, hbr, hbdrop⟩
          have hDdep : goodDepthList (lD ++ rD) (d - 1) = true := by
            rw [hDs', goodDepthList_append, goodDepthList_cons, goodDepthList_cons]
            simp only [Bool.and_eq_true]
            exact ⟨hdtake, hdl, hdr, hddrop⟩
          rw [balancedList_append] at hDbal
          rw [goodDepthList_append] at hDdep
          simp only [Bool.and_eq_true] at hDbal hDdep
          refine ⟨by rw [inorder_internal, halo]; exact ih1,
            Or.inr ⟨med.1, med.2, _, _, rfl, ?_, ?_, ?_, ?_, ?_⟩⟩
          · rw [inorder_internal, inorder_internal, inorder_internal, Prod.mk.eta]
            have hcomb : inorderZip lD lkvs ++ med :: inorderZip rD rkvs =
                inorderZip (lD ++ rD) (lkvs ++ med :: rkvs) :=
              (inorderZip_append_split lD lkvs rD med rkvs hc1).symm
            rw [hcomb, hDs', hks, hrep2 l r k v, hlr, hins]
          · simp only [balancedLo_internal, Bool.and_eq_true, decide_eq_true_eq]
            exact ⟨⟨⟨by omega, by omega⟩, hc1⟩, hDbal.1⟩
          · simp only [balancedLo_internal, Bool.and_eq_true, decide_eq_true_eq]
            exact ⟨⟨⟨by omega, by omega⟩, hc2⟩, hDbal.2⟩
          · simp only [goodDepth_internal, Bool.and_eq_true, decide_eq_true_eq]
            exact ⟨hd2, hDdep.1⟩
          · simp only [goodDepth_internal, Bool.and_eq_true, decide_eq_true_eq]
            exact ⟨hd2, hDdep.2⟩

/-! ### Map-level `insert` -/

theorem goodDepth_pos {n : Node K V} {d : Nat} (h : n.goodDepth d = true) :
    1 ≤ d := by
  cases n with
  | leaf kvs => simp only [goodDepth_leaf, beq_iff_eq] at h; omega
  | internal kvs cs =>
    simp only [goodDepth_internal, Bool.and_eq_true, decide_eq_true_eq] at h
    omega

theorem rootBalanced_iff (b : Nat) (n : Node K V) :
    n.rootBalanced b = n.balancedLo b (if n.is_leaf then 0 else 1) := by
  cases n <;> rfl

theorem length_listIns_alookup [LinearOrder K] {key : K} {val : V}
    {l : List (K × V)} (hs : KSorted l) :
    (listIns key val l).length =
      if (alookup key l).isSome then l.length else l.length + 1 := by
  rcases h : alookup key l with _ | v
  · rw [length_listIns_none h]
    rfl
  · rw [length_listIns_some hs h]
    rfl

theorem BTreeMap.get_alookup [LinearOrder K] {m : BTreeMap K V} (hwf : m.WF)
    (key : K) : m.get key = alookup key m.root.inorder := by
  obtain ⟨hb, hrb, _, _, hsort⟩ := hwf
  rw [rootBalanced_iff] at hrb
  exact get_eq_alookup m.root (balancedLo_mono (Nat.zero_le _) hrb) hsort key

theorem BTreeMap.insert_spec [LinearOrder K] {m : BTreeMap K V} (hwf : m.WF)
    (key : K) (val : V) :
    (m.insert key val).1 = alookup key m.root.inorder ∧
    (m.insert key val).2.WF ∧
    (m.insert key val).2.root.inorder = listIns key val m.root.inorder ∧
    (m.insert key val).2.b = m.b ∧
    (m.insert key val).2.length =
      (if (alookup key m.root.inorder).isSome then m.length else m.length + 1) ∧
    ((m.insert key val).2.depth = m.depth ∨
      (m.insert key val).2.depth = m.depth + 1) := by
  obtain ⟨hb, hrb, hgd, hlen, hsort⟩ := hwf
  rw [rootBalanced_iff] at hrb
  have hlo : (if m.root.is_leaf then 0 else 1) ≤ m.b - 1 := by
    split <;> omega
  obtain ⟨h1, h2⟩ :=
    insertGo_spec hb m.root _ hlo hrb hsort m.depth hgd key val
  rcases hgo : Node.insertGo m.b m.root key val with ⟨old, res⟩
  rw [hgo] at h1 h2
  rcases h2 with ⟨n', hfit, hnI, hnb, hnd, hnl, _⟩ |
    ⟨k, v, l, r, hsplit, hlr, hbl, hbr, hdl, hdr⟩
  · -- the root absorbed the pair
    have hres : res = .fit n' := hfit
    subst hres
    have hins : m.insert key val =
        (old, { m with root := n',
                       length := if old.isSome then m.length else m.length + 1 }) := by
      simp only [BTreeMap.insert, hgo]
    rw [hins]
    have hold : old = alookup key m.root.inorder := h1
    refine ⟨h1, ⟨hb, ?_, hnd, ?_, ?_⟩, hnI, rfl, ?_, Or.inl rfl⟩
    · rw [rootBalanced_iff, hnl]
      exact hnb
    · simp only
      rw [hnI, length_listIns_alookup hsort, hold, hlen]
    · rw [hnI]
      exact KSorted_listIns hsort
    · simp only
      rw [hold]
  · -- the root split: install a fresh internal root
    have hres : res = .split k v l r := hsplit
    subst hres
    have hins : m.insert key val =
        (old, { m with root := make_internal_root k v l r,
                       length := if old.isSome then m.length else m.length + 1,
                       depth := m.depth + 1 }) := by
      simp only [BTreeMap.insert, hgo]
    rw [hins]
    have hold : old = alookup key m.root.inorder := h1
    have hroot : (make_internal_root k v l r).inorder =
        l.inorder ++ (k, v) :: r.inorder := by
      simp [make_internal_root]
    refine ⟨h1, ⟨hb, ?_, ?_, ?_, ?_⟩, ?_, rfl, ?_, Or.inr rfl⟩
    · simp only [make_internal_root, rootBalanced_iff, is_leaf_internal,
        if_neg (Bool.false_ne_true), balancedLo_internal, balancedList_cons,
        balancedList_nil, Bool.and_eq_true, decide_eq_true_eq,
        List.length_cons, List.length_nil]
      refine ⟨⟨⟨?_, ?_⟩, ?_⟩, hbl, hbr, trivial⟩
      · exact Nat.le_add_left 1 0
      · exact (fun bb hbb => by omega : ∀ bb : Nat, 2 ≤ bb → 0 + 1 ≤ 2 * bb - 1) m.b hb
      · trivial
    · simp only [make_internal_root, goodDepth_internal, goodDepthList_cons,
        goodDepthList_nil, Bool.and_eq_true, decide_eq_true_eq,
        Nat.add_sub_cancel]
      have := goodDepth_pos hgd
      exact ⟨by omega, hdl, hdr, trivial⟩
    · simp only
      rw [hroot, hlr, length_listIns_alookup hsort, hold, hlen]
    · simp only
      rw [hroot, hlr]
      exact KSorted_listIns hsort
    · simp only
      rw [hroot, hlr]
    · simp only
      rw [hold]

/-! ### Helpers for the remove side -/

theorem balancedList_forall {b : Nat} {cs : List (Node K V)} :
    balancedList b cs = true ↔ ∀ c ∈ cs, c.balancedLo b (b - 1) = true := by
  induction cs with
  | nil => simp
  | cons c0 cs ih => simp [balancedList_cons, ih]

theorem goodDepthList_forall {cs : List (Node K V)} {d : Nat} :
    goodDepthList cs d = true ↔ ∀ c ∈ cs, c.goodDepth d = true := by
  induction cs with
  | nil => simp
  | cons c0 cs ih => simp [goodDepthList_cons, ih]

theorem balancedLo_of_len {b lo lo' : Nat} {n : Node K V}
    (h : n.balancedLo b lo = true) (hl : lo' ≤ n.len) :
    n.balancedLo b lo' = true := by
  cases n with
  | leaf kvs =>
    simp only [balancedLo_leaf, Bool.and_eq_true, decide_eq_true_eq] at h ⊢
    simp only [len_leaf] at hl
    exact ⟨hl, h.2⟩
  | internal kvs cs =>
    simp only [balancedLo_internal, Bool.and_eq_true, decide_eq_true_eq] at h ⊢
    simp only [len_internal] at hl
    exact ⟨⟨⟨hl, h.1.1.2⟩, h.1.2⟩, h.2⟩

theorem is_leaf_eq_of_goodDepth {l c : Node K V} {d : Nat}
    (hl : l.goodDepth d = true) (hc : c.goodDepth d = true) :
    l.is_leaf = c.is_leaf := by
  rcases hdl : l.is_leaf with _ | _ <;> rcases hdc : c.is_leaf with _ | _
  · rfl
  · have := (goodDepth_is_leaf hc).mp hdc
    have := (goodDepth_is_leaf hl).mpr this
    rw [this] at hdl
    exact absurd hdl (by simp)
  · have := (goodDepth_is_leaf hl).mp hdl
    have := (goodDepth_is_leaf hc).mpr this
    rw [this] at hdc
    exact absurd hdc (by simp)
  · rfl

theorem inorderZip_flat_append :
    ∀ (P : List (Node K V)) (ka : List (K × V)) (rest : List (Node K V))
      (krest : List (K × V)), P.length = ka.length →
      inorderZip (P ++ rest) (ka ++ krest) =
        inorderZip P ka ++ inorderZip rest krest
  | [], [], rest, krest, _ => by simp
  | [], _ :: _, _, _, h => by simp at h
  | _ :: _, [], _, _, h => by simp at h
  | c :: P, k :: ka, rest, krest, h => by
    simp only [List.cons_append, inorderZip_cons_cons, List.append_assoc]
    rw [inorderZip_flat_append P ka rest krest (by simpa using h)]

theorem inorderZip_head_ctx (cs : List (Node K V)) (ks : List (K × V)) :
    ∃ R, ∀ c : Node K V, inorderZip (c :: cs) ks = c.inorder ++ R := by
  cases ks with
  | nil => exact ⟨[], fun c => by simp⟩
  | cons k ks => exact ⟨k :: inorderZip cs ks, fun c => by simp⟩

theorem getLast?_length {l : List (Node K V)} {x : Node K V}
    (h : l.getLast? = some x) : l.length = l.dropLast.length + 1 := by
  conv_lhs => rw [← List.dropLast_append_getLast? x h]
  simp

theorem stealLeft_spec {b : Nat} (hb : 2 ≤ b) {left child : Node K V}
    (sep : K × V) {d : Nat}
    (hkind : left.is_leaf = child.is_leaf)
    (hllen : b - 1 < left.len) (hlbal : left.balancedLo b (b - 1) = true)
    (hclen : child.len = b - 2) (hcbal : child.balancedLo b (b - 2) = true)
    (hld : left.goodDepth d = true) (hcd : child.goodDepth d = true) :
    ∃ l' st c', stealLeftAux left sep child = (l', st, c') ∧
      l'.inorder ++ st :: c'.inorder = left.inorder ++ sep :: child.inorder ∧
      l'.balancedLo b (b - 1) = true ∧ c'.balancedLo b (b - 1) = true ∧
      l'.goodDepth d = true ∧ c'.goodDepth d = true := by
  cases left with
  | leaf lkvs =>
    cases child with
    | leaf ckvs =>
      simp only [len_leaf] at hllen hclen
      obtain ⟨stolen, hgl⟩ : ∃ s, lkvs.getLast? = some s := by
        rcases h' : lkvs.getLast? with _ | s
        · rw [List.getLast?_eq_none_iff.mp h'] at hllen
          simp at hllen
        · exact ⟨s, rfl⟩
      refine ⟨.leaf lkvs.dropLast, stolen, .leaf (sep :: ckvs),
        by simp only [stealLeftAux, hgl], ?_, ?_, ?_, ?_, ?_⟩
      · simp only [inorder_leaf]
        conv_rhs => rw [← List.dropLast_append_getLast? stolen hgl]
        simp
      · simp only [balancedLo_leaf, Bool.and_eq_true, decide_eq_true_eq] at hlbal ⊢
        have : lkvs.length = lkvs.dropLast.length + 1 := by
          conv_lhs => rw [← List.dropLast_append_getLast? stolen hgl]
          simp
        omega
      · simp only [balancedLo_leaf, Bool.and_eq_true, decide_eq_true_eq,
          List.length_cons]
        omega
      · simp only [goodDepth_leaf, beq_iff_eq] at hld ⊢
        exact hld
      · simp only [goodDepth_leaf, beq_iff_eq] at hcd ⊢
        exact hcd
    | internal ckvs ccs => simp at hkind
  | internal lkvs lcs =>
    cases child with
    | leaf ckvs => simp at hkind
    | internal ckvs ccs =>
      simp only [len_internal] at hllen hclen
      simp only [balancedLo_internal, Bool.and_eq_true, decide_eq_true_eq]
        at hlbal hcbal
      obtain ⟨⟨⟨hl1, hl2⟩, hl3⟩, hl4⟩ := hlbal
      obtain ⟨⟨⟨hc1, hc2⟩, hc3⟩, hc4⟩ := hcbal
      simp only [goodDepth_internal, Bool.and_eq_true, decide_eq_true_eq]
        at hld hcd
      obtain ⟨stolen, hgl⟩ : ∃ s, lkvs.getLast? = some s := by
        rcases h' : lkvs.getLast? with _ | s
        · rw [List.getLast?_eq_none_iff.mp h'] at hllen
          simp at hllen
        · exact ⟨s, rfl⟩
      obtain ⟨sc, hgc⟩ : ∃ s, lcs.getLast? = some s := by
        rcases h' : lcs.getLast? with _ | s
        · rw [List.getLast?_eq_none_iff.mp h'] at hl3
          simp at hl3
        · exact ⟨s, rfl⟩
      have hlk : lkvs.length = lkvs.dropLast.length + 1 := by
        conv_lhs => rw [← List.dropLast_append_getLast? stolen hgl]
        simp
      have hlc : lcs.length = lcs.dropLast.length + 1 := by
        conv_lhs => rw [← List.dropLast_append_getLast? sc hgc]
        simp
      refine ⟨.internal lkvs.dropLast lcs.dropLast, stolen,
        .internal (sep :: ckvs) (sc :: ccs),
        by simp only [stealLeftAux, hgl, hgc], ?_, ?_, ?_, ?_, ?_⟩
      · simp only [inorder_internal]
        conv_rhs => rw [← List.dropLast_append_getLast? stolen hgl,
          ← List.dropLast_append_getLast? sc hgc]
        rw [show lkvs.dropLast ++ [stolen] = lkvs.dropLast ++ stolen :: [] from rfl,
          inorderZip_append_split lcs.dropLast lkvs.dropLast [sc] stolen []
            (by omega)]
        simp [List.append_assoc]
      · simp only [balancedLo_internal, Bool.and_eq_true, decide_eq_true_eq]
        refine ⟨⟨⟨by omega, by omega⟩, by omega⟩, ?_⟩
        rw [balancedList_forall]
        intro c hc
        exact balancedList_forall.mp hl4 c (List.mem_of_mem_dropLast hc)
      · simp only [balancedLo_internal, Bool.and_eq_true, decide_eq_true_eq,
          List.length_cons]
        refine ⟨⟨⟨by omega, by omega⟩, by omega⟩, ?_⟩
        rw [balancedList_forall]
        intro c hc
        rcases List.mem_cons.mp hc with h' | h'
        · subst h'
          exact balancedList_forall.mp hl4 c (List.mem_of_mem_getLast? hgc)
        · exact balancedList_forall.mp hc4 c h'
      · simp only [goodDepth_internal, Bool.and_eq_true, decide_eq_true_eq]
        refine ⟨hld.1, ?_⟩
        rw [goodDepthList_forall]
        intro c hc
        exact goodDepthList_forall.mp hld.2 c (List.mem_of_mem_dropLast hc)
      · simp only [goodDepth_internal, Bool.and_eq_true, decide_eq_true_eq,
          goodDepthList_cons, Bool.and_eq_true]
        refine ⟨hcd.1, ?_, hcd.2⟩
        exact goodDepthList_forall.mp hld.2 sc (List.mem_of_mem_getLast? hgc)

theorem stealRight_spec {b : Nat} (hb : 2 ≤ b) {child right : Node K V}
    (sep : K × V) {d : Nat}
    (hkind : child.is_leaf = right.is_leaf)
    (hclen : child.len = b - 2) (hcbal : child.balancedLo b (b - 2) = true)
    (hrlen : b - 1 < right.len) (hrbal : right.balancedLo b (b - 1) = true)
    (hcd : child.goodDepth d = true) (hrd : right.goodDepth d = true) :
    ∃ c' st r', stealRightAux child sep right = (c', st, r') ∧
      c'.inorder ++ st :: r'.inorder = child.inorder ++ sep :: right.inorder ∧
      c'.balancedLo b (b - 1) = true ∧ r'.balancedLo b (b - 1) = true ∧
      c'.goodDepth d = true ∧ r'.goodDepth d = true := by
  cases child with
  | leaf ckvs =>
    cases right with
    | leaf rkvs =>
      simp only [len_leaf] at hclen hrlen
      obtain ⟨stolen, rrest, hr⟩ : ∃ s t, rkvs = s :: t := by
        cases rkvs with
        | nil => simp at hrlen
        | cons s t => exact ⟨s, t, rfl⟩
      subst hr
      refine ⟨.leaf (ckvs ++ [sep]), stolen, .leaf rrest,
        by simp only [stealRightAux], ?_, ?_, ?_, ?_, ?_⟩
      · simp
      · simp only [balancedLo_leaf, Bool.and_eq_true, decide_eq_true_eq,
          List.length_append, List.length_cons, List.length_nil]
        omega
      · simp only [balancedLo_leaf, Bool.and_eq_true, decide_eq_true_eq] at hrbal ⊢
        simp only [List.length_cons] at hrbal hrlen
        omega
      · simp only [goodDepth_leaf, beq_iff_eq] at hcd ⊢
        exact hcd
      · simp only [goodDepth_leaf, beq_iff_eq] at hrd ⊢
        exact hrd
    | internal rkvs rcs => simp at hkind
  | internal ckvs ccs =>
    cases right with
    | leaf rkvs => simp at hkind
    | internal rkvs rcs =>
      simp only [len_internal] at hclen hrlen
      simp only [balancedLo_internal, Bool.and_eq_true, decide_eq_true_eq]
        at hcbal hrbal
      obtain ⟨⟨⟨hc1, hc2⟩, hc3⟩, hc4⟩ := hcbal
      obtain ⟨⟨⟨hr1, hr2⟩, hr3⟩, hr4⟩ := hrbal
      simp only [goodDepth_internal, Bool.and_eq_true, decide_eq_true_eq]
        at hcd hrd
      obtain ⟨stolen, rrest, hr⟩ : ∃ s t, rkvs = s :: t := by
        cases rkvs with
        | nil => simp at hrlen
        | cons s t => exact ⟨s, t, rfl⟩
      subst hr
      obtain ⟨sc, rcrest, hrc⟩ : ∃ s t, rcs = s :: t := by
        cases rcs with
        | nil => simp at hr3
        | cons s t => exact ⟨s, t, rfl⟩
      subst hrc
      refine ⟨.internal (ckvs ++ [sep]) (ccs ++ [sc]), stolen,
        .internal rrest rcrest,
        by simp only [stealRightAux], ?_, ?_, ?_, ?_, ?_⟩
      · simp only [inorder_internal]
        rw [show ckvs ++ [sep] = ckvs ++ sep :: [] from rfl,
          inorderZip_append_split ccs ckvs [sc] sep [] (by omega)]
        simp [List.append_assoc]
      · simp only [balancedLo_internal, Bool.and_eq_true, decide_eq_true_eq,
          List.length_append, List.length_cons, List.length_nil]
        refine ⟨⟨⟨by omega, by omega⟩, by omega⟩, ?_⟩
        rw [balancedList_forall]
        intro c hc
        rcases List.mem_append.mp hc with h' | h'
        · exact balancedList_forall.mp hc4 c h'
        · rw [List.mem_singleton.mp h']
          exact balancedList_forall.mp hr4 sc (by simp)
      · simp only [balancedLo_internal, Bool.and_eq_true, decide_eq_true_eq]
        simp only [List.length_cons] at hr1 hr2 hr3 hrlen
        refine ⟨⟨⟨by omega, by omega⟩, by omega⟩, ?_⟩
        rw [balancedList_forall]
        intro c hc
        exact balancedList_forall.mp hr4 c (by simp [hc])
      · simp only [goodDepth_internal, Bool.and_eq_true, decide_eq_true_eq,
          goodDepthList_append, goodDepthList_cons, goodDepthList_nil,
          Bool.and_eq_true]
        refine ⟨hcd.1, hcd.2, ?_, trivial⟩
        exact goodDepthList_forall.mp hrd.2 sc (by simp)
      · simp only [goodDepth_internal, Bool.and_eq_true, decide_eq_true_eq]
        refine ⟨hrd.1, ?_⟩
        rw [goodDepthList_forall]
        intro c hc
        exact goodDepthList_forall.mp hrd.2 c (by simp [hc])

theorem mergeNodes_spec {b : Nat} (hb : 2 ≤ b) {l1 l2 : Node K V}
    (sep : K × V) {d : Nat}
    (hkind : l1.is_leaf = l2.is_leaf)
    (hb1 : l1.balancedLo b 0 = true) (hb2 : l2.balancedLo b 0 = true)
    (hlo : b - 1 ≤ l1.len + l2.len + 1) (hhi : l1.len + l2.len + 1 ≤ 2 * b - 1)
    (hd1 : l1.goodDepth d = true) (hd2 : l2.goodDepth d = true) :
    (mergeNodes l1 sep l2).inorder = l1.inorder ++ sep :: l2.inorder ∧
    (mergeNodes l1 sep l2).balancedLo b (b - 1) = true ∧
    (mergeNodes l1 sep l2).goodDepth d = true := by
  cases l1 with
  | leaf lkvs =>
    cases l2 with
    | leaf rkvs =>
      simp only [len_leaf] at hlo hhi
      refine ⟨by simp [mergeNodes], ?_, ?_⟩
      · simp only [mergeNodes, balancedLo_leaf, Bool.and_eq_true,
          decide_eq_true_eq, List.length_append, List.length_cons]
        omega
      · simp only [goodDepth_leaf, beq_iff_eq] at hd1 ⊢
        simp only [mergeNodes, goodDepth_leaf, beq_iff_eq]
        exact hd1
    | internal rkvs rcs => simp at hkind
  | internal lkvs lcs =>
    cases l2 with
    | leaf rkvs => simp at hkind
    | internal rkvs rcs =>
      simp only [len_internal] at hlo hhi
      simp only [balancedLo_internal, Bool.and_eq_true, decide_eq_true_eq]
        at hb1 hb2
      obtain ⟨⟨⟨_, hl2'⟩, hl3⟩, hl4⟩ := hb1
      obtain ⟨⟨⟨_, hr2'⟩, hr3⟩, hr4⟩ := hb2
      simp only [goodDepth_internal, Bool.and_eq_true, decide_eq_true_eq]
        at hd1 hd2
      refine ⟨?_, ?_, ?_⟩
      · simp only [mergeNodes, inorder_internal]
        exact inorderZip_append_split lcs lkvs rcs sep rkvs (by omega)
      · simp only [mergeNodes, balancedLo_internal, Bool.and_eq_true,
          decide_eq_true_eq, List.length_append, List.length_cons]
        refine ⟨⟨⟨by omega, by omega⟩, by omega⟩, ?_⟩
        rw [balancedList_append]
        simp only [Bool.and_eq_true]
        exact ⟨hl4, hr4⟩
      · simp only [mergeNodes, goodDepth_internal, Bool.and_eq_true,
          decide_eq_true_eq, goodDepthList_append]
        exact ⟨hd1.1, hd1.2, hd2.2⟩

theorem seg_splice {α : Type _} (P R A C A2 C2 : List α) (s s2 : α)
    (h : A ++ s :: C = A2 ++ s2 :: C2) :
    (P ++ A) ++ s :: (C ++ R) = (P ++ A2) ++ s2 :: (C2 ++ R) := by
  calc (P ++ A) ++ s :: (C ++ R) = P ++ ((A ++ s :: C) ++ R) := by
        simp [List.append_assoc]
    _ = P ++ ((A2 ++ s2 :: C2) ++ R) := by rw [h]
    _ = (P ++ A2) ++ s2 :: (C2 ++ R) := by simp [List.append_assoc]

theorem merge_splice {α : Type _} (P R A C : List α) (s : α) :
    P ++ ((A ++ s :: C) ++ R) = (P ++ A) ++ s :: (C ++ R) := by
  simp [List.append_assoc]

theorem handle_underflow_spec {b : Nat} (hb : 2 ≤ b)
    {kvs : List (K × V)} {pre suf : List (Node K V)} {child : Node K V} {d : Nat}
    (hclen : child.len = b - 2)
    (hcbal : child.balancedLo b (b - 2) = true)
    (hpre : balancedList b pre = true) (hsuf : balancedList b suf = true)
    (hcount : pre.length + suf.length = kvs.length)
    (hk1 : 1 ≤ kvs.length)
    (hdpre : goodDepthList pre d = true) (hdchild : child.goodDepth d = true)
    (hdsuf : goodDepthList suf d = true) :
    ∃ kvs' cs', handle_underflow b kvs pre child suf = .internal kvs' cs' ∧
      inorderZip cs' kvs' = inorderZip (pre ++ child :: suf) kvs ∧
      cs'.length = kvs'.length + 1 ∧
      (kvs'.length = kvs.length ∨ kvs'.length + 1 = kvs.length) ∧
      balancedList b cs' = true ∧
      goodDepthList cs' d = true := by
  by_cases hA : b - 1 < lastLen pre
  · -- steal from the left sibling
    obtain ⟨left, hgl⟩ : ∃ l, pre.getLast? = some l := by
      rcases h' : pre.getLast? with _ | l
      · simp only [lastLen, h'] at hA
        omega
      · exact ⟨l, rfl⟩
    have hll : lastLen pre = left.len := by rw [lastLen, hgl]
    have hA' : b - 1 < left.len := by rw [← hll]; exact hA
    have hpl : pre.length = pre.dropLast.length + 1 := getLast?_length hgl
    obtain ⟨sep, hsep⟩ : ∃ s, kvs.get? (pre.length - 1) = some s := by
      rcases h' : kvs.get? (pre.length - 1) with _ | s
      · exact absurd (List.get?_eq_none.mp h') (by omega)
      · exact ⟨s, rfl⟩
    have hldep := goodDepthList_forall.mp hdpre left (List.mem_of_mem_getLast? hgl)
    have hkind : left.is_leaf = child.is_leaf :=
      is_leaf_eq_of_goodDepth hldep hdchild
    have hlbal := balancedList_forall.mp hpre left (List.mem_of_mem_getLast? hgl)
    obtain ⟨l', st, c', hsteal, hseg, hbl', hbc', hdl', hdc'⟩ :=
      stealLeft_spec hb sep hkind hA' hlbal hclen hcbal hldep hdchild
    have hunf : handle_underflow b kvs pre child suf =
        .internal (kvs.take (pre.length - 1) ++ st :: kvs.drop pre.length)
          (pre.dropLast ++ l' :: c' :: suf) := by
      rw [handle_underflow, if_pos hA]
      simp only [hgl, hsep, hsteal]
    have hj1 : pre.length - 1 = pre.dropLast.length := by omega
    rw [hj1] at hunf hsep
    have hdrop : kvs.drop pre.length = kvs.drop (pre.dropLast.length + 1) := by
      rw [hpl]
    rw [hdrop] at hunf
    have htl : (kvs.take pre.dropLast.length).length = pre.dropLast.length :=
      length_take_of_le (by omega)
    obtain ⟨R, hR⟩ := inorderZip_head_ctx suf (kvs.drop (pre.dropLast.length + 1))
    have hkvs_eq := get?_decomp kvs pre.dropLast.length sep hsep
    have hpre_eq : pre = pre.dropLast ++ [left] :=
      (List.dropLast_append_getLast? left hgl).symm
    have hzip_pre : ∀ x : Node K V,
        inorderZip (pre.dropLast ++ [x]) (kvs.take pre.dropLast.length) =
          inorderZip pre.dropLast (kvs.take pre.dropLast.length) ++ x.inorder := by
      intro x
      rw [inorderZip_around_last (get?_append_cons pre.dropLast x []) htl.symm,
        take_append_cons rfl x [], List.take_take]
      simp
    have hgetp : pre.get? pre.dropLast.length = some left := by
      conv_lhs => rw [hpre_eq, List.dropLast_concat]
      exact get?_append_cons pre.dropLast left []
    have hpt : pre.take pre.dropLast.length = pre.dropLast := by
      rw [← hj1, ← List.dropLast_eq_take]
    have hzp : inorderZip pre (kvs.take pre.dropLast.length) =
        inorderZip pre.dropLast (kvs.take pre.dropLast.length) ++ left.inorder := by
      rw [inorderZip_around_last hgetp htl.symm, hpt, List.take_take]
      simp
    have hold : inorderZip (pre ++ child :: suf) kvs =
        (inorderZip pre.dropLast (kvs.take pre.dropLast.length) ++ left.inorder) ++
          sep :: (child.inorder ++ R) := by
      conv_lhs => rw [hkvs_eq]
      rw [inorderZip_append_split pre (kvs.take pre.dropLast.length) (child :: suf)
        sep (kvs.drop (pre.dropLast.length + 1)) (by rw [htl]; omega)]
      rw [hR child, hzp]
    have hnew : inorderZip (pre.dropLast ++ l' :: c' :: suf)
        (kvs.take pre.dropLast.length ++ st :: kvs.drop (pre.dropLast.length + 1)) =
        (inorderZip pre.dropLast (kvs.take pre.dropLast.length) ++ l'.inorder) ++
          st :: (c'.inorder ++ R) := by
      have h2 : pre.dropLast ++ l' :: c' :: suf =
          (pre.dropLast ++ [l']) ++ c' :: suf := by simp
      rw [h2, inorderZip_append_split (pre.dropLast ++ [l'])
        (kvs.take pre.dropLast.length) (c' :: suf) st
        (kvs.drop (pre.dropLast.length + 1)) (by rw [htl]; simp),
        hzip_pre l', hR c']
    refine ⟨_, _, hunf, ?_, ?_, ?_, ?_, ?_⟩
    · rw [hnew, hold]
      exact seg_splice _ R _ _ _ _ st sep hseg
    · simp only [List.length_append, List.length_cons, htl, List.length_drop]
      omega
    · left
      simp only [List.length_append, List.length_cons, htl, List.length_drop]
      omega
    · rw [balancedList_forall]
      intro c hc
      rcases List.mem_append.mp hc with h' | h'
      · exact balancedList_forall.mp hpre c (List.mem_of_mem_dropLast h')
      · rcases List.mem_cons.mp h' with h1 | h1
        · subst h1; exact hbl'
        · rcases List.mem_cons.mp h1 with h2 | h2
          · subst h2; exact hbc'
          · exact balancedList_forall.mp hsuf c h2
    · rw [goodDepthList_forall]
      intro c hc
      rcases List.mem_append.mp hc with h' | h'
      · exact goodDepthList_forall.mp hdpre c (List.mem_of_mem_dropLast h')
      · rcases List.mem_cons.mp h' with h1 | h1
        · subst h1; exact hdl'
        · rcases List.mem_cons.mp h1 with h2 | h2
          · subst h2; exact hdc'
          · exact goodDepthList_forall.mp hdsuf c h2
  · by_cases hB : b - 1 < headLen suf
    · -- steal from the right sibling
      obtain ⟨right, suf', hsufeq⟩ : ∃ r t, suf = r :: t := by
        cases suf with
        | nil => simp [headLen] at hB
        | cons r t => exact ⟨r, t, rfl⟩
      subst hsufeq
      have hcount2 : pre.length + suf'.length + 1 = kvs.length := by
        simp only [List.length_cons] at hcount
        omega
      have hB' : b - 1 < right.len := by
        rw [show headLen (right :: suf') = right.len from rfl] at hB
        exact hB
      have hplt : pre.length < kvs.length := by
        simp only [List.length_cons] at hcount
        omega
      obtain ⟨sep, hsep⟩ : ∃ s, kvs.get? pre.length = some s := by
        rcases h' : kvs.get? pre.length with _ | s
        · exact absurd (List.get?_eq_none.mp h') (by omega)
        · exact ⟨s, rfl⟩
      have hrdep := goodDepthList_forall.mp hdsuf right (by simp)
      have hkind : child.is_leaf = right.is_leaf :=
        is_leaf_eq_of_goodDepth hdchild hrdep
      have hrbal := balancedList_forall.mp hsuf right (by simp)
      obtain ⟨c', st, r', hsteal, hseg, hbc', hbr', hdc', hdr'⟩ :=
        stealRight_spec hb sep hkind hclen hcbal hB' hrbal hdchild hrdep
      have hunf : handle_underflow b kvs pre child (right :: suf') =
          .internal (kvs.take pre.length ++ st :: kvs.drop (pre.length + 1))
            (pre ++ c' :: r' :: suf') := by
        rw [handle_underflow, if_neg hA, if_pos hB]
        simp only [List.head?_cons, hsep, hsteal, List.tail_cons]
      have htl : (kvs.take pre.length).length = pre.length :=
        length_take_of_le (by omega)
      obtain ⟨R, hR⟩ := inorderZip_head_ctx suf' (kvs.drop (pre.length + 1))
      have hkvs_eq := get?_decomp kvs pre.length sep hsep
      have hzip_pre : ∀ x : Node K V,
          inorderZip (pre ++ [x]) (kvs.take pre.length) =
            inorderZip pre (kvs.take pre.length) ++ x.inorder := by
        intro x
        rw [inorderZip_around_last (get?_append_cons pre x []) htl.symm,
          take_append_cons rfl x [], List.take_take]
        simp
      have hold : inorderZip (pre ++ child :: right :: suf') kvs =
          (inorderZip pre (kvs.take pre.length) ++ child.inorder) ++
            sep :: (right.inorder ++ R) := by
        conv_lhs => rw [hkvs_eq]
        have h2 : pre ++ child :: right :: suf' =
            (pre ++ [child]) ++ right :: suf' := by simp
        rw [h2, inorderZip_append_split (pre ++ [child]) (kvs.take pre.length)
          (right :: suf') sep (kvs.drop (pre.length + 1)) (by rw [htl]; simp),
          hzip_pre child, hR right]
      have hnew : inorderZip (pre ++ c' :: r' :: suf')
          (kvs.take pre.length ++ st :: kvs.drop (pre.length + 1)) =
          (inorderZip pre (kvs.take pre.length) ++ c'.inorder) ++
            st :: (r'.inorder ++ R) := by
        have h2 : pre ++ c' :: r' :: suf' = (pre ++ [c']) ++ r' :: suf' := by simp
        rw [h2, inorderZip_append_split (pre ++ [c']) (kvs.take pre.length)
          (r' :: suf') st (kvs.drop (pre.length + 1)) (by rw [htl]; simp),
          hzip_pre c', hR r']
      refine ⟨_, _, hunf, ?_, ?_, ?_, ?_, ?_⟩
      · rw [hnew, hold]
        exact seg_splice _ R _ _ _ _ st sep hseg
      · simp only [List.length_append, List.length_cons, htl, List.length_drop]
        omega
      · left
        simp only [List.length_append, List.length_cons, htl, List.length_drop]
        omega
      · rw [balancedList_forall]
        intro c hc
        rcases List.mem_append.mp hc with h' | h'
        · exact balancedList_forall.mp hpre c h'
        · rcases List.mem_cons.mp h' with h1 | h1
          · subst h1; exact hbc'
          · rcases List.mem_cons.mp h1 with h2 | h2
            · subst h2; exact hbr'
            · exact balancedList_forall.mp hsuf c (by simp [h2])
      · rw [goodDepthList_forall]
        intro c hc
        rcases List.mem_append.mp hc with h' | h'
        · exact goodDepthList_forall.mp hdpre c h'
        · rcases List.mem_cons.mp h' with h1 | h1
          · subst h1; exact hdc'
          · rcases List.mem_cons.mp h1 with h2 | h2
            · subst h2; exact hdr'
            · exact goodDepthList_forall.mp hdsuf c (by simp [h2])
    · by_cases hC : 0 < pre.length
      · -- merge with the left sibling
        obtain ⟨left, hgl⟩ : ∃ l, pre.getLast? = some l := by
          rcases h' : pre.getLast? with _ | l
          · rw [List.getLast?_eq_none_iff.mp h'] at hC
            simp at hC
          · exact ⟨l, rfl⟩
        have hlbal := balancedList_forall.mp hpre left (List.mem_of_mem_getLast? hgl)
        have hllen : left.len = b - 1 := by
          have h1 := (balancedLo_len_le hlbal).1
          have h2 : ¬ (b - 1 < lastLen pre) := hA
          simp only [lastLen, hgl] at h2
          omega
        have hpl : pre.length = pre.dropLast.length + 1 := getLast?_length hgl
        obtain ⟨sep, hsep⟩ : ∃ s, kvs.get? (pre.length - 1) = some s := by
          rcases h' : kvs.get? (pre.length - 1) with _ | s
          · exact absurd (List.get?_eq_none.mp h') (by omega)
          · exact ⟨s, rfl⟩
        have hldep := goodDepthList_forall.mp hdpre left (List.mem_of_mem_getLast? hgl)
        have hkind : left.is_leaf = child.is_leaf :=
          is_leaf_eq_of_goodDepth hldep hdchild
        obtain ⟨hmI, hmB, hmD⟩ := mergeNodes_spec hb sep hkind
          (balancedLo_mono (Nat.zero_le _) hlbal)
          (balancedLo_mono (Nat.zero_le _) hcbal)
          (by omega) (by omega) hldep hdchild
        have hunf : handle_underflow b kvs pre child suf =
            .internal (kvs.take (pre.length - 1) ++ kvs.drop pre.length)
              (pre.dropLast ++ mergeNodes left sep child :: suf) := by
          rw [handle_underflow, if_neg hA, if_neg hB, if_pos hC]
          simp only [hgl, hsep]
        have hj1 : pre.length - 1 = pre.dropLast.length := by omega
        rw [hj1] at hunf hsep
        have hdrop : kvs.drop pre.length = kvs.drop (pre.dropLast.length + 1) := by
          rw [hpl]
        rw [hdrop] at hunf
        have htl : (kvs.take pre.dropLast.length).length = pre.dropLast.length :=
          length_take_of_le (by omega)
        obtain ⟨R, hR⟩ := inorderZip_head_ctx suf (kvs.drop (pre.dropLast.length + 1))
        have hkvs_eq := get?_decomp kvs pre.dropLast.length sep hsep
        have hpre_eq : pre = pre.dropLast ++ [left] :=
          (List.dropLast_append_getLast? left hgl).symm
        have hgetp : pre.get? pre.dropLast.length = some left := by
          conv_lhs => rw [hpre_eq, List.dropLast_concat]
          exact get?_append_cons pre.dropLast left []
        have hpt : pre.take pre.dropLast.length = pre.dropLast := by
          rw [← hj1, ← List.dropLast_eq_take]
        have hzp : inorderZip pre (kvs.take pre.dropLast.length) =
            inorderZip pre.dropLast (kvs.take pre.dropLast.length) ++
              left.inorder := by
          rw [inorderZip_around_last hgetp htl.symm, hpt, List.take_take]
          simp
        have hold : inorderZip (pre ++ child :: suf) kvs =
            (inorderZip pre.dropLast (kvs.take pre.dropLast.length) ++ left.inorder) ++
              sep :: (child.inorder ++ R) := by
          conv_lhs => rw [hkvs_eq]
          rw [inorderZip_append_split pre (kvs.take pre.dropLast.length) (child :: suf)
            sep (kvs.drop (pre.dropLast.length + 1)) (by rw [htl]; omega)]
          rw [hR child, hzp]
        have hnew : inorderZip (pre.dropLast ++ mergeNodes left sep child :: suf)
            (kvs.take pre.dropLast.length ++ kvs.drop (pre.dropLast.length + 1)) =
            inorderZip pre.dropLast (kvs.take pre.dropLast.length) ++
              ((left.inorder ++ sep :: child.inorder) ++ R) := by
          rw [inorderZip_flat_append pre.dropLast (kvs.take pre.dropLast.length)
            (mergeNodes left sep child :: suf) (kvs.drop (pre.dropLast.length + 1))
            htl.symm, hR (mergeNodes left sep child), hmI]
        refine ⟨_, _, hunf, ?_, ?_, ?_, ?_, ?_⟩
        · rw [hnew, hold]
          exact merge_splice _ R _ _ sep
        · simp only [List.length_append, List.length_cons, htl, List.length_drop]
          omega
        · right
          simp only [List.length_append, htl, List.length_drop]
          omega
        · rw [balancedList_forall]
          intro c hc
          rcases List.mem_append.mp hc with h' | h'
          · exact balancedList_forall.mp hpre c (List.mem_of_mem_dropLast h')
          · rcases List.mem_cons.mp h' with h1 | h1
            · subst h1; exact hmB
            · exact balancedList_forall.mp hsuf c h1
        · rw [goodDepthList_forall]
          intro c hc
          rcases List.mem_append.mp hc with h' | h'
          · exact goodDepthList_forall.mp hdpre c (List.mem_of_mem_dropLast h')
          · rcases List.mem_cons.mp h' with h1 | h1
            · subst h1; exact hmD
            · exact goodDepthList_forall.mp hdsuf c h1
      · -- merge with the right sibling (the child is the leftmost edge)
        have hpre0 : pre = [] := List.length_eq_zero.mp (by omega)
        subst hpre0
        obtain ⟨right, suf', hsufeq⟩ : ∃ r t, suf = r :: t := by
          cases suf with
          | nil => simp at hcount; omega
          | cons r t => exact ⟨r, t, rfl⟩
        subst hsufeq
        obtain ⟨sep, kb, hkvseq⟩ : ∃ s t, kvs = s :: t := by
          cases kvs with
          | nil => simp at hk1
          | cons s t => exact ⟨s, t, rfl⟩
        subst hkvseq
        have hrbal := balancedList_forall.mp hsuf right (by simp)
        have hrlen : right.len = b - 1 := by
          have h1 := (balancedLo_len_le hrbal).1
          have h2 : ¬ (b - 1 < headLen (right :: suf')) := hB
          rw [show headLen (right :: suf') = right.len from rfl] at h2
          omega
        have hrdep := goodDepthList_forall.mp hdsuf right (by simp)
        have hkind : child.is_leaf = right.is_leaf :=
          is_leaf_eq_of_goodDepth hdchild hrdep
        obtain ⟨hmI, hmB, hmD⟩ := mergeNodes_spec hb sep hkind
          (balancedLo_mono (Nat.zero_le _) hcbal)
          (balancedLo_mono (Nat.zero_le _) hrbal)
          (by omega) (by omega) hdchild hrdep
        have hunf : handle_underflow b (sep :: kb) [] child (right :: suf') =
            .internal kb (mergeNodes child sep right :: suf') := by
          rw [handle_underflow, if_neg hA, if_neg hB, if_neg hC]
          simp only [List.head?_cons, List.get?_cons_zero, List.tail_cons,
            List.drop_succ_cons, List.drop_zero]
        obtain ⟨R, hR⟩ := inorderZip_head_ctx suf' kb
        refine ⟨_, _, hunf, ?_, ?_, ?_, ?_, ?_⟩
        · rw [hR (mergeNodes child sep right), hmI, List.nil_append,
            inorderZip_cons_cons, hR right]
          simp [List.append_assoc]
        · simp only [List.length_cons] at hcount ⊢
          omega
        · right
          simp only [List.length_cons]
        · rw [balancedList_forall]
          intro c hc
          rcases List.mem_cons.mp hc with h1 | h1
          · subst h1; exact hmB
          · exact balancedList_forall.mp hsuf c (by simp [h1])
        · rw [goodDepthList_forall]
          intro c hc
          rcases List.mem_cons.mp hc with h1 | h1
          · subst h1; exact hmD
          · exact goodDepthList_forall.mp hdsuf c (by simp [h1])

theorem eraseKeyL_append_left [LinearOrder K] {key : K} {v : V} :
    ∀ {A : List (K × V)} (B : List (K × V)), alookup key A = some v →
      eraseKeyL key (A ++ B) = eraseKeyL key A ++ B
  | [], _, h => by simp [alookup] at h
  | p :: rest, B, h => by
    by_cases h2 : key = p.1
    · rw [List.cons_append, eraseKeyL_cons_eq h2, eraseKeyL_cons_eq h2]
    · rw [alookup, if_neg h2] at h
      rw [List.cons_append, eraseKeyL, if_neg h2, eraseKeyL, if_neg h2,
        eraseKeyL_append_left B h, List.cons_append]

theorem popMinAux_eq [LinearOrder K] (b : Nat) :
    ∀ (cs : List (Node K V)) (i : Nat),
      popMinAux b cs i = (cs.get? i).bind (fun c => Node.popMin b c)
  | [], 0 => rfl
  | [], _ + 1 => rfl
  | _ :: _, 0 => rfl
  | _ :: cs, i + 1 => popMinAux_eq b cs i

theorem removeGoAux_eq [LinearOrder K] (b : Nat) :
    ∀ (cs : List (Node K V)) (i : Nat) (key : K),
      removeGoAux b cs i key = (cs.get? i).bind (fun c => Node.removeGo b c key)
  | [], 0, _ => rfl
  | [], _ + 1, _ => rfl
  | _ :: _, 0, _ => rfl
  | _ :: cs, i + 1, key => removeGoAux_eq b cs i key

theorem popMin_spec [LinearOrder K] {b : Nat} (hb : 2 ≤ b) :
    ∀ (n : Node K V) (lo : Nat), 1 ≤ lo → lo ≤ b - 1 → n.balancedLo b lo = true →
      ∀ (d : Nat), n.goodDepth d = true →
      ∃ kv n', Node.popMin b n = some (kv, n') ∧
        n.inorder = kv :: n'.inorder ∧
        n'.balancedLo b (lo - 1) = true ∧ n'.goodDepth d = true ∧
        n'.is_leaf = n.is_leaf := by
  intro n
  induction n using Node.myInduction with
  | hleaf kvs =>
    intro lo hlo1 hlob hbal d hd
    simp only [balancedLo_leaf, Bool.and_eq_true, decide_eq_true_eq] at hbal
    cases kvs with
    | nil => simp at hbal; omega

    | cons kv rest =>
      refine ⟨kv, .leaf rest, rfl, by simp, ?_, hd, rfl⟩
      simp only [balancedLo_leaf, Bool.and_eq_true, decide_eq_true_eq]
      simp only [List.length_cons] at hbal
      omega
  | hint kvs children ih =>
    intro lo hlo1 hlob hbal d hd
    simp only [balancedLo_internal, Bool.and_eq_true, decide_eq_true_eq] at hbal
    obtain ⟨⟨⟨hlo2, hub⟩, hcount⟩, hblist⟩ := hbal
    simp only [goodDepth_internal, Bool.and_eq_true, decide_eq_true_eq] at hd
    obtain ⟨hd2, hdlist⟩ := hd
    cases children with
    | nil => simp at hcount
    | cons c cs =>
      simp only [balancedList_cons, Bool.and_eq_true] at hblist
      obtain ⟨hcbal, hcsbal⟩ := hblist
      simp only [goodDepthList_cons, Bool.and_eq_true] at hdlist
      obtain ⟨hcd, hcsd⟩ := hdlist
      obtain ⟨kv, c', hpop, hcI, hcbal', hcd', hcl⟩ :=
        ih c (by simp) (b - 1) (by omega) (le_refl _) hcbal (d - 1) hcd
      simp only [List.length_cons] at hcount
      obtain ⟨R, hR⟩ := inorderZip_head_ctx cs kvs
      rcases hu : c'.is_underfull b with _ | _
      · -- the child kept its capacity: splice it back in place
        have hgo : Node.popMin b (.internal kvs (c :: cs)) =
            some (kv, .internal kvs (c' :: cs)) := by
          simp only [Node.popMin, hpop, hu, Bool.false_eq_true, if_false]
        have hc'' : c'.balancedLo b (b - 1) = true := by
          simp only [Node.is_underfull, decide_eq_false_iff_not, Nat.not_lt] at hu
          exact balancedLo_of_len hcbal' hu
        refine ⟨kv, _, hgo, ?_, ?_, ?_, rfl⟩
        · rw [inorder_internal, inorder_internal, hR c, hR c', hcI]
          simp
        · simp only [balancedLo_internal, Bool.and_eq_true, decide_eq_true_eq,
            balancedList_cons, List.length_cons]
          exact ⟨⟨⟨by omega, hub⟩, by omega⟩, hc'', hcsbal⟩
        · simp only [goodDepth_internal, Bool.and_eq_true, decide_eq_true_eq,
            goodDepthList_cons]
          exact ⟨hd2, hcd', hcsd⟩
      · -- the child underflowed: rebalance via handle_underflow
        have hulen : c'.len = b - 2 := by
          simp only [Node.is_underfull, decide_eq_true_eq] at hu
          have := (balancedLo_len_le hcbal').1
          omega
        obtain ⟨kvs', cs', huf, hufI, hufc, huflen, hufbal, hufdep⟩ :=
          handle_underflow_spec hb hulen hcbal'
            (show balancedList b ([] : List (Node K V)) = true from rfl) hcsbal
            (show ([] : List (Node K V)).length + cs.length = kvs.length by
              simp; omega)
            (show 1 ≤ kvs.length by omega)
            (show goodDepthList ([] : List (Node K V)) (d - 1) = true from rfl)
            hcd' hcsd
        have hgo : Node.popMin b (.internal kvs (c :: cs)) =
            some (kv, handle_underflow b kvs [] c' cs) := by
          simp only [Node.popMin, hpop, hu, if_true]
        rw [huf] at hgo
        refine ⟨kv, _, hgo, ?_, ?_, ?_, rfl⟩
        · rw [inorder_internal, inorder_internal, hR c, hcI, hufI,
            List.nil_append, hR c']
          simp
        · simp only [balancedLo_internal, Bool.and_eq_true, decide_eq_true_eq]
          refine ⟨⟨⟨by omega, by omega⟩, hufc⟩, hufbal⟩
        · simp only [goodDepth_internal, Bool.and_eq_true, decide_eq_true_eq]
          exact ⟨hd2, hufdep⟩

theorem removeGo_spec [LinearOrder K] {b : Nat} (hb : 2 ≤ b) :
    ∀ (n : Node K V) (lo : Nat), lo ≤ b - 1 → (n.is_leaf = true ∨ 1 ≤ lo) →
      n.balancedLo b lo = true → KSorted n.inorder →
      ∀ (d : Nat), n.goodDepth d = true → ∀ (key : K),
      (alookup key n.inorder = none → Node.removeGo b n key = none) ∧
      (∀ v, alookup key n.inorder = some v →
        ∃ n', Node.removeGo b n key = some (v, n') ∧
          n'.inorder = eraseKeyL key n.inorder ∧
          n'.balancedLo b (lo - 1) = true ∧ n'.goodDepth d = true ∧
          n'.is_leaf = n.is_leaf) := by
  intro n
  induction n using Node.myInduction with
  | hleaf kvs =>
    intro lo hlob hlo1 hbal hsort d hd key
    simp only [balancedLo_leaf, Bool.and_eq_true, decide_eq_true_eq] at hbal
    obtain ⟨hlo2, hub⟩ := hbal
    rw [inorder_leaf] at hsort
    rcases hsk : searchKeys kvs key with i | i
    · -- the key sits at index i of this leaf
      obtain ⟨hlt, v0, hv⟩ := searchKeys_found_spec hsk
      have hdec := get?_decomp kvs i (key, v0) hv
      have halo : alookup key kvs = some v0 := alookup_decomp hsort hdec
      have hilt := get?_lt_length hv
      constructor
      · intro h
        rw [inorder_leaf, halo] at h
        exact Option.noConfusion h
      · intro v hvv
        rw [inorder_leaf, halo] at hvv
        obtain rfl : v0 = v := Option.some.inj hvv
        have hgo : Node.removeGo b (.leaf kvs) key =
            some (v0, .leaf (kvs.take i ++ kvs.drop (i + 1))) := by
          simp only [Node.removeGo, hsk, hv]
        refine ⟨_, hgo, ?_, ?_, ?_, rfl⟩
        · rw [inorder_leaf, inorder_leaf]
          conv_rhs => rw [hdec]
          rw [eraseKeyL_append (fun p hp => (ne_of_gt (hlt p hp)))]
          have hstep : eraseKeyL key ((key, v0) :: kvs.drop (i + 1)) =
              kvs.drop (i + 1) := by
            rw [eraseKeyL, if_pos rfl]
          rw [hstep]
        · simp only [balancedLo_leaf, Bool.and_eq_true, decide_eq_true_eq,
            List.length_append, List.length_take, List.length_drop]
          omega
        · simpa using hd
    · -- the key is absent from this leaf
      obtain ⟨hle, hlt, hgtp⟩ := searchKeys_goDown_spec hsk
      have hgt := searchKeys_goDown_gt hsort hsk
      have halo : alookup key kvs = none := by
        rw [alookup_eq_none]
        intro p hp
        have hsplit : p ∈ kvs.take i ++ kvs.drop i := by
          rw [List.take_append_drop]
          exact hp
        rcases List.mem_append.mp hsplit with h | h
        · exact (ne_of_lt (hlt p h)).symm
        · exact ne_of_lt (hgt p h)
      constructor
      · intro _
        simp only [Node.removeGo, hsk]
      · intro v hvv
        rw [inorder_leaf, halo] at hvv
        exact Option.noConfusion hvv
  | hint kvs children ih =>
    intro lo hlob hlo1 hbal hsort d hd key
    rcases hlo1 with hlf | hlo1
    · simp at hlf
    simp only [balancedLo_internal, Bool.and_eq_true, decide_eq_true_eq] at hbal
    obtain ⟨⟨⟨hlo2, hub⟩, hcount⟩, hblist⟩ := hbal
    rw [inorder_internal] at hsort
    simp only [goodDepth_internal, Bool.and_eq_true, decide_eq_true_eq] at hd
    obtain ⟨hd2, hdlist⟩ := hd
    rcases hsk : searchKeys kvs key with i | i
    · -- found at separator i: swap with the successor and remove it there
      obtain ⟨hlt, v0, hv⟩ := searchKeys_found_spec hsk
      have hilt : i < kvs.length := get?_lt_length hv
      obtain ⟨c, hc1⟩ : ∃ c, children.get? (i + 1) = some c := by
        rcases h' : children.get? (i + 1) with _ | c
        · exact absurd (List.get?_eq_none.mp h') (by omega)
        · exact ⟨c, rfl⟩
      have hcbal := balancedList_get? hc1 hblist
      have hcd := goodDepthList_mem hdlist (List.get?_mem hc1)
      obtain ⟨mkv, c', hpop, hcmin, hcbal', hcd', hclf⟩ :=
        popMin_spec hb c (b - 1) (by omega) (le_refl _) hcbal (d - 1) hcd
      have hpaux : popMinAux b children (i + 1) = some (mkv, c') := by
        rw [popMinAux_eq, hc1]
        exact hpop
      have hlen1 : (children.take (i + 1)).length = i + 1 :=
        length_take_of_le (by omega)
      have hlen2 : (kvs.take i).length = i := length_take_of_le (by omega)
      have hch_dec : children = children.take (i + 1) ++ children.drop (i + 1) :=
        (List.take_append_drop (i + 1) children).symm
      have hkvs_dec : kvs = kvs.take i ++ (key, v0) :: kvs.drop (i + 1) :=
        get?_decomp kvs i (key, v0) hv
      have hdrop_c : children.drop (i + 1) = c :: children.drop (i + 2) := by
        have := drop_eq_cons hc1
        simpa using this
      obtain ⟨R, hR⟩ := inorderZip_head_ctx (children.drop (i + 2)) (kvs.drop (i + 1))
      have hB : inorderZip (children.drop (i + 1)) (kvs.drop (i + 1)) =
          c.inorder ++ R := by
        rw [hdrop_c, hR c]
      have hsplit_old : inorderZip children kvs =
          inorderZip (children.take (i + 1)) (kvs.take i) ++
            (key, v0) :: (c.inorder ++ R) := by
        conv_lhs => rw [hch_dec, hkvs_dec]
        rw [inorderZip_append_split (children.take (i + 1)) (kvs.take i)
          (children.drop (i + 1)) (key, v0) (kvs.drop (i + 1)) (by omega), hB]
      have halo : alookup key (inorderZip children kvs) = some v0 :=
        alookup_decomp hsort hsplit_old
      have hAlt : ∀ p ∈ inorderZip (children.take (i + 1)) (kvs.take i),
          p.1 < key := sorted_before_key (hsplit_old ▸ hsort)
      have herase : eraseKeyL key (inorderZip children kvs) =
          inorderZip (children.take (i + 1)) (kvs.take i) ++
            mkv :: (c'.inorder ++ R) := by
        rw [hsplit_old, eraseKeyL_append (fun p hp => (ne_of_gt (hAlt p hp)))]
        have hstep : eraseKeyL key ((key, v0) :: (c.inorder ++ R)) =
            c.inorder ++ R := by
          rw [eraseKeyL, if_pos rfl]
        rw [hstep, hcmin]
        simp
      have hsplit_new : inorderZip
          (children.take (i + 1) ++ c' :: children.drop (i + 2))
          (kvs.take i ++ mkv :: kvs.drop (i + 1)) =
          inorderZip (children.take (i + 1)) (kvs.take i) ++
            mkv :: (c'.inorder ++ R) := by
        rw [inorderZip_append_split (children.take (i + 1)) (kvs.take i)
          (c' :: children.drop (i + 2)) mkv (kvs.drop (i + 1)) (by omega), hR c']
      obtain ⟨hbtake, _, _⟩ := balancedList_parts hc1 hblist
      obtain ⟨hdtake, _, _⟩ := goodDepthList_parts hc1 hdlist
      have hbtake1 : balancedList b (children.take (i + 1)) = true := by
        rw [balancedList_forall]
        intro x hx
        exact balancedList_forall.mp hblist x (List.mem_of_mem_take hx)
      have hbdrop2 : balancedList b (children.drop (i + 2)) = true := by
        rw [balancedList_forall]
        intro x hx
        exact balancedList_forall.mp hblist x (List.mem_of_mem_drop hx)
      have hdtake1 : goodDepthList (children.take (i + 1)) (d - 1) = true := by
        rw [goodDepthList_forall]
        intro x hx
        exact goodDepthList_forall.mp hdlist x (List.mem_of_mem_take hx)
      have hddrop2 : goodDepthList (children.drop (i + 2)) (d - 1) = true := by
        rw [goodDepthList_forall]
        intro x hx
        exact goodDepthList_forall.mp hdlist x (List.mem_of_mem_drop hx)
      constructor
      · intro h
        rw [inorder_internal, halo] at h
        exact Option.noConfusion h
      · intro v hvv
        rw [inorder_internal, halo] at hvv
        obtain rfl : v0 = v := Option.some.inj hvv
        rcases hu : c'.is_underfull b with _ | _
        · -- the successor's subtree kept its capacity
          have hgo : Node.removeGo b (.internal kvs children) key =
              some (v0, .internal (kvs.take i ++ mkv :: kvs.drop (i + 1))
                (children.take (i + 1) ++ c' :: children.drop (i + 2))) := by
            simp only [Node.removeGo, hsk, hv, hpaux, hu, Bool.false_eq_true,
              if_false]
          have hc'' : c'.balancedLo b (b - 1) = true := by
            simp only [Node.is_underfull, decide_eq_false_iff_not, Nat.not_lt] at hu
            exact balancedLo_of_len hcbal' hu
          refine ⟨_, hgo, ?_, ?_, ?_, rfl⟩
          · rw [inorder_internal, inorder_internal, hsplit_new, herase]
          · simp only [balancedLo_internal, Bool.and_eq_true, decide_eq_true_eq,
              List.length_append, List.length_cons, List.length_take,
              List.length_drop]
            refine ⟨⟨⟨by omega, by omega⟩, by omega⟩, ?_⟩
            rw [balancedList_forall]
            intro x hx
            rcases List.mem_append.mp hx with h' | h'
            · exact balancedList_forall.mp hbtake1 x h'
            · rcases List.mem_cons.mp h' with h1 | h1
              · subst h1; exact hc''
              · exact balancedList_forall.mp hbdrop2 x h1
          · simp only [goodDepth_internal, Bool.and_eq_true, decide_eq_true_eq,
              goodDepthList_append, goodDepthList_cons, Bool.and_eq_true]
            exact ⟨hd2, hdtake1, hcd', hddrop2⟩
        · -- the successor's subtree underflowed
          have hulen : c'.len = b - 2 := by
            simp only [Node.is_underfull, decide_eq_true_eq] at hu
            have := (balancedLo_len_le hcbal').1
            omega
          obtain ⟨kvs', cs', huf, hufI, hufc, huflen, hufbal, hufdep⟩ :=
            handle_underflow_spec hb hulen hcbal' hbtake1 hbdrop2
              (show (children.take (i + 1)).length +
                  (children.drop (i + 2)).length =
                  (kvs.take i ++ mkv :: kvs.drop (i + 1)).length by
                simp only [hlen1, List.length_drop, List.length_append,
                  List.length_cons, List.length_take]
                omega)
              (show 1 ≤ (kvs.take i ++ mkv :: kvs.drop (i + 1)).length by
                simp only [List.length_append, List.length_cons]
                omega)
              hdtake1 hcd' hddrop2
          have hgo : Node.removeGo b (.internal kvs children) key =
              some (v0, handle_underflow b (kvs.take i ++ mkv :: kvs.drop (i + 1))
                (children.take (i + 1)) c' (children.drop (i + 2))) := by
            simp only [Node.removeGo, hsk, hv, hpaux, hu, if_true]
          rw [huf] at hgo
          have hsur : (kvs.take i ++ mkv :: kvs.drop (i + 1)).length =
              kvs.length := length_surgery hilt mkv
          refine ⟨_, hgo, ?_, ?_, ?_, rfl⟩
          · rw [inorder_internal, inorder_internal, hufI, hsplit_new, herase]
          · rw [hsur] at huflen
            simp only [balancedLo_internal, Bool.and_eq_true, decide_eq_true_eq]
            exact ⟨⟨⟨by omega, by omega⟩, hufc⟩, hufbal⟩
          · simp only [goodDepth_internal, Bool.and_eq_true, decide_eq_true_eq]
            exact ⟨hd2, hufdep⟩
    · -- descend into child i
      obtain ⟨hle, hlt, hgtp⟩ := searchKeys_goDown_spec hsk
      obtain ⟨c, hc⟩ : ∃ c, children.get? i = some c := by
        rcases h' : children.get? i with _ | c
        · exact absurd (List.get?_eq_none.mp h') (by omega)
        · exact ⟨c, rfl⟩
      have hilt : i < children.length := get?_lt_length hc
      have hcbal := balancedList_get? hc hblist
      have hcsort : KSorted c.inorder :=
        List.Pairwise.sublist (child_sublist_inorderZip i children kvs c hc hle) hsort
      have hcdepth := goodDepthList_mem hdlist (List.get?_mem hc)
      obtain ⟨T, hzip, hrep1, _, hTcase⟩ := inorderZip_ctx hc hle
      have hPlt : ∀ p ∈ inorderZip (children.take i) (kvs.take i), p.1 < key :=
        prefix_keys_lt hsort (by omega) hle hlt
      have hTgt : ∀ p ∈ T, key < p.1 := by
        rcases hTcase with ⟨hT0, _⟩ | ⟨sep, tail, hsep, hTeq⟩
        · rw [hT0]
          simp
        · have hTs : KSorted T := by
            have := hsort
            rw [hzip, KSorted, List.pairwise_append] at this
            exact this.2.1
          rw [hTeq] at hTs ⊢
          exact sorted_head_bound hTs (hgtp sep hsep)
      have halo : alookup key (inorderZip children kvs) = alookup key c.inorder := by
        rw [hzip, List.append_assoc,
          alookup_append_not (fun p hp => (ne_of_lt (hPlt p hp)).symm),
          alookup_append_right_not (fun p hp => ne_of_lt (hTgt p hp))]
      obtain ⟨ih1, ih2⟩ := ih c (List.get?_mem hc) (b - 1) (le_refl _)
        (Or.inr (by omega)) hcbal hcsort (d - 1) hcdepth key
      obtain ⟨hbtake, hbc, hbdrop⟩ := balancedList_parts hc hblist
      obtain ⟨hdtake, hdc, hddrop⟩ := goodDepthList_parts hc hdlist
      constructor
      · intro h
        rw [inorder_internal, halo] at h
        have haux : removeGoAux b children i key = none := by
          rw [removeGoAux_eq, hc]
          exact ih1 h
        simp only [Node.removeGo, hsk, haux]
      · intro v hvv
        rw [inorder_internal, halo] at hvv
        obtain ⟨c', hrec, hcI, hcbal', hcd', hclf⟩ := ih2 v hvv
        have haux : removeGoAux b children i key = some (v, c') := by
          rw [removeGoAux_eq, hc]
          exact hrec
        have herase : eraseKeyL key (inorderZip children kvs) =
            inorderZip (children.take i) (kvs.take i) ++ c'.inorder ++ T := by
          rw [hzip, List.append_assoc,
            eraseKeyL_append (fun p hp => (ne_of_gt (hPlt p hp))),
            eraseKeyL_append_left T hvv, hcI, List.append_assoc]
        rcases hu : c'.is_underfull b with _ | _
        · -- no underflow: splice the updated child back
          have hgo : Node.removeGo b (.internal kvs children) key =
              some (v, .internal kvs
                (children.take i ++ c' :: children.drop (i + 1))) := by
            simp only [Node.removeGo, hsk, haux, hu, Bool.false_eq_true, if_false]
          have hc'' : c'.balancedLo b (b - 1) = true := by
            simp only [Node.is_underfull, decide_eq_false_iff_not, Nat.not_lt] at hu
            exact balancedLo_of_len hcbal' hu
          refine ⟨_, hgo, ?_, ?_, ?_, rfl⟩
          · rw [inorder_internal, inorder_internal, hrep1 c', herase]
          · simp only [balancedLo_internal, Bool.and_eq_true, decide_eq_true_eq,
              length_surgery hilt c', balancedList_append, balancedList_cons,
              Bool.and_eq_true]
            exact ⟨⟨⟨by omega, hub⟩, hcount⟩, hbtake, hc'', hbdrop⟩
          · simp only [goodDepth_internal, Bool.and_eq_true, decide_eq_true_eq,
              goodDepthList_append, goodDepthList_cons, Bool.and_eq_true]
            exact ⟨hd2, hdtake, hcd', hddrop⟩
        · -- the child underflowed
          have hulen : c'.len = b - 2 := by
            simp only [Node.is_underfull, decide_eq_true_eq] at hu
            have := (balancedLo_len_le hcbal').1
            omega
          have hlent : (children.take i).length = i :=
            length_take_of_le (by omega)
          obtain ⟨kvs', cs', huf, hufI, hufc, huflen, hufbal, hufdep⟩ :=
            handle_underflow_spec hb hulen hcbal' hbtake hbdrop
              (show (children.take i).length + (children.drop (i + 1)).length =
                  kvs.length by
                simp only [hlent, List.length_drop]
                omega)
              (show 1 ≤ kvs.length by omega)
              hdtake hcd' hddrop
          have hgo : Node.removeGo b (.internal kvs children) key =
              some (v, handle_underflow b kvs (children.take i) c'
                (children.drop (i + 1))) := by
            simp only [Node.removeGo, hsk, haux, hu, if_true]
          rw [huf] at hgo
          refine ⟨_, hgo, ?_, ?_, ?_, rfl⟩
          · rw [inorder_internal, inorder_internal, hufI, hrep1 c', herase]
          · simp only [balancedLo_internal, Bool.and_eq_true, decide_eq_true_eq]
            exact ⟨⟨⟨by omega, by omega⟩, hufc⟩, hufbal⟩
          · simp only [goodDepth_internal, Bool.and_eq_true, decide_eq_true_eq]
            exact ⟨hd2, hufdep⟩

theorem BTreeMap.remove_spec [LinearOrder K] {m : BTreeMap K V} (hwf : m.WF)
    (key : K) :
    (m.get key = none → m.remove key = (none, m)) ∧
    (∀ v, m.get key = some v →
      (m.remove key).1 = some v ∧
      (m.remove key).2.WF ∧
      (m.remove key).2.root.inorder = eraseKeyL key m.root.inorder ∧
      (m.remove key).2.b = m.b ∧
      (m.remove key).2.length + 1 = m.length) := by
  have hget := BTreeMap.get_alookup hwf key
  obtain ⟨hb, hrb, hgd, hlen, hsort⟩ := hwf
  rw [rootBalanced_iff] at hrb
  have hlo : (if m.root.is_leaf then 0 else 1) ≤ m.b - 1 := by
    split <;> omega
  have hlo1 : m.root.is_leaf = true ∨ 1 ≤ (if m.root.is_leaf then 0 else 1) := by
    rcases hleaf : m.root.is_leaf with _ | _
    · right
      simp [hleaf]
    · left
      rfl
  obtain ⟨hr1, hr2⟩ :=
    removeGo_spec hb m.root _ hlo hlo1 hrb hsort m.depth hgd key
  constructor
  · intro h
    rw [hget] at h
    have hnone := hr1 h
    simp only [BTreeMap.remove, hnone]
  · intro v hv
    rw [hget] at hv
    obtain ⟨n', hgo, hnI, hnb, hnd, hnl⟩ := hr2 v hv
    have hlen' : (eraseKeyL key m.root.inorder).length + 1 =
        m.root.inorder.length := length_eraseKeyL hv
    have hsort' : KSorted (eraseKeyL key m.root.inorder) := KSorted.eraseKeyL hsort
    by_cases hh : (n'.len == 0 && !n'.is_leaf) = true
    · -- the root became an empty internal node: hoist its lone child
      simp only [Bool.and_eq_true, beq_iff_eq, Bool.not_eq_eq_eq_not,
        Bool.not_true] at hh
      obtain ⟨hn0, hnleaf⟩ := hh
      cases n' with
      | leaf kvs0 => simp at hnleaf
      | internal kvs0 cs0 =>
        simp only [len_internal] at hn0
        have hkvs0 : kvs0 = [] := List.length_eq_zero.mp hn0
        subst hkvs0
        simp only [is_leaf_internal] at hnl
        simp only [balancedLo_internal, Bool.and_eq_true, decide_eq_true_eq,
          List.length_nil] at hnb
        obtain ⟨c0, hcs0⟩ : ∃ c0, cs0 = [c0] := by
          cases cs0 with
          | nil => simp at hnb
          | cons c0 rest =>
            cases rest with
            | nil => exact ⟨c0, rfl⟩
            | cons _ _ => simp at hnb
        subst hcs0
        simp only [balancedList_cons, balancedList_nil, Bool.and_eq_true,
          and_true] at hnb
        have hc0bal : c0.balancedLo m.b (m.b - 1) = true := hnb.2
        simp only [goodDepth_internal, goodDepthList_cons, goodDepthList_nil,
          Bool.and_eq_true, and_true, decide_eq_true_eq] at hnd
        obtain ⟨hd2', hc0d⟩ := hnd
        have hcond : ((Node.internal ([] : List (K × V)) [c0]).len == 0 &&
            !(Node.internal ([] : List (K × V)) [c0]).is_leaf) = true := by
          simp [Node.len, Node.is_leaf]
        have hrem : m.remove key =
            (some v, { root := c0, length := m.length - 1,
                       depth := m.depth - 1, b := m.b }) := by
          simp only [BTreeMap.remove, hgo, hcond, if_true, Node.hoist_lone_child]
        rw [hrem]
        have hc0I : c0.inorder = eraseKeyL key m.root.inorder := by
          rw [← hnI, inorder_internal, inorderZip_cons_nil]
        refine ⟨rfl, ⟨hb, ?_, hc0d, ?_, ?_⟩, hc0I, rfl, ?_⟩
        · rw [rootBalanced_iff]
          have hle : (if c0.is_leaf then 0 else 1) ≤ m.b - 1 := by
            split <;> omega
          exact balancedLo_mono hle hc0bal
        · simp only
          rw [hc0I, hlen]
          omega
        · rw [hc0I]
          exact hsort'
        · simp only
          rw [hlen]
          omega
    · -- no root fix-up needed
      have hrem : m.remove key =
          (some v, { root := n', length := m.length - 1,
                     depth := m.depth, b := m.b }) := by
        simp only [BTreeMap.remove, hgo]
        rw [if_neg hh]
      rw [hrem]
      refine ⟨rfl, ⟨hb, ?_, hnd, ?_, ?_⟩, hnI, rfl, ?_⟩
      · rw [rootBalanced_iff]
        simp only
        rw [hnl]
        rcases hleaf : m.root.is_leaf with _ | _
        · -- internal root: it kept at least one separator
          simp only [hleaf, Bool.false_eq_true, if_false]
          rw [hleaf] at hnl
          simp only [Bool.and_eq_true, beq_iff_eq, Bool.not_eq_eq_eq_not,
            Bool.not_true, not_and] at hh
          have hlen1 : 1 ≤ n'.len := by
            rcases Nat.eq_zero_or_pos n'.len with h0 | h1
            · exact absurd (hh h0) (by simp [hnl])
            · exact h1
          exact balancedLo_of_len hnb hlen1
        · simp only [hleaf, if_true]
          rw [hleaf] at hrb
          simp only [if_true] at hrb
          exact balancedLo_mono (Nat.zero_le _) hnb
      · simp only
        rw [hnI, hlen]
        omega
      · rw [hnI]
        exact hsort'
      · simp only
        rw [hlen]
        omega

/-! ### Iterator correctness -/

theorem itemsFlatten_append :
    ∀ (A B : List (TraversalItem K V)),
      itemsFlatten (A ++ B) = itemsFlatten A ++ itemsFlatten B
  | [], _ => rfl
  | .elem k v :: A, B => by
    simp only [List.cons_append, itemsFlatten, List.append_eq,
      itemsFlatten_append A B]
  | .edge n :: A, B => by
    simp only [List.cons_append, itemsFlatten, List.append_eq,
      itemsFlatten_append A B, List.append_assoc]

theorem itemsFlatten_traversalItems :
    ∀ n : Node K V, itemsFlatten n.traversalItems = n.inorder := by
  intro n
  induction n using Node.myInduction with
  | hleaf kvs =>
    simp only [Node.traversalItems, inorder_leaf]
    induction kvs with
    | nil => rfl
    | cons p rest ih => simp only [List.map_cons, itemsFlatten, ih]
  | hint kvs children ih =>
    simp only [Node.traversalItems, inorder_internal]
    have aux : ∀ (cs : List (Node K V)) (ks : List (K × V)),
        itemsFlatten (travInterleave cs ks) = inorderZip cs ks := by
      intro cs
      induction cs with
      | nil => intro ks; cases ks <;> rfl
      | cons c cs' ihc =>
        intro ks
        cases ks with
        | nil =>
          simp only [travInterleave, itemsFlatten, inorderZip_cons_nil]
          simp
        | cons kv ks' =>
          simp only [travInterleave, itemsFlatten, inorderZip_cons_cons]
          rw [ihc ks', Prod.mk.eta]
    exact aux children kvs

theorem stackFlat_nil : stackFlat ([] : List (List (TraversalItem K V))) = [] := rfl

theorem stackFlat_cons (x : List (TraversalItem K V)) (ls : List (List (TraversalItem K V))) :
    stackFlat (x :: ls) = itemsFlatten x ++ stackFlat ls := by
  simp [stackFlat]

theorem stackFlatRev_nil :
    stackFlatRev ([] : List (List (TraversalItem K V))) = [] := rfl

theorem stackFlatRev_concat (ls : List (List (TraversalItem K V)))
    (x : List (TraversalItem K V)) :
    stackFlatRev (ls ++ [x]) = itemsFlatten x ++ stackFlatRev ls := by
  simp [stackFlatRev]

theorem stackFlatRev_cons (x : List (TraversalItem K V))
    (ls : List (List (TraversalItem K V))) :
    stackFlatRev (x :: ls) = stackFlatRev ls ++ itemsFlatten x := by
  simp [stackFlatRev]

theorem AbsIter.drainF_eq (it : AbsIter K V) : it.drainF = it.denote := by
  induction it using AbsIter.drainF.induct with
  | case1 it h1 h2 ih =>
    rw [AbsIter.drainF]
    split
    · next iter heq =>
        rw [h2] at heq
        obtain rfl := Option.some.inj heq
        show AbsIter.drainF ⟨it.lca, it.left.dropLast, it.right, it.size⟩ = it.denote
        rw [ih]
        simp only [AbsIter.denote]
        conv_rhs => rw [← List.dropLast_append_getLast? _ h2]
        rw [stackFlatRev_concat]
        simp [itemsFlatten]
    · next heq =>
        rw [h2] at heq
        simp at heq
  | case2 it n rest h1 h2 ih =>
    rw [AbsIter.drainF]
    split
    · next iter heq =>
        rw [h2] at heq
        obtain rfl := Option.some.inj heq
        show AbsIter.drainF
            ⟨it.lca, it.left.dropLast ++ [rest, n.traversalItems], it.right,
              it.size⟩ = it.denote
        rw [ih]
        simp only [AbsIter.denote]
        conv_rhs => rw [← List.dropLast_append_getLast? _ h2]
        have hsplit : it.left.dropLast ++ [rest, n.traversalItems] =
            (it.left.dropLast ++ [rest]) ++ [n.traversalItems] := by simp
        rw [hsplit, stackFlatRev_concat, stackFlatRev_concat, stackFlatRev_concat,
          itemsFlatten_traversalItems]
        simp [itemsFlatten, List.append_assoc]
    · next heq =>
        rw [h2] at heq
        simp at heq
  | case3 it k v rest h1 h2 ih =>
    rw [AbsIter.drainF]
    split
    · next iter heq =>
        rw [h2] at heq
        obtain rfl := Option.some.inj heq
        show (k, v) :: AbsIter.drainF
            ⟨it.lca, it.left.dropLast ++ [rest], it.right, it.size - 1⟩ =
          it.denote
        rw [ih]
        simp only [AbsIter.denote]
        conv_rhs => rw [← List.dropLast_append_getLast? _ h2]
        rw [stackFlatRev_concat, stackFlatRev_concat]
        simp [itemsFlatten, List.append_assoc]
    · next heq =>
        rw [h2] at heq
        simp at heq
  | case4 it h1 n rest h2 ih =>
    have hL0 : it.left = [] := List.getLast?_eq_none_iff.mp h1
    rw [AbsIter.drainF]
    split
    · next iter heq =>
        rw [h1] at heq
        simp at heq
    · next heq =>
        split
        · next n' rest' heq2 =>
            rw [h2] at heq2
            injection heq2 with he ht
            injection he with hn
            subst hn
            subst ht
            rw [ih]
            simp only [AbsIter.denote, hL0, h2]
            rw [stackFlatRev_concat, itemsFlatten_traversalItems]
            simp [itemsFlatten, stackFlatRev_nil, List.append_assoc]
        · next k' v' rest' heq2 =>
            rw [h2] at heq2
            simp at heq2
        · next heq2 =>
            rw [h2] at heq2
            simp at heq2
  | case5 it h1 k v rest h2 ih =>
    have hL0 : it.left = [] := List.getLast?_eq_none_iff.mp h1
    rw [AbsIter.drainF]
    split
    · next iter heq =>
        rw [h1] at heq
        simp at heq
    · next heq =>
        split
        · next n' rest' heq2 =>
            rw [h2] at heq2
            simp at heq2
        · next k' v' rest' heq2 =>
            rw [h2] at heq2
            injection heq2 with he ht
            injection he with hk hv
            subst hk
            subst hv
            subst ht
            rw [ih]
            simp only [AbsIter.denote, hL0, h2]
            simp [itemsFlatten, stackFlatRev_nil]
        · next heq2 =>
            rw [h2] at heq2
            simp at heq2
  | case6 it h1 h2 h3 =>
    have hL0 : it.left = [] := List.getLast?_eq_none_iff.mp h1
    rw [AbsIter.drainF]
    split
    · next iter heq =>
        rw [h1] at heq
        simp at heq
    · next heq =>
        split
        · next n' rest' heq2 =>
            rw [h2] at heq2
            simp at heq2
        · next k' v' rest' heq2 =>
            rw [h2] at heq2
            simp at heq2
        · next heq2 =>
            split
            · next heq3 =>
                simp only [AbsIter.denote, hL0, h2, h3]
                rfl
            · next r' rs' heq3 =>
                rw [h3] at heq3
                simp at heq3
  | case7 it h1 h2 r rs h3 ih =>
    have hL0 : it.left = [] := List.getLast?_eq_none_iff.mp h1
    rw [AbsIter.drainF]
    split
    · next iter heq =>
        rw [h1] at heq
        simp at heq
    · next heq =>
        split
        · next n' rest' heq2 =>
            rw [h2] at heq2
            simp at heq2
        · next k' v' rest' heq2 =>
            rw [h2] at heq2
            simp at heq2
        · next heq2 =>
            split
            · next heq3 =>
                rw [h3] at heq3
                simp at heq3
            · next r' rs' heq3 =>
                rw [h3] at heq3
                injection heq3 with hr hrs
                subst hr
                subst hrs
                rw [ih]
                simp only [AbsIter.denote, h2, h3]
                rw [stackFlat_cons]
                simp [itemsFlatten, List.append_assoc]

theorem stackFlat_concat (ls : List (List (TraversalItem K V)))
    (x : List (TraversalItem K V)) :
    stackFlat (ls ++ [x]) = stackFlat ls ++ itemsFlatten x := by
  simp [stackFlat]

theorem AbsIter.drainB_eq (it : AbsIter K V) : it.drainB = it.denote.reverse := by
  induction it using AbsIter.drainB.induct with
  | case1 it iter h n h4 ih =>
    rw [AbsIter.drainB]
    split
    · next iter' heq =>
        rw [h] at heq
        obtain rfl := Option.some.inj heq
        split
        · next n' heq4 =>
            rw [h4] at heq4
            obtain rfl : n = n' := by
              injection Option.some.inj heq4 with hh
            show AbsIter.drainB ⟨it.lca, it.left,
                it.right.dropLast ++ [iter.dropLast, n.traversalItems],
                it.size⟩ = it.denote.reverse
            rw [ih]
            congr 1
            simp only [AbsIter.denote]
            conv_rhs => rw [← List.dropLast_append_getLast? _ h]
            have hiter : itemsFlatten iter =
                itemsFlatten iter.dropLast ++ n.inorder := by
              conv_lhs => rw [← List.dropLast_append_getLast? _ h4]
              rw [itemsFlatten_append]
              simp [itemsFlatten]
            have hsplit : it.right.dropLast ++ [iter.dropLast, n.traversalItems] =
                (it.right.dropLast ++ [iter.dropLast]) ++ [n.traversalItems] := by
              simp
            rw [hsplit, stackFlat_concat, stackFlat_concat, stackFlat_concat,
              itemsFlatten_traversalItems, hiter]
            simp [List.append_assoc]
        · next k' v' heq4 =>
            rw [h4] at heq4
            simp at heq4
        · next heq4 =>
            rw [h4] at heq4
            simp at heq4
    · next heq =>
        rw [h] at heq
        simp at heq
  | case2 it iter h k v h4 ih =>
    rw [AbsIter.drainB]
    split
    · next iter' heq =>
        rw [h] at heq
        obtain rfl := Option.some.inj heq
        split
        · next n' heq4 =>
            rw [h4] at heq4
            simp at heq4
        · next k' v' heq4 =>
            rw [h4] at heq4
            obtain ⟨rfl, rfl⟩ : k = k' ∧ v = v' := by
              injection Option.some.inj heq4 with h5 h6
              exact ⟨h5, h6⟩
            show (k, v) :: AbsIter.drainB ⟨it.lca, it.left,
                it.right.dropLast ++ [iter.dropLast], it.size - 1⟩ =
              it.denote.reverse
            rw [ih]
            have hold : it.denote = AbsIter.denote ⟨it.lca, it.left,
                it.right.dropLast ++ [iter.dropLast], it.size - 1⟩ ++ [(k, v)] := by
              simp only [AbsIter.denote]
              conv_lhs => rw [← List.dropLast_append_getLast? _ h]
              have hiter : itemsFlatten iter =
                  itemsFlatten iter.dropLast ++ [(k, v)] := by
                conv_lhs => rw [← List.dropLast_append_getLast? _ h4]
                rw [itemsFlatten_append]
                simp [itemsFlatten]
              rw [stackFlat_concat, stackFlat_concat, hiter]
              simp [List.append_assoc]
            rw [hold, List.reverse_append]
            simp
        · next heq4 =>
            rw [h4] at heq4
            simp at heq4
    · next heq =>
        rw [h] at heq
        simp at heq
  | case3 it iter h h4 ih =>
    rw [AbsIter.drainB]
    split
    · next iter' heq =>
        rw [h] at heq
        obtain rfl := Option.some.inj heq
        split
        · next n' heq4 =>
            rw [h4] at heq4
            simp at heq4
        · next k' v' heq4 =>
            rw [h4] at heq4
            simp at heq4
        · next heq4 =>
            show AbsIter.drainB ⟨it.lca, it.left, it.right.dropLast, it.size⟩ =
              it.denote.reverse
            rw [ih]
            congr 1
            simp only [AbsIter.denote]
            conv_rhs => rw [← List.dropLast_append_getLast? _ h]
            rw [stackFlat_concat]
            have hi0 : iter = [] := List.getLast?_eq_none_iff.mp h4
            simp [hi0, itemsFlatten]
    · next heq =>
        rw [h] at heq
        simp at heq
  | case4 it h n h4 ih =>
    have hR0 : it.right = [] := List.getLast?_eq_none_iff.mp h
    rw [AbsIter.drainB]
    split
    · next iter' heq =>
        rw [h] at heq
        simp at heq
    · next heq =>
        split
        · next n' heq4 =>
            rw [h4] at heq4
            obtain rfl : n = n' := by
              injection Option.some.inj heq4 with hh
            show AbsIter.drainB ⟨it.lca.dropLast, it.left,
                it.right ++ [n.traversalItems], it.size⟩ = it.denote.reverse
            rw [ih]
            congr 1
            simp only [AbsIter.denote, hR0]
            conv_rhs => rw [← List.dropLast_append_getLast? _ h4]
            rw [itemsFlatten_append, stackFlat_concat,
              itemsFlatten_traversalItems]
            simp [itemsFlatten, stackFlat_nil, List.append_assoc]
        · next k' v' heq4 =>
            rw [h4] at heq4
            simp at heq4
        · next heq4 =>
            rw [h4] at heq4
            simp at heq4
  | case5 it h k v h4 ih =>
    have hR0 : it.right = [] := List.getLast?_eq_none_iff.mp h
    rw [AbsIter.drainB]
    split
    · next iter' heq =>
        rw [h] at heq
        simp at heq
    · next heq =>
        split
        · next n' heq4 =>
            rw [h4] at heq4
            simp at heq4
        · next k' v' heq4 =>
            rw [h4] at heq4
            obtain ⟨rfl, rfl⟩ : k = k' ∧ v = v' := by
              injection Option.some.inj heq4 with h5 h6
              exact ⟨h5, h6⟩
            show (k, v) :: AbsIter.drainB ⟨it.lca.dropLast, it.left,
                it.right, it.size - 1⟩ = it.denote.reverse
            rw [ih]
            have hold : it.denote = AbsIter.denote ⟨it.lca.dropLast, it.left,
                it.right, it.size - 1⟩ ++ [(k, v)] := by
              simp only [AbsIter.denote, hR0]
              conv_lhs => rw [← List.dropLast_append_getLast? _ h4]
              rw [itemsFlatten_append]
              simp [itemsFlatten, stackFlat_nil, List.append_assoc]
            rw [hold, List.reverse_append]
            simp
        · next heq4 =>
            rw [h4] at heq4
            simp at heq4
  | case6 it h h4 h3 =>
    have hR0 : it.right = [] := List.getLast?_eq_none_iff.mp h
    have hC0 : it.lca = [] := List.getLast?_eq_none_iff.mp h4
    rw [AbsIter.drainB]
    split
    · next iter' heq =>
        rw [h] at heq
        simp at heq
    · next heq =>
        split
        · next n' heq4 =>
            rw [h4] at heq4
            simp at heq4
        · next k' v' heq4 =>
            rw [h4] at heq4
            simp at heq4
        · next heq4 =>
            split
            · next heq3 =>
                simp [AbsIter.denote, hR0, hC0, h3, stackFlatRev_nil,
                  itemsFlatten, stackFlat_nil]
            · next r' rs' heq3 =>
                rw [h3] at heq3
                simp at heq3
  | case7 it h h4 r rs h3 ih =>
    have hR0 : it.right = [] := List.getLast?_eq_none_iff.mp h
    have hC0 : it.lca = [] := List.getLast?_eq_none_iff.mp h4
    rw [AbsIter.drainB]
    split
    · next iter' heq =>
        rw [h] at heq
        simp at heq
    · next heq =>
        split
        · next n' heq4 =>
            rw [h4] at heq4
            simp at heq4
        · next k' v' heq4 =>
            rw [h4] at heq4
            simp at heq4
        · next heq4 =>
            split
            · next heq3 =>
                rw [h3] at heq3
                simp at heq3
            · next r' rs' heq3 =>
                rw [h3] at heq3
                injection heq3 with hr hrs
                subst hr
                subst hrs
                show AbsIter.drainB ⟨r, rs, it.right, it.size⟩ =
                  it.denote.reverse
                rw [ih]
                congr 1
                simp only [AbsIter.denote, h3, hC0]
                rw [stackFlatRev_cons]
                simp [itemsFlatten, List.append_assoc]

/-! ### The claims -/

theorem BTreeMap.iter_denote (m : BTreeMap K V) :
    (m.iter).denote = m.root.inorder := by
  simp [BTreeMap.iter, AbsIter.denote, stackFlatRev_nil, stackFlat_nil,
    itemsFlatten_traversalItems]

/-- C1: for every key `k` and value `v`, performing `insert(k, v)` on any
(well-formed) map and then `get(k)` on the resulting map returns `v`. -/
theorem claim_C1 [LinearOrder K] {m : BTreeMap K V} (hwf : m.WF) (k : K)
    (v : V) : ((m.insert k v).2).get k = some v := by
  obtain ⟨_, hwf', hins, _, _, _⟩ := BTreeMap.insert_spec hwf k v
  rw [BTreeMap.get_alookup hwf' k, hins, alookup_listIns]

theorem claim_C1_witness :
    sampleMap.WF ∧ ((sampleMap.insert 5 7).2).get 5 = some 7 :=
  ⟨by decide, claim_C1 (by decide) 5 7⟩

/-- C2: the mutating operations `insert`, `remove` and `clear` preserve the
B-tree structural invariants: node capacities (with the root exception),
child counts, strictly increasing keys, uniform leaf depth equal to the
`depth` field, and a `length` field equal to the number of reachable pairs
(the `BTreeMap.WF` predicate). -/
theorem claim_C2 [LinearOrder K] {m : BTreeMap K V} (hwf : m.WF) :
    (∀ k v, ((m.insert k v).2).WF) ∧ (∀ k, ((m.remove k).2).WF) ∧
    m.clear.WF := by
  refine ⟨fun k v => (BTreeMap.insert_spec hwf k v).2.1, fun k => ?_, ?_⟩
  · rcases hg : m.get k with _ | v
    · rw [(BTreeMap.remove_spec hwf k).1 hg]
      exact hwf
    · exact ((BTreeMap.remove_spec hwf k).2 v hg).2.1
  · refine ⟨hwf.1, ?_, rfl, rfl, List.Pairwise.nil⟩
    simp only [BTreeMap.clear, Node.rootBalanced, Node.balancedLo,
      Bool.and_eq_true, decide_eq_true_eq, List.length_nil]
    exact ⟨le_refl _, Nat.zero_le _⟩

theorem claim_C2_witness :
    sampleMap.WF ∧ ((sampleMap.insert 9 9).2).WF ∧
    ((sampleMap.remove 3).2).WF ∧ sampleMap.clear.WF :=
  ⟨by decide, (claim_C2 (by decide)).1 9 9, (claim_C2 (by decide)).2.1 3,
    (claim_C2 (by decide)).2.2⟩

/-- C3: after `insert(k, v1)` then `insert(k, v2)`, `get(k)` returns `v2`,
the second insert returns `v1` as the previous value, and the length is
unchanged by the second insert; in general `insert` increments the length
iff the key was not already present. -/
theorem claim_C3 [LinearOrder K] {m : BTreeMap K V} (hwf : m.WF) (k : K)
    (v1 v2 : V) :
    ((m.insert k v1).2.insert k v2).1 = some v1 ∧
    ((m.insert k v1).2.insert k v2).2.get k = some v2 ∧
    ((m.insert k v1).2.insert k v2).2.length = (m.insert k v1).2.length ∧
    (∀ (key : K) (val : V), ((m.insert key val).2).length =
      (if (m.get key).isSome then m.length else m.length + 1)) := by
  obtain ⟨h1a, hwf1, hins1, _, hlen1, _⟩ := BTreeMap.insert_spec hwf k v1
  obtain ⟨h2a, hwf2, hins2, _, hlen2, _⟩ := BTreeMap.insert_spec hwf1 k v2
  have halo1 : alookup k (m.insert k v1).2.root.inorder = some v1 := by
    rw [hins1, alookup_listIns]
  refine ⟨?_, ?_, ?_, ?_⟩
  · rw [h2a, halo1]
  · rw [BTreeMap.get_alookup hwf2 k, hins2, alookup_listIns]
  · rw [hlen2, halo1]
    rfl
  · intro key val
    rw [BTreeMap.get_alookup hwf key]
    exact (BTreeMap.insert_spec hwf key val).2.2.2.2.1

theorem claim_C3_witness :
    sampleMap.WF ∧ ((sampleMap.insert 3 7).2.insert 3 8).1 = some 7 ∧
    ((sampleMap.insert 3 7).2.insert 3 8).2.get 3 = some 8 ∧
    ((sampleMap.insert 3 7).2.insert 3 8).2.length =
      (sampleMap.insert 3 7).2.length ∧
    ((sampleMap.insert 5 50).2).length =
      (if (sampleMap.get 5).isSome then sampleMap.length
       else sampleMap.length + 1) :=
  ⟨by decide, (claim_C3 (by decide) 3 7 8).1, (claim_C3 (by decide) 3 7 8).2.1,
    (claim_C3 (by decide) 3 7 8).2.2.1, (claim_C3 (by decide) 3 7 8).2.2.2 5 50⟩

/-- C4: for a key `k` absent from a well-formed map, `insert(k, v)` followed
by `remove(k)` returns `v` from the remove, a subsequent `get(k)` is absent,
and the length equals the length before the insert. -/
theorem claim_C4 [LinearOrder K] {m : BTreeMap K V} (hwf : m.WF) (k : K)
    (v : V) (habs : m.get k = none) :
    ((m.insert k v).2.remove k).1 = some v ∧
    ((m.insert k v).2.remove k).2.get k = none ∧
    ((m.insert k v).2.remove k).2.length = m.length := by
  obtain ⟨_, hwf1, hins1, _, hlen1, _⟩ := BTreeMap.insert_spec hwf k v
  have halo0 : alookup k m.root.inorder = none := by
    rw [← BTreeMap.get_alookup hwf k]
    exact habs
  have hget1 : (m.insert k v).2.get k = some v := by
    rw [BTreeMap.get_alookup hwf1 k, hins1, alookup_listIns]
  obtain ⟨ha, hwf2, hero, _, hlen2⟩ := (BTreeMap.remove_spec hwf1 k).2 v hget1
  have hres : ((m.insert k v).2.remove k).2.root.inorder = m.root.inorder := by
    rw [hero, hins1, eraseKeyL_listIns halo0]
  refine ⟨ha, ?_, ?_⟩
  · rw [BTreeMap.get_alookup hwf2 k, hres]
    exact halo0
  · rw [hlen1, halo0] at hlen2
    simp only [Option.isSome_none, Bool.false_eq_true, if_false] at hlen2
    omega

theorem claim_C4_witness :
    sampleMap.WF ∧ sampleMap.get 7 = none ∧
    ((sampleMap.insert 7 70).2.remove 7).1 = some 70 ∧
    ((sampleMap.insert 7 70).2.remove 7).2.get 7 = none ∧
    ((sampleMap.insert 7 70).2.remove 7).2.length = sampleMap.length :=
  ⟨by decide, by decide, (claim_C4 (by decide) 7 70 (by decide)).1,
    (claim_C4 (by decide) 7 70 (by decide)).2.1,
    (claim_C4 (by decide) 7 70 (by decide)).2.2⟩

/-- C5: removing a key absent from a well-formed map returns `none` and
leaves the map completely unchanged (the returned map is `m` itself, so
contents, length and depth are untouched). -/
theorem claim_C5 [LinearOrder K] {m : BTreeMap K V} (hwf : m.WF) (q : K)
    (h : m.get q = none) : m.remove q = (none, m) :=
  (BTreeMap.remove_spec hwf q).1 h

theorem claim_C5_witness :
    sampleMap.WF ∧ sampleMap.get 9 = none ∧
    sampleMap.remove 9 = (none, sampleMap) :=
  ⟨by decide, by decide, claim_C5 (by decide) 9 (by decide)⟩

/-- C6: on a well-formed map of `n` pairs, a full forward iteration yields
exactly `n` pairs with strictly ascending keys, and a full reverse iteration
yields the same multiset of pairs. -/
theorem claim_C6 [LinearOrder K] {m : BTreeMap K V} (hwf : m.WF) :
    (m.iter).drainF.length = m.len ∧
    List.Pairwise (fun p q : K × V => p.1 < q.1) (m.iter).drainF ∧
    List.Perm (m.iter).drainB (m.iter).drainF := by
  obtain ⟨hb, hrb, hgd, hlen, hsort⟩ := hwf
  have hF : (m.iter).drainF = m.root.inorder := by
    rw [AbsIter.drainF_eq, BTreeMap.iter_denote]
  have hB : (m.iter).drainB = m.root.inorder.reverse := by
    rw [AbsIter.drainB_eq, BTreeMap.iter_denote]
  refine ⟨?_, ?_, ?_⟩
  · rw [hF]
    exact hlen.symm
  · rw [hF]
    exact hsort
  · rw [hF, hB]
    exact List.reverse_perm _

theorem claim_C6_witness :
    sampleMap.WF ∧
    ((sampleMap.iter).drainF.length = sampleMap.len ∧
     List.Pairwise (fun p q : Nat × Nat => p.1 < q.1) (sampleMap.iter).drainF ∧
     List.Perm (sampleMap.iter).drainB (sampleMap.iter).drainF) :=
  ⟨by decide, claim_C6 (by decide)⟩

/-- C7: whenever a remove leaves the root as an internal node of length 0,
the operation installs that node's lone child as the new root
(`hoist_lone_child`) and decrements the map's depth by exactly one, while
returning the removed value. -/
theorem claim_C7 [LinearOrder K] {m : BTreeMap K V} (hwf : m.WF) {key : K}
    {v : V} {n' : Node K V}
    (hgo : Node.removeGo m.b m.root key = some (v, n'))
    (h0 : n'.len = 0) (hleaf : n'.is_leaf = false) :
    (m.remove key).2.root = n'.hoist_lone_child ∧
    (m.remove key).2.depth + 1 = m.depth ∧
    (m.remove key).1 = some v := by
  have hd1 : 1 ≤ m.depth := goodDepth_pos hwf.2.2.1
  have hcond : (n'.len == 0 && !n'.is_leaf) = true := by
    simp [h0, hleaf]
  simp only [BTreeMap.remove, hgo, hcond, if_true]
  refine ⟨trivial, ?_, trivial⟩
  show m.depth - 1 + 1 = m.depth
  omega

theorem claim_C7_witness :
    sampleMap2.WF ∧
    Node.removeGo sampleMap2.b sampleMap2.root 2 =
      some (20, Node.internal ([] : List (Nat × Nat))
        [Node.leaf [(3, 30), (4, 40)]]) ∧
    (sampleMap2.remove 2).2.root =
      (Node.internal ([] : List (Nat × Nat))
        [Node.leaf [(3, 30), (4, 40)]]).hoist_lone_child ∧
    (sampleMap2.remove 2).2.depth + 1 = sampleMap2.depth ∧
    (sampleMap2.remove 2).1 = some 20 :=
  ⟨by decide, by rfl,
    (claim_C7 (by decide) (by rfl) (by rfl) (by rfl)).1,
    (claim_C7 (by decide) (by rfl) (by rfl) (by rfl)).2.1,
    (claim_C7 (by decide) (by rfl) (by rfl) (by rfl)).2.2⟩

/-- C8: `with_b b` requires `b ≥ 2` and fails its precondition for `b < 2`
(modelled as `none`); for every `b ≥ 2`, including the boundary `b = 2`, it
returns the empty map whose root is an empty leaf with length 0 and depth 1;
and `new()` is exactly `with_b 6`. -/
theorem claim_C8 : ∀ b : Nat,
    (b < 2 → (with_b b : Option (BTreeMap K V)) = none) ∧
    (2 ≤ b → (with_b b : Option (BTreeMap K V)) =
      some { root := .leaf [], length := 0, depth := 1, b := b }) ∧
    (BTreeMap.new : Option (BTreeMap K V)) = with_b 6 := by
  intro b
  refine ⟨?_, ?_, rfl⟩
  · intro h
    rw [with_b, if_neg (by omega)]
  · intro h
    rw [with_b, if_pos (by omega)]

theorem claim_C8_witness :
    (with_b 2 : Option (BTreeMap Nat Nat)) =
      some { root := .leaf [], length := 0, depth := 1, b := 2 } ∧
    (with_b 1 : Option (BTreeMap Nat Nat)) = none :=
  ⟨(claim_C8 2).2.1 (by decide), (claim_C8 1).1 (by decide)⟩

/-- C9: `clear` keeps the map's branching parameter: a map built by
`with_b b` clears to the empty map (length 0, depth 1, empty leaf root)
whose `b` is still `b` — it is not reset to the default 6. -/
theorem claim_C9 : ∀ (b : Nat) (m : BTreeMap K V), with_b b = some m →
    m.clear = { root := .leaf [], length := 0, depth := 1, b := b } ∧
    m.clear.b = b := by
  intro b m h
  rw [with_b] at h
  by_cases hb : 1 < b
  · rw [if_pos hb] at h
    obtain rfl := Option.some.inj h
    exact ⟨rfl, rfl⟩
  · rw [if_neg hb] at h
    exact Option.noConfusion h

theorem claim_C9_witness :
    ({ root := .leaf [], length := 0, depth := 1, b := 3 } :
      BTreeMap Nat Nat).clear =
      { root := .leaf [], length := 0, depth := 1, b := 3 } ∧
    ({ root := .leaf [], length := 0, depth := 1, b := 3 } :
      BTreeMap Nat Nat).clear.b = 3 :=
  ⟨(claim_C9 3 _ (by rfl)).1, (claim_C9 3 _ (by rfl)).2⟩

/-- C10: `contains_key q` returns `true` iff `get q` returns a value; the
two agree definitionally (`contains_key` is `get` followed by `isSome`), and
both are pure functions of the map. -/
theorem claim_C10 [LinearOrder K] (m : BTreeMap K V) (q : K) :
    m.contains_key q = (m.get q).isSome ∧
    (m.contains_key q = true ↔ ∃ v, m.get q = some v) := by
  refine ⟨rfl, ?_⟩
  rw [show m.contains_key q = (m.get q).isSome from rfl]
  cases m.get q <;> simp

end BTreeSpec
